import Mathlib

/-!
Shallow embedding of the state-and-geometry core of the geller-map mind-map
editor: the `MindMapStore` mutation API (add/delete/update/offset, undo/redo,
dirty tracking), the `LayoutService` tree layout, and the connection-layer
anchor-edge selection, together with theorems checking the specification's
claims against this embedding.

Modelling conventions:
- JavaScript objects keyed by node id (`Record<string, T>`) are association
  lists `List (String × T)`; `mget`, `mset`, `mdel` mirror property lookup,
  spread-update `{...m, [k]: v}` (replace in place, append when new) and
  `delete m[k]`.
- JS numbers are `ℚ` (the code only adds, subtracts, halves and compares
  coordinates, so exact arithmetic is faithful on the claim-relevant paths).
- `Date` timestamps are `Nat` values supplied by the caller (the clock port);
  operations that stamp `updatedAt` take a `now` parameter.
- `undefined`/`null`-able values are `Option`; an optional object field models
  "key absent or undefined" as `none`.
- The recursive descendant collector and the recursive layout walk are encoded
  with an explicit fuel parameter of `nodes.length + 1`, which is enough fuel
  for every acyclic mapping (the JS recursion does not terminate on cyclic
  inputs, where no claim applies).
-/

namespace GellerMap

/-- 2-D position, `Position` of `mind-map.model.ts`. -/
structure Position where
  x : ℚ
  y : ℚ
deriving DecidableEq, Repr

/-- Property lookup `m[k]` on an id-keyed JS object. -/
def mget {α : Type} : List (String × α) → String → Option α
  | [], _ => none
  | (k0, v0) :: rest, k => if k0 = k then some v0 else mget rest k

/-- Spread update `{...m, [k]: v}`: replaces the value in place when the key
exists, appends the binding otherwise. -/
def mset {α : Type} : List (String × α) → String → α → List (String × α)
  | [], k, v => [(k, v)]
  | (k0, v0) :: rest, k, v =>
    if k0 = k then (k, v) :: rest else (k0, v0) :: mset rest k v

/-- `delete m[k]`: removes every binding of key `k`. -/
def mdel {α : Type} : List (String × α) → String → List (String × α)
  | [], _ => []
  | (k0, v0) :: rest, k =>
    if k0 = k then mdel rest k else (k0, v0) :: mdel rest k

/-- The keys of an id-keyed object. -/
def mkeys {α : Type} (m : List (String × α)) : List String :=
  m.map Prod.fst

@[simp]
theorem mget_nil {α : Type} (k : String) : mget ([] : List (String × α)) k = none := rfl

@[simp]
theorem mget_cons {α : Type} (k0 k : String) (v0 : α) (rest : List (String × α)) :
    mget ((k0, v0) :: rest) k = if k0 = k then some v0 else mget rest k := rfl

@[simp]
theorem mget_mset_self {α : Type} (m : List (String × α)) (k : String) (v : α) :
    mget (mset m k v) k = some v := by
  induction m with
  | nil => simp [mset]
  | cons e rest ih =>
    obtain ⟨k0, v0⟩ := e
    by_cases h : k0 = k <;> simp [mset, h, ih]

theorem mget_mset_ne {α : Type} (m : List (String × α)) (k k' : String) (v : α)
    (h : k' ≠ k) : mget (mset m k v) k' = mget m k' := by
  induction m with
  | nil => simp [mset, Ne.symm h]
  | cons e rest ih =>
    obtain ⟨k0, v0⟩ := e
    by_cases h0 : k0 = k
    · subst h0
      simp [mset, Ne.symm h]
    · simp only [mset, if_neg h0, mget_cons, ih]

theorem mset_eq_self_of_mget {α : Type} (m : List (String × α)) (k : String) (v : α)
    (h : mget m k = some v) : mset m k v = m := by
  induction m with
  | nil => simp [mget] at h
  | cons e rest ih =>
    obtain ⟨k0, v0⟩ := e
    by_cases h0 : k0 = k
    · subst h0
      simp at h
      simp [mset, h]
    · simp only [mget_cons, if_neg h0] at h
      simp [mset, h0, ih h]

theorem mget_mdel {α : Type} (m : List (String × α)) (k k' : String) :
    mget (mdel m k) k' = if k' = k then none else mget m k' := by
  induction m with
  | nil => simp [mdel]
  | cons e rest ih =>
    obtain ⟨k0, v0⟩ := e
    by_cases h0 : k0 = k
    · subst h0
      by_cases h1 : k' = k0
      · subst h1
        simp [mdel, ih]
      · simp [mdel, ih, h1, Ne.symm h1]
    · by_cases h1 : k0 = k'
      · subst h1
        simp [mdel, h0, Ne.symm h0]
      · simp [mdel, h0, h1, ih]

@[simp]
theorem mget_mdel_self {α : Type} (m : List (String × α)) (k : String) :
    mget (mdel m k) k = none := by
  simp [mget_mdel]

theorem mget_mdel_ne {α : Type} (m : List (String × α)) (k k' : String) (h : k' ≠ k) :
    mget (mdel m k) k' = mget m k' := by
  simp [mget_mdel, h]

/-- Lookup over a fold of deletions. -/
theorem mget_foldl_mdel {α : Type} (ids : List String) (m : List (String × α)) (k : String) :
    mget (ids.foldl mdel m) k = if k ∈ ids then none else mget m k := by
  induction ids generalizing m with
  | nil => simp
  | cons i rest ih =>
    by_cases h : k = i
    · subst h
      by_cases hr : k ∈ rest <;> simp [ih, hr, mget_mdel]
    · by_cases hr : k ∈ rest <;> simp [ih, hr, mget_mdel, h]

theorem mem_of_mem_mdel {α : Type} {m : List (String × α)} {k : String}
    {e : String × α} (h : e ∈ mdel m k) : e ∈ m := by
  induction m with
  | nil => simpa [mdel] using h
  | cons e0 rest ih =>
    obtain ⟨k0, v0⟩ := e0
    by_cases h0 : k0 = k
    · simp only [mdel, if_pos h0] at h
      exact List.mem_cons_of_mem _ (ih h)
    · simp only [mdel, if_neg h0, List.mem_cons] at h
      rcases h with h | h
      · exact h ▸ List.mem_cons_self _ _
      · exact List.mem_cons_of_mem _ (ih h)

theorem mem_mdel_of_mem {α : Type} {m : List (String × α)} {k : String}
    {e : String × α} (h : e ∈ m) (hk : e.1 ≠ k) : e ∈ mdel m k := by
  induction m with
  | nil => simp at h
  | cons e0 rest ih =>
    obtain ⟨k0, v0⟩ := e0
    rcases List.mem_cons.mp h with h | h
    · subst h
      simp only [mdel, if_neg hk]
      exact List.mem_cons_self _ _
    · by_cases h0 : k0 = k
      · simpa [mdel, h0] using ih h
      · simp only [mdel, if_neg h0]
        exact List.mem_cons_of_mem _ (ih h)

theorem mem_foldl_mdel_of_mem {α : Type} {ids : List String} {m : List (String × α)}
    {e : String × α} (h : e ∈ m) (hk : e.1 ∉ ids) : e ∈ ids.foldl mdel m := by
  induction ids generalizing m with
  | nil => simpa using h
  | cons i rest ih =>
    simp only [List.mem_cons, not_or] at hk
    exact ih (mem_mdel_of_mem h hk.1) hk.2

theorem mem_of_mem_foldl_mdel {α : Type} {ids : List String} {m : List (String × α)}
    {e : String × α} (h : e ∈ ids.foldl mdel m) : e ∈ m := by
  induction ids generalizing m with
  | nil => simpa using h
  | cons i rest ih => exact mem_of_mem_mdel (ih h)

theorem mem_of_mem_mset {α : Type} {m : List (String × α)} {k : String} {v : α}
    {e : String × α} (h : e ∈ mset m k v) : e ∈ m ∨ e = (k, v) := by
  induction m with
  | nil =>
    simp only [mset, List.mem_singleton] at h
    exact Or.inr h
  | cons e0 rest ih =>
    obtain ⟨k0, v0⟩ := e0
    by_cases h0 : k0 = k
    · simp only [mset, if_pos h0, List.mem_cons] at h
      rcases h with h | h
      · exact Or.inr h
      · exact Or.inl (List.mem_cons_of_mem _ h)
    · simp only [mset, if_neg h0, List.mem_cons] at h
      rcases h with h | h
      · exact Or.inl (List.mem_cons.mpr (Or.inl h))
      · rcases ih h with h | h
        · exact Or.inl (List.mem_cons_of_mem _ h)
        · exact Or.inr h

theorem mem_mset_of_mem {α : Type} {m : List (String × α)} {k : String} {v : α}
    {e : String × α} (h : e ∈ m) (hk : e.1 ≠ k) : e ∈ mset m k v := by
  induction m with
  | nil => simp at h
  | cons e0 rest ih =>
    obtain ⟨k0, v0⟩ := e0
    by_cases h0 : k0 = k
    · simp only [mset, if_pos h0]
      rcases List.mem_cons.mp h with h | h
      · exact absurd (show e.1 = k by rw [h]; exact h0) hk
      · exact List.mem_cons_of_mem _ h
    · simp only [mset, if_neg h0]
      rcases List.mem_cons.mp h with h | h
      · exact List.mem_cons.mpr (Or.inl h)
      · exact List.mem_cons_of_mem _ (ih h)

theorem mget_mem {α : Type} {m : List (String × α)} {k : String} {v : α}
    (h : mget m k = some v) : (k, v) ∈ m := by
  induction m with
  | nil => simp [mget] at h
  | cons e0 rest ih =>
    obtain ⟨k0, v0⟩ := e0
    by_cases h0 : k0 = k
    · subst h0
      simp at h
      rw [← h]
      exact List.mem_cons_self _ _
    · simp only [mget_cons, if_neg h0] at h
      exact List.mem_cons_of_mem _ (ih h)

theorem mkeys_mdel_sublist {α : Type} (m : List (String × α)) (k : String) :
    (mkeys (mdel m k)).Sublist (mkeys m) := by
  induction m with
  | nil => simp [mdel, mkeys]
  | cons e0 rest ih =>
    obtain ⟨k0, v0⟩ := e0
    by_cases h0 : k0 = k
    · simpa only [mdel, if_pos h0, mkeys, List.map_cons] using ih.cons k0
    · simpa only [mdel, if_neg h0, mkeys, List.map_cons] using ih.cons₂ k0

theorem mkeys_mset_present {α : Type} {m : List (String × α)} {k : String} (v : α)
    (h : (mget m k).isSome) : mkeys (mset m k v) = mkeys m := by
  induction m with
  | nil => simp [mget] at h
  | cons e0 rest ih =>
    obtain ⟨k0, v0⟩ := e0
    by_cases h0 : k0 = k
    · simp [mset, mkeys, h0]
    · simp only [mget_cons, if_neg h0] at h
      simp only [mset, if_neg h0, mkeys, List.map_cons, List.cons.injEq, true_and]
      exact ih h

theorem mkeys_mset_absent {α : Type} {m : List (String × α)} {k : String} (v : α)
    (h : mget m k = none) : mkeys (mset m k v) = mkeys m ++ [k] := by
  induction m with
  | nil => simp [mset, mkeys]
  | cons e0 rest ih =>
    obtain ⟨k0, v0⟩ := e0
    by_cases h0 : k0 = k
    · simp [mget, h0] at h
    · simp only [mget_cons, if_neg h0] at h
      simp only [mset, if_neg h0, mkeys, List.map_cons, List.cons_append,
        List.cons.injEq, true_and]
      exact ih h

theorem mget_eq_none_iff {α : Type} {m : List (String × α)} {k : String} :
    mget m k = none ↔ k ∉ mkeys m := by
  induction m with
  | nil => simp [mkeys]
  | cons e0 rest ih =>
    obtain ⟨k0, v0⟩ := e0
    by_cases h0 : k0 = k
    · subst h0
      simp [mkeys]
    · simp only [mget_cons, if_neg h0, mkeys, List.map_cons, List.mem_cons]
      rw [ih]
      simp only [mkeys]
      constructor
      · intro hx hc
        rcases hc with hc | hc
        · exact h0 hc.symm
        · exact hx hc
      · intro hx hc
        exact hx (Or.inr hc)

theorem mget_isSome_iff {α : Type} {m : List (String × α)} {k : String} :
    (mget m k).isSome ↔ k ∈ mkeys m := by
  cases h : mget m k with
  | none => simpa using mget_eq_none_iff.mp h
  | some v =>
    simp only [Option.isSome_some, true_iff]
    simpa [mkeys] using List.mem_map_of_mem Prod.fst (mget_mem h)

/-- Under key uniqueness, membership of a binding coincides with lookup. -/
theorem mem_iff_mget {α : Type} {m : List (String × α)} (hn : (mkeys m).Nodup)
    {k : String} {v : α} : (k, v) ∈ m ↔ mget m k = some v := by
  constructor
  · intro h
    induction m with
    | nil => simp at h
    | cons e0 rest ih =>
      obtain ⟨k0, v0⟩ := e0
      simp only [mkeys, List.map_cons, List.nodup_cons] at hn
      rcases List.mem_cons.mp h with h | h
      · simp only [Prod.mk.injEq] at h
        simp [mget, h.1, h.2]
      · have hkm : k ∈ mkeys rest := by
          simpa [mkeys] using List.mem_map_of_mem Prod.fst h
        have hk0 : k0 ≠ k := fun he => hn.1 (he ▸ hkm)
        simpa [mget, hk0] using ih (by simpa [mkeys] using hn.2) h
  · exact mget_mem

theorem length_mset_present {α : Type} {m : List (String × α)} {k : String} (v : α)
    (h : (mget m k).isSome) : (mset m k v).length = m.length := by
  induction m with
  | nil => simp [mget] at h
  | cons e0 rest ih =>
    obtain ⟨k0, v0⟩ := e0
    by_cases h0 : k0 = k
    · simp [mset, h0]
    · simp only [mget_cons, if_neg h0] at h
      simp [mset, h0, ih h]

theorem mdel_absent {α : Type} {m : List (String × α)} {k : String}
    (h : mget m k = none) : mdel m k = m := by
  induction m with
  | nil => simp [mdel]
  | cons e0 rest ih =>
    obtain ⟨k0, v0⟩ := e0
    by_cases h0 : k0 = k
    · simp [mget, h0] at h
    · simp only [mget_cons, if_neg h0] at h
      simp [mdel, h0, ih h]

theorem length_mdel_present {α : Type} {m : List (String × α)} {k : String}
    (hn : (mkeys m).Nodup) (h : (mget m k).isSome) :
    (mdel m k).length = m.length - 1 := by
  induction m with
  | nil => simp [mget] at h
  | cons e0 rest ih =>
    obtain ⟨k0, v0⟩ := e0
    simp only [mkeys, List.map_cons, List.nodup_cons] at hn
    by_cases h0 : k0 = k
    · subst h0
      have hnone : mget rest k0 = none := mget_eq_none_iff.mpr (by simpa [mkeys] using hn.1)
      simp [mdel, mdel_absent hnone]
    · simp only [mget_cons, if_neg h0] at h
      have hlen := ih (by simpa [mkeys] using hn.2) h
      have hpos : 0 < rest.length := by
        rcases Option.isSome_iff_exists.mp h with ⟨w, hw⟩
        have := mget_mem hw
        exact List.length_pos.mpr (fun he => by simp [he] at this)
      simp only [mdel, if_neg h0, List.length_cons, hlen]
      omega

theorem mkeys_nodup_mdel {α : Type} {m : List (String × α)} (k : String)
    (hn : (mkeys m).Nodup) : (mkeys (mdel m k)).Nodup :=
  hn.sublist (mkeys_mdel_sublist m k)

theorem mkeys_nodup_mset {α : Type} {m : List (String × α)} (k : String) (v : α)
    (hn : (mkeys m).Nodup) : (mkeys (mset m k v)).Nodup := by
  cases h : mget m k with
  | none =>
    rw [mkeys_mset_absent v h]
    simpa [List.nodup_append, mget_eq_none_iff.mp h] using hn
  | some w =>
    rw [mkeys_mset_present v (by simp [h])]
    exact hn

theorem length_foldl_mdel {α : Type} (ids : List String) (m : List (String × α))
    (hn : (mkeys m).Nodup) (hd : ids.Nodup) (hpres : ∀ i ∈ ids, (mget m i).isSome) :
    (ids.foldl mdel m).length = m.length - ids.length := by
  induction ids generalizing m with
  | nil => simp
  | cons i rest ih =>
    simp only [List.nodup_cons] at hd
    have h1 : (mdel m i).length = m.length - 1 :=
      length_mdel_present hn (hpres i (List.mem_cons_self _ _))
    have h2 : (mkeys (mdel m i)).Nodup := mkeys_nodup_mdel i hn
    have h3 : ∀ j ∈ rest, (mget (mdel m i) j).isSome := by
      intro j hj
      rw [mget_mdel_ne _ _ _ (fun he => hd.1 (by rw [← he]; exact hj))]
      exact hpres j (List.mem_cons_of_mem _ hj)
    have hpos : 0 < m.length := by
      rcases Option.isSome_iff_exists.mp (hpres i (List.mem_cons_self _ _)) with ⟨v, hv⟩
      exact List.length_pos.mpr (fun he => by simp [he, mget] at hv)
    simp only [List.foldl_cons, ih (mdel m i) h2 hd.2 h3, h1, List.length_cons]
    omega

/-- Lookup through a key-preserving map. -/
theorem mget_map_entries {α β : Type} (m : List (String × α)) (f : String → α → β)
    (k : String) :
    mget (m.map (fun e => (e.1, f e.1 e.2))) k = (mget m k).map (f k) := by
  induction m with
  | nil => simp
  | cons e0 rest ih =>
    obtain ⟨k0, v0⟩ := e0
    by_cases h0 : k0 = k
    · subst h0
      simp
    · simpa [h0] using ih

/-! ## Data model (`mind-map.model.ts`) -/

/-- `NodeStyle`; the `connectionColor`/`connectionDashed` overrides are part of
the runtime style object (written by `updateConnectionStyle`, read by the
connection layer and the preview generator). -/
structure NodeStyle where
  color : Option String
  shape : Option String
  fontFamily : Option String
  icon : Option String
  connectionColor : Option String
  connectionDashed : Option Bool
deriving DecidableEq, Repr

def NodeStyle.empty : NodeStyle :=
  ⟨none, none, none, none, none, none⟩

/-- `NodeTask`; the due date is a clock-port timestamp. -/
structure NodeTask where
  dueDate : Option Nat
  priority : Option String
  isComplete : Option Bool
deriving DecidableEq, Repr

/-- `NodeAttachment`. -/
structure NodeAttachment where
  kind : String
  url : String
  name : Option String
deriving DecidableEq, Repr

/-- `MindMapNode`: a vertex of the content tree. `parentId = none` marks the
root; `manualOffset = none` means "use the auto position unchanged". -/
structure MindMapNode where
  id : String
  userId : String
  mapId : String
  parentId : Option String
  text : String
  manualOffset : Option Position
  position : Option Position
  style : Option NodeStyle
  task : Option NodeTask
  attachments : Option (List NodeAttachment)
  isExpanded : Bool
  childrenIds : List String
  order : ℚ
  createdAt : Nat
  updatedAt : Nat
deriving DecidableEq, Repr

/-- `Partial<MindMapNode>`: every field optionally present; a present field
overrides the node's value on spread-merge. -/
structure NodePatch where
  id : Option String
  userId : Option String
  mapId : Option String
  parentId : Option (Option String)
  text : Option String
  manualOffset : Option (Option Position)
  position : Option (Option Position)
  style : Option (Option NodeStyle)
  task : Option (Option NodeTask)
  attachments : Option (Option (List NodeAttachment))
  isExpanded : Option Bool
  childrenIds : Option (List String)
  order : Option ℚ
  createdAt : Option Nat
  updatedAt : Option Nat
deriving DecidableEq, Repr

def NodePatch.empty : NodePatch :=
  ⟨none, none, none, none, none, none, none, none, none, none, none, none, none,
    none, none⟩

/-- Spread-merge `{...node, ...patch}`. -/
def mergeNode (n : MindMapNode) (p : NodePatch) : MindMapNode where
  id := p.id.getD n.id
  userId := p.userId.getD n.userId
  mapId := p.mapId.getD n.mapId
  parentId := p.parentId.getD n.parentId
  text := p.text.getD n.text
  manualOffset := p.manualOffset.getD n.manualOffset
  position := p.position.getD n.position
  style := p.style.getD n.style
  task := p.task.getD n.task
  attachments := p.attachments.getD n.attachments
  isExpanded := p.isExpanded.getD n.isExpanded
  childrenIds := p.childrenIds.getD n.childrenIds
  order := p.order.getD n.order
  createdAt := p.createdAt.getD n.createdAt
  updatedAt := p.updatedAt.getD n.updatedAt

/-- A whole node viewed as a patch (the `before: node` snapshot stored by
`updateNode`; spreading it overrides every field). -/
def toPatch (n : MindMapNode) : NodePatch where
  id := some n.id
  userId := some n.userId
  mapId := some n.mapId
  parentId := some n.parentId
  text := some n.text
  manualOffset := some n.manualOffset
  position := some n.position
  style := some n.style
  task := some n.task
  attachments := some n.attachments
  isExpanded := some n.isExpanded
  childrenIds := some n.childrenIds
  order := some n.order
  createdAt := some n.createdAt
  updatedAt := some n.updatedAt

/-- `MindMapSettings`. -/
structure MindMapSettings where
  theme : String
  layoutMode : String
  defaultNodeColor : Option String
deriving DecidableEq, Repr

/-- `MindMap` document metadata. -/
structure MindMap where
  id : String
  userId : String
  name : String
  description : Option String
  rootNodeId : String
  settings : MindMapSettings
  previewSvg : Option String
  createdAt : Nat
  updatedAt : Nat
deriving DecidableEq, Repr

/-- `MindMapAction`: the tagged history-command union. `SET_OFFSET` may carry
the old/new offset records of the node and every cascaded descendant. -/
inductive MindMapAction where
  | ADD_NODE (node : MindMapNode)
  | DELETE_NODE (node : MindMapNode) (parentId : Option String)
  | SET_OFFSET (nodeId : String) (fromOffset : Option Position)
      (toOffset : Option Position)
      (descendantOffsets :
        Option (List (String × Option Position) × List (String × Position)))
  | UPDATE_NODE (nodeId : String) (before : NodePatch) (after : NodePatch)
  | REPARENT_NODE (nodeId : String) (fromParentId : Option String)
      (toParentId : Option String)
deriving DecidableEq, Repr

/-- `ViewTransform`. -/
structure ViewTransform where
  scale : ℚ
  panX : ℚ
  panY : ℚ
deriving DecidableEq, Repr

/-- The `history` record of past/future command lists. -/
structure HistoryState where
  past : List MindMapAction
  future : List MindMapAction
deriving DecidableEq, Repr

/-- `MindMapState`, the value of the store's `_state` signal. -/
structure MindMapState where
  currentMap : Option MindMap
  nodes : List (String × MindMapNode)
  selectedNodeId : Option String
  editingNodeId : Option String
  history : HistoryState
  view : ViewTransform
deriving DecidableEq, Repr

def DEFAULT_VIEW : ViewTransform :=
  ⟨1, 0, 0⟩

def INITIAL_STATE : MindMapState :=
  ⟨none, [], none, none, ⟨[], []⟩, DEFAULT_VIEW⟩

/-- The store: the `_state` signal plus the three dirty-tracking signals. -/
structure MindMapStore where
  state : MindMapState
  dirtyNodeIds : Finset String
  deletedNodeIds : Finset String
  mapDirty : Bool
deriving DecidableEq

/-! ## LayoutService (`layout.service.ts`) -/

def NODE_WIDTH : ℚ := 150
def NODE_HEIGHT : ℚ := 48
def SPACING_X : ℚ := 250
def SPACING_Y : ℚ := 70

/-- `ComputedLayout`: id-keyed record of auto positions. -/
abbrev ComputedLayout := List (String × Position)

/-- `LayoutService.layoutNode`: depth-first recursive layout returning the
updated layout record and the height consumed by the subtree. The `fuel`
argument bounds the recursion depth; every call below supplies more fuel than
any simple path in an acyclic mapping can consume. -/
def layoutNode : Nat → List (String × MindMapNode) → String → ℚ → ℚ →
    ComputedLayout → ComputedLayout × ℚ
  | 0, _, _, _, _, layout => (layout, 0)
  | fuel + 1, nodes, nodeId, depth, startY, layout =>
    match mget nodes nodeId with
    | none => (layout, 0)
    | some node =>
      let children := node.childrenIds.filterMap (fun cid => mget nodes cid)
      let x := depth * SPACING_X
      match hc : children with
      | [] => (mset layout nodeId ⟨x, startY⟩, NODE_HEIGHT + SPACING_Y)
      | c0 :: cs =>
        let step := fun (acc : ComputedLayout × ℚ × ℚ) (child : MindMapNode) =>
          let r := layoutNode fuel nodes child.id (depth + 1) acc.2.1 acc.1
          (r.1, acc.2.1 + r.2, acc.2.2 + r.2)
        let res := (c0 :: cs).foldl step (layout, startY, 0)
        let firstChildY := match mget res.1 c0.id with
          | some p => p.y
          | none => startY
        let lastChild := (c0 :: cs).getLast (List.cons_ne_nil c0 cs)
        let lastChildY := match mget res.1 lastChild.id with
          | some p => p.y
          | none => startY
        let centerY := (firstChildY + lastChildY) / 2
        (mset res.1 nodeId ⟨x, centerY⟩, res.2.2)

/-- `LayoutService.computeLayout`: runs the recursive walk from the root and
then translates every position so that the root's center lands at the origin.
Returns the empty record when the root id is missing or unresolved. -/
def computeLayout (nodes : List (String × MindMapNode)) (rootId : Option String) :
    ComputedLayout :=
  match rootId with
  | none => []
  | some rid =>
    match mget nodes rid with
    | none => []
    | some _ =>
      let layout := (layoutNode (nodes.length + 1) nodes rid 0 0 []).1
      match mget layout rid with
      | none => layout
      | some rootPos =>
        let offsetX := rootPos.x + NODE_WIDTH / 2
        let offsetY := rootPos.y + NODE_HEIGHT / 2
        layout.map (fun e => (e.1, ⟨e.2.x - offsetX, e.2.y - offsetY⟩))

/-- `LayoutService.getFinalPosition`: auto position plus manual offset;
`(0, 0)` when there is no computed position at all. -/
def getFinalPosition (computedPos : Option Position)
    (manualOffset : Option Position) : Position :=
  match computedPos with
  | none => ⟨0, 0⟩
  | some cp =>
    match manualOffset with
    | none => cp
    | some mo => ⟨cp.x + mo.x, cp.y + mo.y⟩

/-- `LayoutService.calculateOffset`. -/
def calculateOffset (computedPos : Position) (newPos : Position) : Position :=
  ⟨newPos.x - computedPos.x, newPos.y - computedPos.y⟩

/-! ## ConnectionLayerComponent anchor-edge selection -/

inductive AnchorEdge where
  | left
  | right
  | top
  | bottom
deriving DecidableEq, Repr

structure AnchorPoints where
  parentAnchor : AnchorEdge
  childAnchor : AnchorEdge
deriving DecidableEq, Repr

/-- `ConnectionLayerComponent.getAnchorEdges`: picks the anchor edges from the
dominant axis of the center-to-center delta. -/
def getAnchorEdges (parentPos : Position) (childPos : Position) : AnchorPoints :=
  let parentCenterX := parentPos.x + NODE_WIDTH / 2
  let parentCenterY := parentPos.y + NODE_HEIGHT / 2
  let childCenterX := childPos.x + NODE_WIDTH / 2
  let childCenterY := childPos.y + NODE_HEIGHT / 2
  let dx := childCenterX - parentCenterX
  let dy := childCenterY - parentCenterY
  if |dx| ≥ |dy| then
    if dx ≥ 0 then ⟨AnchorEdge.right, AnchorEdge.left⟩
    else ⟨AnchorEdge.left, AnchorEdge.right⟩
  else
    if dy ≥ 0 then ⟨AnchorEdge.bottom, AnchorEdge.top⟩
    else ⟨AnchorEdge.top, AnchorEdge.bottom⟩

/-! ## MindMapStore mutations (`mind-map.store.ts`) -/

namespace MindMapStore

/-- `markNodeDirty`. -/
def markNodeDirty (nodeId : String) (s : MindMapStore) : MindMapStore :=
  { s with dirtyNodeIds := insert nodeId s.dirtyNodeIds }

/-- `markNodesDirty`. -/
def markNodesDirty (nodeIds : List String) (s : MindMapStore) : MindMapStore :=
  { s with dirtyNodeIds := nodeIds.foldl (fun acc i => insert i acc) s.dirtyNodeIds }

/-- `markNodeDeleted`: records the deletion and evicts the id from the dirty
set. -/
def markNodeDeleted (nodeId : String) (s : MindMapStore) : MindMapStore :=
  { s with
    deletedNodeIds := insert nodeId s.deletedNodeIds
    dirtyNodeIds := s.dirtyNodeIds.erase nodeId }

/-- `markMapDirty`. -/
def markMapDirty (s : MindMapStore) : MindMapStore :=
  { s with mapDirty := true }

/-- `clearDirtyState`. -/
def clearDirtyState (s : MindMapStore) : MindMapStore :=
  { s with dirtyNodeIds := ∅, deletedNodeIds := ∅, mapDirty := false }

/-- `hasPendingChanges`. -/
def hasPendingChanges (s : MindMapStore) : Bool :=
  decide (s.dirtyNodeIds.card > 0) || decide (s.deletedNodeIds.card > 0) || s.mapDirty

/-- `loadMap`: wholesale state replacement plus dirty-state reset. -/
def loadMap (map : MindMap) (nodes : List MindMapNode) (s : MindMapStore) :
    MindMapStore :=
  let nodesMap := nodes.foldl (fun acc n => mset acc n.id n) []
  clearDirtyState
    { s with
      state :=
        { s.state with
          currentMap := some map
          nodes := nodesMap
          selectedNodeId := none
          editingNodeId := none
          history := ⟨[], []⟩
          view := DEFAULT_VIEW } }

/-- `clearMap`. -/
def clearMap (s : MindMapStore) : MindMapStore :=
  clearDirtyState { s with state := INITIAL_STATE }

/-- `selectNode`. -/
def selectNode (nodeId : Option String) (s : MindMapStore) : MindMapStore :=
  { s with
    state := { s.state with selectedNodeId := nodeId, editingNodeId := none } }

/-- `startEditing`. -/
def startEditing (nodeId : String) (s : MindMapStore) : MindMapStore :=
  { s with
    state :=
      { s.state with selectedNodeId := some nodeId, editingNodeId := some nodeId } }

/-- `stopEditing`. -/
def stopEditing (s : MindMapStore) : MindMapStore :=
  { s with state := { s.state with editingNodeId := none } }

/-- `getDescendantIds`, with explicit recursion fuel; pushes each child id and
then recurses into it, exactly like the JS depth-first collector. -/
def getDescendantIdsFuel : Nat → String → List (String × MindMapNode) →
    List String
  | 0, _, _ => []
  | fuel + 1, nodeId, nodes =>
    match mget nodes nodeId with
    | none => []
    | some node =>
      node.childrenIds.bind (fun childId =>
        childId :: getDescendantIdsFuel fuel childId nodes)

/-- `getDescendantIds` at the fuel every store operation uses; for an acyclic
mapping `nodes.length + 1` exceeds the length of any simple child chain, so
this equals the JS recursion wherever the JS recursion terminates. -/
def getDescendantIds (nodeId : String) (nodes : List (String × MindMapNode)) :
    List String :=
  getDescendantIdsFuel (nodes.length + 1) nodeId nodes

/-- `addNode`: inserts the node, appends its id to the parent's `childrenIds`,
selects it, records an `ADD_NODE` command unless replaying, and marks the
node, its parent and the map dirty. -/
def addNode (node : MindMapNode) (skipHistory : Bool) (s : MindMapStore) :
    MindMapStore :=
  let newNodes0 := mset s.state.nodes node.id node
  let newNodes :=
    match node.parentId with
    | some pid =>
      match mget s.state.nodes pid with
      | some parent =>
        mset newNodes0 pid
          { parent with childrenIds := parent.childrenIds ++ [node.id] }
      | none => newNodes0
    | none => newNodes0
  let newHistory :=
    if skipHistory then s.state.history
    else ⟨s.state.history.past ++ [MindMapAction.ADD_NODE node], []⟩
  let s1 :=
    { s with
      state :=
        { s.state with
          nodes := newNodes
          history := newHistory
          selectedNodeId := some node.id } }
  let s2 := markNodeDirty node.id s1
  let s3 :=
    match node.parentId with
    | some pid => markNodeDirty pid s2
    | none => s2
  markMapDirty s3

/-- `deleteNode`: silent no-op when the id is absent or names the root;
otherwise removes the node and all collected descendants, splices the id out
of the parent's `childrenIds`, selects the parent, records a `DELETE_NODE`
command unless replaying, marks every removed id deleted and the parent and
map dirty. -/
def deleteNode (nodeId : String) (skipHistory : Bool) (s : MindMapStore) :
    MindMapStore :=
  match mget s.state.nodes nodeId with
  | none => s
  | some node =>
    match node.parentId with
    | none => s
    | some parentId =>
      let nodesToDelete := getDescendantIds nodeId s.state.nodes ++ [nodeId]
      let spliced :=
        match mget s.state.nodes parentId with
        | some parent =>
          mset s.state.nodes parentId
            { parent with
              childrenIds := parent.childrenIds.filter (fun cid => cid ≠ nodeId) }
        | none => s.state.nodes
      let newNodes := nodesToDelete.foldl mdel spliced
      let newHistory :=
        if skipHistory then s.state.history
        else
          ⟨s.state.history.past ++ [MindMapAction.DELETE_NODE node node.parentId],
            []⟩
      let s1 :=
        { s with
          state :=
            { s.state with
              nodes := newNodes
              history := newHistory
              selectedNodeId := some parentId } }
      let s2 := nodesToDelete.foldl (fun acc i => markNodeDeleted i acc) s1
      let s3 := markNodeDirty parentId s2
      markMapDirty s3

/-- `updateNode`: shallow-merges the patch, stamps `updatedAt`, records an
`UPDATE_NODE` command carrying the full before-node and the patch unless
replaying, marks the node dirty and — when the patch touches `text` — the
map dirty. No-op when the id is absent. -/
def updateNode (nodeId : String) (updates : NodePatch) (skipHistory : Bool)
    (now : Nat) (s : MindMapStore) : MindMapStore :=
  match mget s.state.nodes nodeId with
  | none => s
  | some node =>
    let updatedNode := { mergeNode node updates with updatedAt := now }
    let newHistory :=
      if skipHistory then s.state.history
      else
        ⟨s.state.history.past ++
            [MindMapAction.UPDATE_NODE nodeId (toPatch node) updates],
          []⟩
    let s1 :=
      { s with
        state :=
          { s.state with
            nodes := mset s.state.nodes nodeId updatedNode
            history := newHistory } }
    let s2 := markNodeDirty nodeId s1
    if updates.text.isSome then markMapDirty s2 else s2

/-- The argument record of `updateConnectionStyle`; `none` models a field that
is absent or passed as `undefined`. -/
structure ConnectionStylePatch where
  connectionColor : Option String
  connectionDashed : Option Bool
deriving DecidableEq, Repr

/-- `updateConnectionStyle`: builds the new style object and hands it to
`updateNode`, then marks the map dirty. Note that both outer guards test
`!== undefined`, so a field passed as `undefined` leaves the override
untouched (the inner `undefined`/`null` delete branch for `connectionColor`
is unreachable for the typed inputs); `connectionDashed: false` removes the
dashed override. -/
def updateConnectionStyle (nodeId : String) (style : ConnectionStylePatch)
    (now : Nat) (s : MindMapStore) : MindMapStore :=
  match mget s.state.nodes nodeId with
  | none => s
  | some node =>
    let currentStyle := node.style.getD NodeStyle.empty
    let newStyle1 :=
      match style.connectionColor with
      | none => currentStyle
      | some c => { currentStyle with connectionColor := some c }
    let newStyle2 :=
      match style.connectionDashed with
      | none => newStyle1
      | some b =>
        if b then { newStyle1 with connectionDashed := some b }
        else { newStyle1 with connectionDashed := none }
    markMapDirty
      (updateNode nodeId { NodePatch.empty with style := some (some newStyle2) }
        false now s)

/-- The store's `computedLayout` signal. -/
def computedLayoutOf (s : MindMapStore) : ComputedLayout :=
  computeLayout s.state.nodes (s.state.currentMap.map (fun m => m.rootNodeId))

/-- The store's `nodePositions` signal: auto position plus manual offset for
every node of the mapping. -/
def nodePositionsOf (s : MindMapStore) : List (String × Position) :=
  s.state.nodes.map (fun e =>
    (e.1, getFinalPosition (mget (computedLayoutOf s) e.1) e.2.manualOffset))

/-- One iteration of the descendant-cascade loop of `setNodeOffset`: reads the
descendant from the pre-update mapping, records its old offset, adds the raw
delta to its current offset (zero when unset) and writes the updated node. -/
def snoStep (nodes0 : List (String × MindMapNode)) (delta : Position) (now : Nat)
    (acc :
      List (String × Option Position) × List (String × Position) ×
        List (String × MindMapNode)) (descId : String) :
    List (String × Option Position) × List (String × Position) ×
      List (String × MindMapNode) :=
  match mget nodes0 descId with
  | none => acc
  | some descNode =>
    let descCurrentOffset := descNode.manualOffset.getD ⟨0, 0⟩
    let descNewOffset : Position :=
      ⟨descCurrentOffset.x + delta.x, descCurrentOffset.y + delta.y⟩
    (mset acc.1 descId descNode.manualOffset,
      mset acc.2.1 descId descNewOffset,
      mset acc.2.2 descId
        { descNode with manualOffset := some descNewOffset, updatedAt := now })

/-- The offset-record/node-mapping triple computed by `setNodeOffset`: the
`oldOffsets` record, the `newOffsets` record and the updated node mapping —
the dragged node first (offset `newPosition − autoPosition`, `updatedAt`
stamped), then the descendant-cascade loop over the collected descendants.
Returns the untouched mapping when the id is absent (in which case
`setNodeOffset` never reads this value). -/
def snoRes (nodeId : String) (newPosition : Position) (now : Nat)
    (s : MindMapStore) :
    List (String × Option Position) × List (String × Position) ×
      List (String × MindMapNode) :=
  match mget s.state.nodes nodeId with
  | none => ([], [], s.state.nodes)
  | some node =>
    let computedPos := mget (computedLayoutOf s) nodeId
    -- `nodePositions()[nodeId]`; the lookup never misses for a present node.
    let currentFinalPos := (mget (nodePositionsOf s) nodeId).getD ⟨0, 0⟩
    let delta : Position :=
      ⟨newPosition.x - currentFinalPos.x, newPosition.y - currentFinalPos.y⟩
    let descendantIds := getDescendantIds nodeId s.state.nodes
    let newOffset := calculateOffset (computedPos.getD ⟨0, 0⟩) newPosition
    let init :
        List (String × Option Position) × List (String × Position) ×
          List (String × MindMapNode) :=
      (mset [] nodeId node.manualOffset, mset [] nodeId newOffset,
        mset s.state.nodes nodeId
          { node with manualOffset := some newOffset, updatedAt := now })
    descendantIds.foldl (snoStep s.state.nodes delta now) init

/-- `setNodeOffset`: stores `newPosition − autoPosition` as the node's offset,
adds the raw delta `newPosition − currentFinalPosition` to every collected
descendant's existing offset (zero when unset), records one `SET_OFFSET`
command carrying the old/new offset records when there are descendants, and
marks node, descendants and map dirty. No-op when the id is absent. -/
def setNodeOffset (nodeId : String) (newPosition : Position) (skipHistory : Bool)
    (now : Nat) (s : MindMapStore) : MindMapStore :=
  match mget s.state.nodes nodeId with
  | none => s
  | some _node =>
    let descendantIds := getDescendantIds nodeId s.state.nodes
    let res := snoRes nodeId newPosition now s
    let newHistory :=
      if skipHistory then s.state.history
      else
        ⟨s.state.history.past ++
            [MindMapAction.SET_OFFSET nodeId ((mget res.1 nodeId).getD none)
                (mget res.2.1 nodeId)
                (if descendantIds.length > 0 then some (res.1, res.2.1) else none)],
          []⟩
    let s1 :=
      { s with
        state := { s.state with nodes := res.2.2, history := newHistory } }
    let s2 := markNodeDirty nodeId s1
    let s3 := if descendantIds.length > 0 then markNodesDirty descendantIds s2 else s2
    markMapDirty s3

/-- `clearNodeOffset`: drops the node's `manualOffset` and restamps
`updatedAt`; records nothing, marks nothing. No-op when the id is absent. -/
def clearNodeOffset (nodeId : String) (now : Nat) (s : MindMapStore) :
    MindMapStore :=
  match mget s.state.nodes nodeId with
  | none => s
  | some node =>
    { s with
      state :=
        { s.state with
          nodes :=
            mset s.state.nodes nodeId
              { node with manualOffset := none, updatedAt := now } } }

/-- `setOffsetDirect`: replay-path offset write used by undo/redo of a
cascade-free `SET_OFFSET`; no `updatedAt` stamp, no history, no dirty marks. -/
def setOffsetDirect (nodeId : String) (offset : Option Position)
    (s : MindMapStore) : MindMapStore :=
  match mget s.state.nodes nodeId with
  | none => s
  | some node =>
    { s with
      state :=
        { s.state with
          nodes := mset s.state.nodes nodeId { node with manualOffset := offset } } }

/-- `setOffsetsMultiple`: replay-path bulk offset write used by undo/redo of a
cascading `SET_OFFSET`; skips absent ids. -/
def setOffsetsMultiple (offsets : List (String × Option Position))
    (s : MindMapStore) : MindMapStore :=
  { s with
    state :=
      { s.state with
        nodes :=
          offsets.foldl (fun acc kv =>
            match mget acc kv.1 with
            | some node => mset acc kv.1 { node with manualOffset := kv.2 }
            | none => acc) s.state.nodes } }

/-- `revertAction`: applies the inverse of a command through the replay paths. -/
def revertAction (action : MindMapAction) (now : Nat) (s : MindMapStore) :
    MindMapStore :=
  match action with
  | MindMapAction.ADD_NODE node => deleteNode node.id true s
  | MindMapAction.DELETE_NODE node _ => addNode node true s
  | MindMapAction.SET_OFFSET nodeId fromOffset _ descendantOffsets =>
    match descendantOffsets with
    | some offs => setOffsetsMultiple offs.1 s
    | none => setOffsetDirect nodeId fromOffset s
  | MindMapAction.UPDATE_NODE nodeId before _ => updateNode nodeId before true now s
  | MindMapAction.REPARENT_NODE _ _ _ => s

/-- `applyAction`: re-applies a command forward through the replay paths. -/
def applyAction (action : MindMapAction) (now : Nat) (s : MindMapStore) :
    MindMapStore :=
  match action with
  | MindMapAction.ADD_NODE node => addNode node true s
  | MindMapAction.DELETE_NODE node _ => deleteNode node.id true s
  | MindMapAction.SET_OFFSET nodeId _ toOffset descendantOffsets =>
    match descendantOffsets with
    | some offs =>
      setOffsetsMultiple (offs.2.map (fun kv => (kv.1, some kv.2))) s
    | none => setOffsetDirect nodeId toOffset s
  | MindMapAction.UPDATE_NODE nodeId _ after => updateNode nodeId after true now s
  | MindMapAction.REPARENT_NODE _ _ _ => s

/-- `undo`: no-op on an empty past stack; otherwise reverts the last command
and moves it onto the future stack. -/
def undo (now : Nat) (s : MindMapStore) : MindMapStore :=
  match s.state.history.past.getLast? with
  | none => s
  | some lastAction =>
    let s1 := revertAction lastAction now s
    { s1 with
      state :=
        { s1.state with
          history :=
            ⟨s.state.history.past.dropLast,
              lastAction :: s.state.history.future⟩ } }

/-- `redo`: no-op on an empty future stack; otherwise re-applies the next
command and moves it back onto the past stack. -/
def redo (now : Nat) (s : MindMapStore) : MindMapStore :=
  match s.state.history.future with
  | [] => s
  | nextAction :: rest =>
    let s1 := applyAction nextAction now s
    { s1 with
      state :=
        { s1.state with
          history := ⟨s.state.history.past ++ [nextAction], rest⟩ } }

end MindMapStore

/-! ## Concrete fixtures used by witnesses and counterexamples -/

/-- A plain node with the given tree links and defaults everywhere else. -/
def mkN (id : String) (parentId : Option String) (children : List String) :
    MindMapNode :=
  ⟨id, "u", "m", parentId, "t", none, none, none, none, none, true, children, 0,
    0, 0⟩

def demoMap : MindMap :=
  ⟨"m", "u", "map", none, "R", ⟨"system", "freeform", none⟩, none, 0, 0⟩

/-- A store whose document is `demoMap` over the given mapping, with empty
history, no selection and clean dirty state. -/
def mkStore (nodes : List (String × MindMapNode)) : MindMapStore :=
  ⟨⟨some demoMap, nodes, none, none, ⟨[], []⟩, DEFAULT_VIEW⟩, ∅, ∅, false⟩

/-- Root with two children, one grandchild: R → [A, B], A → [C]. -/
def treeRABC : MindMapStore :=
  mkStore
    [("R", mkN "R" none ["A", "B"]), ("A", mkN "A" (some "R") ["C"]),
      ("B", mkN "B" (some "R") []), ("C", mkN "C" (some "A") [])]

/-- A node carrying a connection-color override. -/
def styledStore : MindMapStore :=
  mkStore
    [("R", mkN "R" none ["A"]),
      ("A",
        { mkN "A" (some "R") [] with
          style := some { NodeStyle.empty with connectionColor := some "red" } })]

/-! ## C9: anchor-edge selection -/

/-- C9: for every pair of parent and child positions, with
`dx = childCenter.x − parentCenter.x` and `dy = childCenter.y − parentCenter.y`,
`getAnchorEdges` anchors horizontally (parent right → child left when
`dx ≥ 0`, else parent left → child right) whenever `|dx| ≥ |dy|`, and
vertically (parent bottom → child top when `dy ≥ 0`, else parent top → child
bottom) otherwise; an exact tie `|dx| = |dy|` always yields the horizontal
anchor pair. -/
theorem getAnchorEdges_spec (parentPos childPos : Position) :
    ((|(childPos.x + NODE_WIDTH / 2) - (parentPos.x + NODE_WIDTH / 2)| ≥
        |(childPos.y + NODE_HEIGHT / 2) - (parentPos.y + NODE_HEIGHT / 2)| →
      ((childPos.x + NODE_WIDTH / 2) - (parentPos.x + NODE_WIDTH / 2) ≥ 0 →
        getAnchorEdges parentPos childPos = ⟨AnchorEdge.right, AnchorEdge.left⟩) ∧
      ((childPos.x + NODE_WIDTH / 2) - (parentPos.x + NODE_WIDTH / 2) < 0 →
        getAnchorEdges parentPos childPos = ⟨AnchorEdge.left, AnchorEdge.right⟩)) ∧
    (|(childPos.x + NODE_WIDTH / 2) - (parentPos.x + NODE_WIDTH / 2)| <
        |(childPos.y + NODE_HEIGHT / 2) - (parentPos.y + NODE_HEIGHT / 2)| →
      ((childPos.y + NODE_HEIGHT / 2) - (parentPos.y + NODE_HEIGHT / 2) ≥ 0 →
        getAnchorEdges parentPos childPos = ⟨AnchorEdge.bottom, AnchorEdge.top⟩) ∧
      ((childPos.y + NODE_HEIGHT / 2) - (parentPos.y + NODE_HEIGHT / 2) < 0 →
        getAnchorEdges parentPos childPos = ⟨AnchorEdge.top, AnchorEdge.bottom⟩)) ∧
    (|(childPos.x + NODE_WIDTH / 2) - (parentPos.x + NODE_WIDTH / 2)| =
        |(childPos.y + NODE_HEIGHT / 2) - (parentPos.y + NODE_HEIGHT / 2)| →
      getAnchorEdges parentPos childPos = ⟨AnchorEdge.right, AnchorEdge.left⟩ ∨
      getAnchorEdges parentPos childPos = ⟨AnchorEdge.left, AnchorEdge.right⟩)) := by
  have hdx : (childPos.x + NODE_WIDTH / 2) - (parentPos.x + NODE_WIDTH / 2) =
      childPos.x - parentPos.x := by ring
  have hdy : (childPos.y + NODE_HEIGHT / 2) - (parentPos.y + NODE_HEIGHT / 2) =
      childPos.y - parentPos.y := by ring
  rw [hdx, hdy]
  refine ⟨fun hge => ⟨fun hx => ?_, fun hx => ?_⟩,
    fun hlt => ⟨fun hy => ?_, fun hy => ?_⟩, fun heq => ?_⟩
  · simp [getAnchorEdges, ge_iff_le.mp hge, sub_nonneg.mp hx]
  · simp [getAnchorEdges, ge_iff_le.mp hge, not_le.mpr (sub_neg.mp hx)]
  · simp [getAnchorEdges, not_le.mpr hlt, sub_nonneg.mp hy]
  · simp [getAnchorEdges, not_le.mpr hlt, not_le.mpr (sub_neg.mp hy)]
  · by_cases hx : parentPos.x ≤ childPos.x
    · exact Or.inl (by simp [getAnchorEdges, heq.ge, hx])
    · exact Or.inr (by simp [getAnchorEdges, heq.ge, hx])

/-- C9 witness: two coincident nodes give an exact tie `dx = dy = 0`, resolved
to the horizontal right → left pair. -/
theorem getAnchorEdges_spec_witness :
    (|((0 : ℚ) + NODE_WIDTH / 2) - ((0 : ℚ) + NODE_WIDTH / 2)| ≥
        |((0 : ℚ) + NODE_HEIGHT / 2) - ((0 : ℚ) + NODE_HEIGHT / 2)|) ∧
      (((0 : ℚ) + NODE_WIDTH / 2) - ((0 : ℚ) + NODE_WIDTH / 2) ≥ 0) ∧
      getAnchorEdges ⟨0, 0⟩ ⟨0, 0⟩ = ⟨AnchorEdge.right, AnchorEdge.left⟩ :=
  ⟨by norm_num, by norm_num,
    ((getAnchorEdges_spec ⟨0, 0⟩ ⟨0, 0⟩).1 (by norm_num)).1 (by norm_num)⟩

/-! ## C10: clearNodeOffset frame -/

/-- C10: for every node present in the mapping, `clearNodeOffset` changes only
that node — dropping its `manualOffset` and restamping `updatedAt` — while
every other node, the history stacks, the selection and editing cursors, the
document, the view, and the entire dirty-tracking state (dirty ids, deleted
ids, map-dirty flag) are unchanged. -/
theorem clearNodeOffset_frame (s : MindMapStore) (nodeId : String)
    (node : MindMapNode) (now : Nat)
    (h : mget s.state.nodes nodeId = some node) :
    mget (MindMapStore.clearNodeOffset nodeId now s).state.nodes nodeId =
        some { node with manualOffset := none, updatedAt := now } ∧
    (∀ k, k ≠ nodeId →
      mget (MindMapStore.clearNodeOffset nodeId now s).state.nodes k =
        mget s.state.nodes k) ∧
    (MindMapStore.clearNodeOffset nodeId now s).state.history = s.state.history ∧
    (MindMapStore.clearNodeOffset nodeId now s).state.selectedNodeId =
      s.state.selectedNodeId ∧
    (MindMapStore.clearNodeOffset nodeId now s).state.editingNodeId =
      s.state.editingNodeId ∧
    (MindMapStore.clearNodeOffset nodeId now s).state.currentMap =
      s.state.currentMap ∧
    (MindMapStore.clearNodeOffset nodeId now s).state.view = s.state.view ∧
    (MindMapStore.clearNodeOffset nodeId now s).dirtyNodeIds = s.dirtyNodeIds ∧
    (MindMapStore.clearNodeOffset nodeId now s).deletedNodeIds =
      s.deletedNodeIds ∧
    (MindMapStore.clearNodeOffset nodeId now s).mapDirty = s.mapDirty := by
  refine ⟨?_, fun k hk => ?_, ?_, ?_, ?_, ?_, ?_, ?_, ?_, ?_⟩
  case refine_2 =>
    simp only [MindMapStore.clearNodeOffset, h]
    exact mget_mset_ne _ _ _ _ hk
  all_goals simp [MindMapStore.clearNodeOffset, h, mget_mset_self]

/-- C10 witness: clearing the offset of `A` in the demo tree. -/
theorem clearNodeOffset_frame_witness :
    mget treeRABC.state.nodes "A" = some (mkN "A" (some "R") ["C"]) ∧
    mget (MindMapStore.clearNodeOffset "A" 4 treeRABC).state.nodes "A" =
      some { mkN "A" (some "R") ["C"] with manualOffset := none, updatedAt := 4 } ∧
    mget (MindMapStore.clearNodeOffset "A" 4 treeRABC).state.nodes "B" =
      mget treeRABC.state.nodes "B" ∧
    (MindMapStore.clearNodeOffset "A" 4 treeRABC).dirtyNodeIds =
      treeRABC.dirtyNodeIds :=
  ⟨by decide,
    (clearNodeOffset_frame treeRABC "A" (mkN "A" (some "R") ["C"]) 4 (by decide)).1,
    (clearNodeOffset_frame treeRABC "A" (mkN "A" (some "R") ["C"]) 4
          (by decide)).2.1 "B" (by decide),
    (clearNodeOffset_frame treeRABC "A" (mkN "A" (some "R") ["C"]) 4
          (by decide)).2.2.2.2.2.2.2.1⟩

/-! ## C7: updateConnectionStyle and the unreachable clear branch -/

/-- C7: evaluating `updateConnectionStyle` at the failing input — a node whose
style carries `connectionColor = "red"`, called with `connectionColor`
passed as `undefined` (exactly what `clearConnectionColor` in the editor
does) — leaves the override in place instead of clearing it, because the
`style.connectionColor !== undefined` guard skips the delete branch. The call
still restamps `updatedAt`, records an `UPDATE_NODE` command and marks the
node and map dirty. -/
theorem updateConnectionStyle_undefined_keeps_override :
    (mget (MindMapStore.updateConnectionStyle "A" ⟨none, none⟩ 9
            styledStore).state.nodes "A").map (fun n => n.style) =
      some (some { NodeStyle.empty with connectionColor := some "red" }) ∧
    (mget (MindMapStore.updateConnectionStyle "A" ⟨none, none⟩ 9
            styledStore).state.nodes "A").map (fun n => n.updatedAt) = some 9 ∧
    (MindMapStore.updateConnectionStyle "A" ⟨none, none⟩ 9 styledStore).mapDirty =
      true ∧
    "A" ∈ (MindMapStore.updateConnectionStyle "A" ⟨none, none⟩ 9
        styledStore).dirtyNodeIds := by
  refine ⟨?_, ?_, ?_, ?_⟩ <;> decide

/-! ## C3: deleteNode removes the node and its descendants -/

namespace MindMapStore

@[simp]
theorem markNodeDirty_state (nodeId : String) (s : MindMapStore) :
    (markNodeDirty nodeId s).state = s.state := rfl

@[simp]
theorem markNodesDirty_state (ids : List String) (s : MindMapStore) :
    (markNodesDirty ids s).state = s.state := rfl

@[simp]
theorem markNodeDeleted_state (nodeId : String) (s : MindMapStore) :
    (markNodeDeleted nodeId s).state = s.state := rfl

@[simp]
theorem markMapDirty_state (s : MindMapStore) :
    (markMapDirty s).state = s.state := rfl

@[simp]
theorem foldl_markNodeDeleted_state (ids : List String) (s : MindMapStore) :
    (ids.foldl (fun acc i => markNodeDeleted i acc) s).state = s.state := by
  induction ids generalizing s with
  | nil => rfl
  | cons i rest ih => simp [ih]

@[simp]
theorem ite_markNodesDirty_state (c : Prop) [Decidable c] (ids : List String)
    (s : MindMapStore) :
    (if c then markNodesDirty ids s else s).state = s.state := by
  split <;> simp

/-- Keys outside the visited list keep their accumulator value through the
cascade fold of `setNodeOffset`. -/
theorem snoStep_foldl_untouched (nodes0 : List (String × MindMapNode))
    (delta : Position) (now : Nat) (D : List String) (k : String) :
    ∀ acc, k ∉ D →
      mget (D.foldl (snoStep nodes0 delta now) acc).1 k = mget acc.1 k ∧
      mget (D.foldl (snoStep nodes0 delta now) acc).2.1 k = mget acc.2.1 k ∧
      mget (D.foldl (snoStep nodes0 delta now) acc).2.2 k = mget acc.2.2 k := by
  induction D with
  | nil => exact fun acc _ => ⟨rfl, rfl, rfl⟩
  | cons i rest ih =>
    intro acc hk
    simp only [List.mem_cons, not_or] at hk
    have hrest := ih (snoStep nodes0 delta now acc i) hk.2
    have h1 : mget (snoStep nodes0 delta now acc i).1 k = mget acc.1 k := by
      cases h : mget nodes0 i with
      | none => simp [snoStep, h]
      | some dn => simp [snoStep, h, mget_mset_ne _ _ _ _ hk.1]
    have h2 : mget (snoStep nodes0 delta now acc i).2.1 k = mget acc.2.1 k := by
      cases h : mget nodes0 i with
      | none => simp [snoStep, h]
      | some dn => simp [snoStep, h, mget_mset_ne _ _ _ _ hk.1]
    have h3 : mget (snoStep nodes0 delta now acc i).2.2 k = mget acc.2.2 k := by
      cases h : mget nodes0 i with
      | none => simp [snoStep, h]
      | some dn => simp [snoStep, h, mget_mset_ne _ _ _ _ hk.1]
    simp only [List.foldl_cons]
    exact ⟨hrest.1.trans h1, hrest.2.1.trans h2, hrest.2.2.trans h3⟩

/-- Each visited descendant present in the pre-update mapping ends the cascade
fold with its old offset recorded, its new offset equal to the old offset
(zero when unset) plus the delta, and its node updated accordingly. -/
theorem snoStep_foldl_mem (nodes0 : List (String × MindMapNode))
    (delta : Position) (now : Nat) (D : List String) (k : String)
    (dn : MindMapNode) (hdn : mget nodes0 k = some dn) :
    ∀ acc, D.Nodup → k ∈ D →
      mget (D.foldl (snoStep nodes0 delta now) acc).1 k =
        some dn.manualOffset ∧
      mget (D.foldl (snoStep nodes0 delta now) acc).2.1 k =
        some ⟨(dn.manualOffset.getD ⟨0, 0⟩).x + delta.x,
          (dn.manualOffset.getD ⟨0, 0⟩).y + delta.y⟩ ∧
      mget (D.foldl (snoStep nodes0 delta now) acc).2.2 k =
        some
          { dn with
            manualOffset :=
              some ⟨(dn.manualOffset.getD ⟨0, 0⟩).x + delta.x,
                (dn.manualOffset.getD ⟨0, 0⟩).y + delta.y⟩
            updatedAt := now } := by
  induction D with
  | nil =>
    intro acc _ hk
    simp at hk
  | cons i rest ih =>
    intro acc hnd hk
    simp only [List.nodup_cons] at hnd
    rcases List.mem_cons.mp hk with hk | hk
    · subst hk
      have hu := snoStep_foldl_untouched nodes0 delta now rest k
        (snoStep nodes0 delta now acc k) hnd.1
      simp only [List.foldl_cons]
      refine ⟨hu.1.trans ?_, hu.2.1.trans ?_, hu.2.2.trans ?_⟩ <;>
        simp [snoStep, hdn, mget_mset_self]
    · simp only [List.foldl_cons]
      exact ih (snoStep nodes0 delta now acc i) hnd.2 hk

end MindMapStore

/-- `nodePositions()` looks up to auto position plus manual offset for every
present node. -/
theorem mget_nodePositionsOf (s : MindMapStore) (nodeId : String)
    (node : MindMapNode) (h : mget s.state.nodes nodeId = some node) :
    mget (MindMapStore.nodePositionsOf s) nodeId =
      some (getFinalPosition (mget (MindMapStore.computedLayoutOf s) nodeId)
        node.manualOffset) := by
  have hmap := mget_map_entries s.state.nodes
    (fun k v => getFinalPosition (mget (MindMapStore.computedLayoutOf s) k)
      v.manualOffset) nodeId
  unfold MindMapStore.nodePositionsOf
  exact hmap.trans (by simp [h])

/-- C3: for every non-root node present in the mapping whose parent is present
and whose depth-first descendant list `D` (collected by the store's own
recursive collector) consists of `k = D.length` distinct present nodes,
`deleteNode` removes exactly `k + 1` entries from the mapping (the node and
all its descendants become absent), splices the node id out of the parent's
`childrenIds`, and selects the parent. -/
theorem deleteNode_removes_descendants (s : MindMapStore)
    (nodeId parentId : String) (node parent : MindMapNode) (skipHistory : Bool)
    (hn : mget s.state.nodes nodeId = some node)
    (hp : node.parentId = some parentId)
    (hpn : mget s.state.nodes parentId = some parent)
    (hkeys : (mkeys s.state.nodes).Nodup)
    (hnd : (nodeId :: MindMapStore.getDescendantIds nodeId s.state.nodes).Nodup)
    (hpres : ∀ d ∈ MindMapStore.getDescendantIds nodeId s.state.nodes,
      (mget s.state.nodes d).isSome)
    (hpd : parentId ∉ MindMapStore.getDescendantIds nodeId s.state.nodes)
    (hpne : parentId ≠ nodeId) :
    (MindMapStore.deleteNode nodeId skipHistory s).state.nodes.length =
      s.state.nodes.length -
        ((MindMapStore.getDescendantIds nodeId s.state.nodes).length + 1) ∧
    (∀ d ∈ nodeId :: MindMapStore.getDescendantIds nodeId s.state.nodes,
      mget (MindMapStore.deleteNode nodeId skipHistory s).state.nodes d = none) ∧
    mget (MindMapStore.deleteNode nodeId skipHistory s).state.nodes parentId =
      some
        { parent with
          childrenIds := parent.childrenIds.filter (fun cid => cid ≠ nodeId) } ∧
    (MindMapStore.deleteNode nodeId skipHistory s).state.selectedNodeId =
      some parentId := by
  have hnd1 : nodeId ∉ MindMapStore.getDescendantIds nodeId s.state.nodes :=
    (List.nodup_cons.mp hnd).1
  have hnd2 : (MindMapStore.getDescendantIds nodeId s.state.nodes).Nodup :=
    (List.nodup_cons.mp hnd).2
  have hDnd : (MindMapStore.getDescendantIds nodeId s.state.nodes ++ [nodeId]).Nodup := by
    rw [List.nodup_append]
    refine ⟨hnd2, List.nodup_singleton _, ?_⟩
    intro a ha hb
    simp only [List.mem_singleton] at hb
    exact hnd1 (hb ▸ ha)
  have hsplkeys :
      mkeys (mset s.state.nodes parentId
        { parent with
          childrenIds := parent.childrenIds.filter (fun cid => cid ≠ nodeId) }) =
        mkeys s.state.nodes :=
    mkeys_mset_present _ (by simp [hpn])
  have hsplget : ∀ i, i ≠ parentId →
      mget (mset s.state.nodes parentId
        { parent with
          childrenIds := parent.childrenIds.filter (fun cid => cid ≠ nodeId) }) i =
        mget s.state.nodes i := by
    intro i hi
    exact mget_mset_ne _ _ _ _ hi
  have hspres : ∀ i ∈ MindMapStore.getDescendantIds nodeId s.state.nodes ++ [nodeId],
      (mget (mset s.state.nodes parentId
        { parent with
          childrenIds := parent.childrenIds.filter (fun cid => cid ≠ nodeId) }) i).isSome := by
    intro i hi
    rcases List.mem_append.mp hi with hi | hi
    · rw [hsplget i (fun he => hpd (he ▸ hi))]
      exact hpres i hi
    · simp only [List.mem_singleton] at hi
      rw [hi, hsplget nodeId (Ne.symm hpne)]
      simp [hn]
  simp only [MindMapStore.deleteNode, hn, hp, hpn, MindMapStore.markMapDirty_state,
    MindMapStore.markNodeDirty_state, MindMapStore.foldl_markNodeDeleted_state]
  refine ⟨?_, fun d hd => ?_, ?_, trivial⟩
  · rw [length_foldl_mdel _ _ (by rw [hsplkeys]; exact hkeys) hDnd hspres,
      length_mset_present _ (by simp [hpn])]
    simp
  · rw [mget_foldl_mdel]
    have : d ∈ MindMapStore.getDescendantIds nodeId s.state.nodes ++ [nodeId] := by
      rcases List.mem_cons.mp hd with hd | hd
      · simp [hd]
      · simp [hd]
    simp [this]
  · rw [mget_foldl_mdel]
    have hnot : parentId ∉
        MindMapStore.getDescendantIds nodeId s.state.nodes ++ [nodeId] := by
      simp only [List.mem_append, List.mem_singleton, not_or]
      exact ⟨hpd, hpne⟩
    simp only [if_neg hnot]
    exact mget_mset_self _ _ _

/-- C3 witness: deleting `A` from the demo tree (descendants `[C]`, parent `R`)
removes two entries, leaves `C` absent and selects `R`. -/
theorem deleteNode_removes_descendants_witness :
    mget treeRABC.state.nodes "A" = some (mkN "A" (some "R") ["C"]) ∧
    (MindMapStore.deleteNode "A" false treeRABC).state.nodes.length =
      treeRABC.state.nodes.length -
        ((MindMapStore.getDescendantIds "A" treeRABC.state.nodes).length + 1) ∧
    mget (MindMapStore.deleteNode "A" false treeRABC).state.nodes "C" = none ∧
    (MindMapStore.deleteNode "A" false treeRABC).state.selectedNodeId =
      some "R" :=
  have h := deleteNode_removes_descendants treeRABC "A" "R"
    (mkN "A" (some "R") ["C"]) (mkN "R" none ["A", "B"]) false (by decide)
    (by decide) (by decide) (by decide) (by decide) (by decide) (by decide)
    (by decide)
  ⟨by decide, h.1, h.2.1 "C" (by decide), h.2.2.2⟩

/-! ## C2: setNodeOffset cascade -/

theorem snoStep_foldl_untouched1 (nodes0 : List (String × MindMapNode))
    (delta : Position) (now : Nat) (D : List String) (k : String)
    (acc :
      List (String × Option Position) × List (String × Position) ×
        List (String × MindMapNode)) (hk : k ∉ D) :
    mget (D.foldl (MindMapStore.snoStep nodes0 delta now) acc).1 k =
      mget acc.1 k :=
  (MindMapStore.snoStep_foldl_untouched nodes0 delta now D k acc hk).1

theorem snoStep_foldl_untouched21 (nodes0 : List (String × MindMapNode))
    (delta : Position) (now : Nat) (D : List String) (k : String)
    (acc :
      List (String × Option Position) × List (String × Position) ×
        List (String × MindMapNode)) (hk : k ∉ D) :
    mget (D.foldl (MindMapStore.snoStep nodes0 delta now) acc).2.1 k =
      mget acc.2.1 k :=
  (MindMapStore.snoStep_foldl_untouched nodes0 delta now D k acc hk).2.1

theorem snoStep_foldl_untouched22 (nodes0 : List (String × MindMapNode))
    (delta : Position) (now : Nat) (D : List String) (k : String)
    (acc :
      List (String × Option Position) × List (String × Position) ×
        List (String × MindMapNode)) (hk : k ∉ D) :
    mget (D.foldl (MindMapStore.snoStep nodes0 delta now) acc).2.2 k =
      mget acc.2.2 k :=
  (MindMapStore.snoStep_foldl_untouched nodes0 delta now D k acc hk).2.2

theorem snoStep_foldl_mem1 (nodes0 : List (String × MindMapNode))
    (delta : Position) (now : Nat) (D : List String) (k : String)
    (dn : MindMapNode)
    (acc :
      List (String × Option Position) × List (String × Position) ×
        List (String × MindMapNode)) (hdn : mget nodes0 k = some dn)
    (hD : D.Nodup) (hk : k ∈ D) :
    mget (D.foldl (MindMapStore.snoStep nodes0 delta now) acc).1 k =
      some dn.manualOffset :=
  (MindMapStore.snoStep_foldl_mem nodes0 delta now D k dn hdn acc hD hk).1

theorem snoStep_foldl_mem21 (nodes0 : List (String × MindMapNode))
    (delta : Position) (now : Nat) (D : List String) (k : String)
    (dn : MindMapNode)
    (acc :
      List (String × Option Position) × List (String × Position) ×
        List (String × MindMapNode)) (hdn : mget nodes0 k = some dn)
    (hD : D.Nodup) (hk : k ∈ D) :
    mget (D.foldl (MindMapStore.snoStep nodes0 delta now) acc).2.1 k =
      some ⟨(dn.manualOffset.getD ⟨0, 0⟩).x + delta.x,
        (dn.manualOffset.getD ⟨0, 0⟩).y + delta.y⟩ :=
  (MindMapStore.snoStep_foldl_mem nodes0 delta now D k dn hdn acc hD hk).2.1

theorem snoStep_foldl_mem22 (nodes0 : List (String × MindMapNode))
    (delta : Position) (now : Nat) (D : List String) (k : String)
    (dn : MindMapNode)
    (acc :
      List (String × Option Position) × List (String × Position) ×
        List (String × MindMapNode)) (hdn : mget nodes0 k = some dn)
    (hD : D.Nodup) (hk : k ∈ D) :
    mget (D.foldl (MindMapStore.snoStep nodes0 delta now) acc).2.2 k =
      some
        { dn with
          manualOffset :=
            some ⟨(dn.manualOffset.getD ⟨0, 0⟩).x + delta.x,
              (dn.manualOffset.getD ⟨0, 0⟩).y + delta.y⟩
          updatedAt := now } :=
  (MindMapStore.snoStep_foldl_mem nodes0 delta now D k dn hdn acc hD hk).2.2

/-- Unfolding of `snoRes` at a present node. -/
theorem snoRes_eq (nodeId : String) (node : MindMapNode) (newPosition : Position)
    (now : Nat) (s : MindMapStore)
    (hn : mget s.state.nodes nodeId = some node) :
    MindMapStore.snoRes nodeId newPosition now s =
      (MindMapStore.getDescendantIds nodeId s.state.nodes).foldl
        (MindMapStore.snoStep s.state.nodes
          ⟨newPosition.x -
              (getFinalPosition (mget (MindMapStore.computedLayoutOf s) nodeId)
                node.manualOffset).x,
            newPosition.y -
              (getFinalPosition (mget (MindMapStore.computedLayoutOf s) nodeId)
                node.manualOffset).y⟩
          now)
        (mset [] nodeId node.manualOffset,
          mset [] nodeId
            (calculateOffset
              ((mget (MindMapStore.computedLayoutOf s) nodeId).getD ⟨0, 0⟩)
              newPosition),
          mset s.state.nodes nodeId
            { node with
              manualOffset :=
                some (calculateOffset
                  ((mget (MindMapStore.computedLayoutOf s) nodeId).getD ⟨0, 0⟩)
                  newPosition)
              updatedAt := now }) := by
  simp only [MindMapStore.snoRes, hn, mget_nodePositionsOf s nodeId node hn,
    Option.getD_some]

/-- C2: for every node present in the mapping, `setNodeOffset` sets that
node's `manualOffset` to `desiredPosition − autoPosition` and restamps its
`updatedAt`; every collected descendant (same recursive collector as delete)
present in the mapping gets the same raw delta
`desiredPosition − currentFinalPosition(node)` added to its existing offset,
an absent offset counting as the zero vector — in particular a descendant
with no prior offset ends with exactly the delta — and, when recording, the
`SET_OFFSET` command captures the old and new offsets of the node and of
every cascaded descendant. -/
theorem setNodeOffset_spec (s : MindMapStore) (nodeId : String)
    (node : MindMapNode) (newPosition : Position) (skipHistory : Bool) (now : Nat)
    (hn : mget s.state.nodes nodeId = some node)
    (hself : nodeId ∉ MindMapStore.getDescendantIds nodeId s.state.nodes)
    (hnd : (MindMapStore.getDescendantIds nodeId s.state.nodes).Nodup) :
    mget (MindMapStore.setNodeOffset nodeId newPosition skipHistory now
          s).state.nodes nodeId =
      some
        { node with
          manualOffset :=
            some (calculateOffset
              ((mget (MindMapStore.computedLayoutOf s) nodeId).getD ⟨0, 0⟩)
              newPosition)
          updatedAt := now } ∧
    (∀ d ∈ MindMapStore.getDescendantIds nodeId s.state.nodes,
      ∀ dn, mget s.state.nodes d = some dn →
        mget (MindMapStore.setNodeOffset nodeId newPosition skipHistory now
              s).state.nodes d =
          some
            { dn with
              manualOffset :=
                some
                  ⟨(dn.manualOffset.getD ⟨0, 0⟩).x +
                      (newPosition.x -
                        (getFinalPosition
                          (mget (MindMapStore.computedLayoutOf s) nodeId)
                          node.manualOffset).x),
                    (dn.manualOffset.getD ⟨0, 0⟩).y +
                      (newPosition.y -
                        (getFinalPosition
                          (mget (MindMapStore.computedLayoutOf s) nodeId)
                          node.manualOffset).y)⟩
              updatedAt := now }) ∧
    (∀ d ∈ MindMapStore.getDescendantIds nodeId s.state.nodes,
      ∀ dn, mget s.state.nodes d = some dn → dn.manualOffset = none →
        mget (MindMapStore.setNodeOffset nodeId newPosition skipHistory now
              s).state.nodes d =
          some
            { dn with
              manualOffset :=
                some
                  ⟨newPosition.x -
                      (getFinalPosition
                        (mget (MindMapStore.computedLayoutOf s) nodeId)
                        node.manualOffset).x,
                    newPosition.y -
                      (getFinalPosition
                        (mget (MindMapStore.computedLayoutOf s) nodeId)
                        node.manualOffset).y⟩
              updatedAt := now }) ∧
    (skipHistory = false →
      (MindMapStore.setNodeOffset nodeId newPosition skipHistory now
            s).state.history.past =
        s.state.history.past ++
          [MindMapAction.SET_OFFSET nodeId node.manualOffset
              (some (calculateOffset
                ((mget (MindMapStore.computedLayoutOf s) nodeId).getD ⟨0, 0⟩)
                newPosition))
              (if (MindMapStore.getDescendantIds nodeId s.state.nodes).length > 0
                then some ((MindMapStore.snoRes nodeId newPosition now s).1,
                  (MindMapStore.snoRes nodeId newPosition now s).2.1)
                else none)] ∧
      (MindMapStore.setNodeOffset nodeId newPosition skipHistory now
          s).state.history.future = [] ∧
      mget (MindMapStore.snoRes nodeId newPosition now s).1 nodeId =
        some node.manualOffset ∧
      mget (MindMapStore.snoRes nodeId newPosition now s).2.1 nodeId =
        some (calculateOffset
          ((mget (MindMapStore.computedLayoutOf s) nodeId).getD ⟨0, 0⟩)
          newPosition) ∧
      (∀ d ∈ MindMapStore.getDescendantIds nodeId s.state.nodes,
        ∀ dn, mget s.state.nodes d = some dn →
          mget (MindMapStore.snoRes nodeId newPosition now s).1 d =
            some dn.manualOffset ∧
          mget (MindMapStore.snoRes nodeId newPosition now s).2.1 d =
            some
              ⟨(dn.manualOffset.getD ⟨0, 0⟩).x +
                  (newPosition.x -
                    (getFinalPosition
                      (mget (MindMapStore.computedLayoutOf s) nodeId)
                      node.manualOffset).x),
                (dn.manualOffset.getD ⟨0, 0⟩).y +
                  (newPosition.y -
                    (getFinalPosition
                      (mget (MindMapStore.computedLayoutOf s) nodeId)
                      node.manualOffset).y)⟩)) := by
  have hres := snoRes_eq nodeId node newPosition now s hn
  simp only [MindMapStore.setNodeOffset, hn, MindMapStore.markMapDirty_state,
    MindMapStore.markNodeDirty_state, MindMapStore.ite_markNodesDirty_state, hres]
  refine ⟨?_, ?_, ?_, ?_⟩
  · rw [snoStep_foldl_untouched22 _ _ _ _ _ _ hself]
    simp [mget_mset_self]
  · intro d hd dn hdn
    rw [snoStep_foldl_mem22 _ _ _ _ _ _ _ hdn hnd hd]
  · intro d hd dn hdn hno
    rw [snoStep_foldl_mem22 _ _ _ _ _ _ _ hdn hnd hd]
    simp [hno]
  · intro hsk
    subst hsk
    simp only [Bool.false_eq_true, if_false]
    refine ⟨?_, trivial, ?_, ?_, ?_⟩
    · rw [snoStep_foldl_untouched1 _ _ _ _ _ _ hself,
        snoStep_foldl_untouched21 _ _ _ _ _ _ hself]
      simp [mget_mset_self]
    · rw [snoStep_foldl_untouched1 _ _ _ _ _ _ hself]
      simp [mget_mset_self]
    · rw [snoStep_foldl_untouched21 _ _ _ _ _ _ hself]
      simp [mget_mset_self]
    · intro d hd dn hdn
      constructor
      · rw [snoStep_foldl_mem1 _ _ _ _ _ _ _ hdn hnd hd]
      · rw [snoStep_foldl_mem21 _ _ _ _ _ _ _ hdn hnd hd]

section
-- The Batteries `Rat` arithmetic operations are `@[irreducible]`; making them
-- locally semireducible lets `decide` evaluate the concrete layout numbers in
-- this witness. This affects elaboration only, never the kernel check.
set_option allowUnsafeReducibility true
attribute [local semireducible] Rat.add Rat.sub Rat.mul Rat.div Rat.neg Rat.inv

/-- C2 witness: dragging `A` of the demo tree to `(10, 20)` gives its
offset-free descendant `C` exactly the drag delta `(-165, 103)` (the auto
position of `A` is `(175, -83)`). -/
theorem setNodeOffset_spec_witness :
    mget treeRABC.state.nodes "A" = some (mkN "A" (some "R") ["C"]) ∧
    "C" ∈ MindMapStore.getDescendantIds "A" treeRABC.state.nodes ∧
    mget (MindMapStore.setNodeOffset "A" ⟨10, 20⟩ false 3 treeRABC).state.nodes
        "C" =
      some
        { mkN "C" (some "A") [] with
          manualOffset := some ⟨-165, 103⟩
          updatedAt := 3 } :=
  ⟨by decide, by decide, by
    have h := (setNodeOffset_spec treeRABC "A" (mkN "A" (some "R") ["C"])
        ⟨10, 20⟩ false 3 (by decide) (by decide) (by decide)).2.2.1 "C"
        (by decide) (mkN "C" (some "A") []) (by decide) (by decide)
    rw [h]
    decide⟩

end

/-! ## C8: editing cursor versus selection -/

namespace MindMapStore

/-- The claimed invariant: a non-null editing cursor always equals the
selection. -/
def EditInv (s : MindMapStore) : Prop :=
  ∀ e, s.state.editingNodeId = some e → s.state.selectedNodeId = some e

theorem addNode_editing (node : MindMapNode) (skipHistory : Bool)
    (s : MindMapStore) :
    (addNode node skipHistory s).state.editingNodeId = s.state.editingNodeId := by
  cases hp : node.parentId with
  | none => simp [addNode, hp]
  | some pid => cases hq : mget s.state.nodes pid <;> simp [addNode, hp, hq]

theorem deleteNode_editing (nodeId : String) (skipHistory : Bool)
    (s : MindMapStore) :
    (deleteNode nodeId skipHistory s).state.editingNodeId =
      s.state.editingNodeId := by
  cases hn : mget s.state.nodes nodeId with
  | none => simp [deleteNode, hn]
  | some node =>
    cases hp : node.parentId with
    | none => simp [deleteNode, hn, hp]
    | some pid => simp [deleteNode, hn, hp]

theorem updateNode_editing (nodeId : String) (updates : NodePatch)
    (skipHistory : Bool) (now : Nat) (s : MindMapStore) :
    (updateNode nodeId updates skipHistory now s).state.editingNodeId =
      s.state.editingNodeId := by
  cases hn : mget s.state.nodes nodeId with
  | none => simp [updateNode, hn]
  | some node =>
    simp only [updateNode, hn]
    split <;> simp

theorem updateNode_selected (nodeId : String) (updates : NodePatch)
    (skipHistory : Bool) (now : Nat) (s : MindMapStore) :
    (updateNode nodeId updates skipHistory now s).state.selectedNodeId =
      s.state.selectedNodeId := by
  cases hn : mget s.state.nodes nodeId with
  | none => simp [updateNode, hn]
  | some node =>
    simp only [updateNode, hn]
    split <;> simp

theorem setNodeOffset_editing (nodeId : String) (newPosition : Position)
    (skipHistory : Bool) (now : Nat) (s : MindMapStore) :
    (setNodeOffset nodeId newPosition skipHistory now s).state.editingNodeId =
      s.state.editingNodeId := by
  cases hn : mget s.state.nodes nodeId with
  | none => simp [setNodeOffset, hn]
  | some node => simp [setNodeOffset, hn]

theorem setNodeOffset_selected (nodeId : String) (newPosition : Position)
    (skipHistory : Bool) (now : Nat) (s : MindMapStore) :
    (setNodeOffset nodeId newPosition skipHistory now s).state.selectedNodeId =
      s.state.selectedNodeId := by
  cases hn : mget s.state.nodes nodeId with
  | none => simp [setNodeOffset, hn]
  | some node => simp [setNodeOffset, hn]

theorem clearNodeOffset_editing (nodeId : String) (now : Nat) (s : MindMapStore) :
    (clearNodeOffset nodeId now s).state.editingNodeId =
      s.state.editingNodeId := by
  cases hn : mget s.state.nodes nodeId with
  | none => simp [clearNodeOffset, hn]
  | some node => simp [clearNodeOffset, hn]

theorem clearNodeOffset_selected (nodeId : String) (now : Nat)
    (s : MindMapStore) :
    (clearNodeOffset nodeId now s).state.selectedNodeId =
      s.state.selectedNodeId := by
  cases hn : mget s.state.nodes nodeId with
  | none => simp [clearNodeOffset, hn]
  | some node => simp [clearNodeOffset, hn]

theorem setOffsetDirect_editing (nodeId : String) (offset : Option Position)
    (s : MindMapStore) :
    (setOffsetDirect nodeId offset s).state.editingNodeId =
      s.state.editingNodeId := by
  cases hn : mget s.state.nodes nodeId with
  | none => simp [setOffsetDirect, hn]
  | some node => simp [setOffsetDirect, hn]

theorem setOffsetsMultiple_editing (offsets : List (String × Option Position))
    (s : MindMapStore) :
    (setOffsetsMultiple offsets s).state.editingNodeId =
      s.state.editingNodeId := rfl

theorem revertAction_editing (action : MindMapAction) (now : Nat)
    (s : MindMapStore) :
    (revertAction action now s).state.editingNodeId =
      s.state.editingNodeId := by
  cases action with
  | ADD_NODE node => exact deleteNode_editing node.id true s
  | DELETE_NODE node pid => exact addNode_editing node true s
  | SET_OFFSET nodeId fr t0 offs =>
    cases offs with
    | none => exact setOffsetDirect_editing nodeId fr s
    | some o => exact setOffsetsMultiple_editing o.1 s
  | UPDATE_NODE nodeId before after => exact updateNode_editing nodeId before true now s
  | REPARENT_NODE nodeId a b => rfl

theorem applyAction_editing (action : MindMapAction) (now : Nat)
    (s : MindMapStore) :
    (applyAction action now s).state.editingNodeId =
      s.state.editingNodeId := by
  cases action with
  | ADD_NODE node => exact addNode_editing node true s
  | DELETE_NODE node pid => exact deleteNode_editing node.id true s
  | SET_OFFSET nodeId fr t0 offs =>
    cases offs with
    | none => exact setOffsetDirect_editing nodeId t0 s
    | some o => exact setOffsetsMultiple_editing (o.2.map (fun kv => (kv.1, some kv.2))) s
  | UPDATE_NODE nodeId before after => exact updateNode_editing nodeId after true now s
  | REPARENT_NODE nodeId a b => rfl

theorem undo_editing (now : Nat) (s : MindMapStore) :
    (undo now s).state.editingNodeId = s.state.editingNodeId := by
  cases hl : s.state.history.past.getLast? with
  | none => simp [undo, hl]
  | some a => simp [undo, hl, revertAction_editing]

theorem redo_editing (now : Nat) (s : MindMapStore) :
    (redo now s).state.editingNodeId = s.state.editingNodeId := by
  cases hf : s.state.history.future with
  | nil => simp [redo, hf]
  | cons a rest => simp [redo, hf, applyAction_editing]

end MindMapStore

/-- C8 (amended): `selectNode`, `startEditing`, `stopEditing`, `loadMap` and
`clearMap` (re-)establish the implication "editing non-null → selection
equals it"; `updateNode`, `setNodeOffset` and `clearNodeOffset` preserve it
outright (they touch neither cursor); but `addNode`, `deleteNode`, `undo`
and `redo` move the selection without clearing `editingNodeId`, so they
preserve the implication only when no edit is active. -/
theorem editing_implies_selected_amended :
    (∀ s id, MindMapStore.EditInv (MindMapStore.selectNode id s)) ∧
    (∀ s id, MindMapStore.EditInv (MindMapStore.startEditing id s)) ∧
    (∀ s, MindMapStore.EditInv (MindMapStore.stopEditing s)) ∧
    (∀ s m ns, MindMapStore.EditInv (MindMapStore.loadMap m ns s)) ∧
    (∀ s, MindMapStore.EditInv (MindMapStore.clearMap s)) ∧
    (∀ s id p skip now, MindMapStore.EditInv s →
      MindMapStore.EditInv (MindMapStore.updateNode id p skip now s)) ∧
    (∀ s id pos skip now, MindMapStore.EditInv s →
      MindMapStore.EditInv (MindMapStore.setNodeOffset id pos skip now s)) ∧
    (∀ s id now, MindMapStore.EditInv s →
      MindMapStore.EditInv (MindMapStore.clearNodeOffset id now s)) ∧
    (∀ s n skip, s.state.editingNodeId = none →
      MindMapStore.EditInv (MindMapStore.addNode n skip s)) ∧
    (∀ s id skip, s.state.editingNodeId = none →
      MindMapStore.EditInv (MindMapStore.deleteNode id skip s)) ∧
    (∀ s now, s.state.editingNodeId = none →
      MindMapStore.EditInv (MindMapStore.undo now s)) ∧
    (∀ s now, s.state.editingNodeId = none →
      MindMapStore.EditInv (MindMapStore.redo now s)) := by
  refine ⟨?_, ?_, ?_, ?_, ?_, ?_, ?_, ?_, ?_, ?_, ?_, ?_⟩
  · intro s id e he
    simp [MindMapStore.selectNode] at he
  · intro s id e he
    simp only [MindMapStore.startEditing, Option.some.injEq] at he ⊢
    exact he
  · intro s e he
    simp [MindMapStore.stopEditing] at he
  · intro s m ns e he
    simp [MindMapStore.loadMap, MindMapStore.clearDirtyState] at he
  · intro s e he
    simp [MindMapStore.clearMap, MindMapStore.clearDirtyState, INITIAL_STATE] at he
  · intro s id p skip now h e he
    rw [MindMapStore.updateNode_editing] at he
    rw [MindMapStore.updateNode_selected]
    exact h e he
  · intro s id pos skip now h e he
    rw [MindMapStore.setNodeOffset_editing] at he
    rw [MindMapStore.setNodeOffset_selected]
    exact h e he
  · intro s id now h e he
    rw [MindMapStore.clearNodeOffset_editing] at he
    rw [MindMapStore.clearNodeOffset_selected]
    exact h e he
  · intro s n skip hnone e he
    rw [MindMapStore.addNode_editing, hnone] at he
    exact absurd he (by simp)
  · intro s id skip hnone e he
    rw [MindMapStore.deleteNode_editing, hnone] at he
    exact absurd he (by simp)
  · intro s now hnone e he
    rw [MindMapStore.undo_editing, hnone] at he
    exact absurd he (by simp)
  · intro s now hnone e he
    rw [MindMapStore.redo_editing, hnone] at he
    exact absurd he (by simp)

/-- C8 counterexample: from a reachable state where `B` is being edited,
`addNode` selects the new node `X` but leaves the editing cursor on `B`, so
a non-null `editingNodeId` no longer equals `selectedNodeId` — refuting the
claim as stated. -/
theorem editing_implies_selected_counterexample :
    (MindMapStore.addNode (mkN "X" (some "R") []) false
        (MindMapStore.startEditing "B" treeRABC)).state.editingNodeId =
      some "B" ∧
    (MindMapStore.addNode (mkN "X" (some "R") []) false
        (MindMapStore.startEditing "B" treeRABC)).state.selectedNodeId =
      some "X" ∧
    ¬ MindMapStore.EditInv
        (MindMapStore.addNode (mkN "X" (some "R") [])
          false (MindMapStore.startEditing "B" treeRABC)) := by
  refine ⟨by decide, by decide, fun h => ?_⟩
  have := h "B" (by decide)
  simp at this
  exact absurd this (by decide)

/-- C8 witness: with no active edit, `addNode` keeps the implication. -/
theorem editing_implies_selected_witness :
    treeRABC.state.editingNodeId = none ∧
    MindMapStore.EditInv
      (MindMapStore.addNode (mkN "X" (some "R") []) false treeRABC) :=
  ⟨by decide,
    editing_implies_selected_amended.2.2.2.2.2.2.2.2.1 treeRABC
      (mkN "X" (some "R") []) false (by decide)⟩

/-! ## C6: dirty set versus deleted set -/

namespace MindMapStore

/-- No id sits in the dirty and the deleted set at once. -/
def DirtyDeletedDisjoint (s : MindMapStore) : Prop :=
  ∀ x ∈ s.dirtyNodeIds, x ∉ s.deletedNodeIds

theorem mem_foldl_erase (ids : List String) (t : Finset String) (x : String) :
    x ∈ ids.foldl (fun acc i => acc.erase i) t ↔ x ∈ t ∧ x ∉ ids := by
  induction ids generalizing t with
  | nil => simp
  | cons i rest ih =>
    simp only [List.foldl_cons, ih, Finset.mem_erase, List.mem_cons]
    constructor
    · rintro ⟨⟨hxi, hxt⟩, hxr⟩
      exact ⟨hxt, by simp [hxi, hxr]⟩
    · rintro ⟨hxt, hx⟩
      simp only [not_or] at hx
      exact ⟨⟨hx.1, hxt⟩, hx.2⟩

theorem mem_foldl_insert (ids : List String) (t : Finset String) (x : String) :
    x ∈ ids.foldl (fun acc i => insert i acc) t ↔ x ∈ t ∨ x ∈ ids := by
  induction ids generalizing t with
  | nil => simp
  | cons i rest ih =>
    simp only [List.foldl_cons, ih, Finset.mem_insert, List.mem_cons]
    tauto

@[simp]
theorem markNodeDeleted_dirty (i : String) (s : MindMapStore) :
    (markNodeDeleted i s).dirtyNodeIds = s.dirtyNodeIds.erase i := rfl

@[simp]
theorem markNodeDeleted_deleted (i : String) (s : MindMapStore) :
    (markNodeDeleted i s).deletedNodeIds = insert i s.deletedNodeIds := rfl

@[simp]
theorem markNodeDirty_dirty (i : String) (s : MindMapStore) :
    (markNodeDirty i s).dirtyNodeIds = insert i s.dirtyNodeIds := rfl

@[simp]
theorem markNodeDirty_deleted (i : String) (s : MindMapStore) :
    (markNodeDirty i s).deletedNodeIds = s.deletedNodeIds := rfl

@[simp]
theorem markMapDirty_dirty (s : MindMapStore) :
    (markMapDirty s).dirtyNodeIds = s.dirtyNodeIds := rfl

@[simp]
theorem markMapDirty_deleted (s : MindMapStore) :
    (markMapDirty s).deletedNodeIds = s.deletedNodeIds := rfl

@[simp]
theorem markNodesDirty_dirty (ids : List String) (s : MindMapStore) :
    (markNodesDirty ids s).dirtyNodeIds =
      ids.foldl (fun acc i => insert i acc) s.dirtyNodeIds := rfl

@[simp]
theorem markNodesDirty_deleted (ids : List String) (s : MindMapStore) :
    (markNodesDirty ids s).deletedNodeIds = s.deletedNodeIds := rfl

theorem foldl_markNodeDeleted_dirty (ids : List String) (s : MindMapStore) :
    (ids.foldl (fun acc i => markNodeDeleted i acc) s).dirtyNodeIds =
      ids.foldl (fun acc i => acc.erase i) s.dirtyNodeIds := by
  induction ids generalizing s with
  | nil => rfl
  | cons i rest ih =>
    simp only [List.foldl_cons]
    rw [ih, markNodeDeleted_dirty]

theorem foldl_markNodeDeleted_deleted (ids : List String) (s : MindMapStore) :
    (ids.foldl (fun acc i => markNodeDeleted i acc) s).deletedNodeIds =
      ids.foldl (fun acc i => insert i acc) s.deletedNodeIds := by
  induction ids generalizing s with
  | nil => rfl
  | cons i rest ih =>
    simp only [List.foldl_cons]
    rw [ih, markNodeDeleted_deleted]

/-- The dirty and deleted sets after the real branch of `deleteNode`: every
removed id is evicted from dirty and added to deleted, then the parent is
re-marked dirty. -/
theorem deleteNode_dirty_deleted (nodeId : String) (skipHistory : Bool)
    (s : MindMapStore) (node : MindMapNode) (p : String)
    (hn : mget s.state.nodes nodeId = some node)
    (hp : node.parentId = some p) :
    (deleteNode nodeId skipHistory s).dirtyNodeIds =
      insert p
        ((getDescendantIds nodeId s.state.nodes ++ [nodeId]).foldl
          (fun acc i => acc.erase i) s.dirtyNodeIds) ∧
    (deleteNode nodeId skipHistory s).deletedNodeIds =
      (getDescendantIds nodeId s.state.nodes ++ [nodeId]).foldl
        (fun acc i => insert i acc) s.deletedNodeIds := by
  simp only [deleteNode, hn, hp]
  constructor
  · simp only [markMapDirty_dirty, markNodeDirty_dirty, foldl_markNodeDeleted_dirty]
  · simp only [markMapDirty_deleted, markNodeDirty_deleted,
      foldl_markNodeDeleted_deleted]

end MindMapStore

/-- C6 (amended): `markNodeDeleted` does evict each newly-deleted id from the
dirty set — after `deleteNode` every removed id (other than the re-marked
parent) is out of dirty and in deleted — and `addNode`, `updateNode`,
`setNodeOffset` and `deleteNode` preserve dirty/deleted disjointness as long
as the ids they mark dirty are not already in the deleted set; `loadMap` and
`clearMap` restore disjointness outright. The original claim fails for
operations that re-mark an id that is still in the deleted set, which is
exactly what undoing a `DeleteNode` command does. -/
theorem dirty_deleted_disjoint_amended :
    (∀ s nodeId skip node p, mget s.state.nodes nodeId = some node →
      node.parentId = some p →
      (∀ x ∈ MindMapStore.getDescendantIds nodeId s.state.nodes ++ [nodeId],
        x ∈ (MindMapStore.deleteNode nodeId skip s).deletedNodeIds) ∧
      (∀ x ∈ MindMapStore.getDescendantIds nodeId s.state.nodes ++ [nodeId],
        x ≠ p → x ∉ (MindMapStore.deleteNode nodeId skip s).dirtyNodeIds)) ∧
    (∀ s nodeId skip node p, mget s.state.nodes nodeId = some node →
      node.parentId = some p → MindMapStore.DirtyDeletedDisjoint s →
      p ∉ s.deletedNodeIds →
      p ∉ MindMapStore.getDescendantIds nodeId s.state.nodes ++ [nodeId] →
      MindMapStore.DirtyDeletedDisjoint (MindMapStore.deleteNode nodeId skip s)) ∧
    (∀ s n skip, MindMapStore.DirtyDeletedDisjoint s →
      n.id ∉ s.deletedNodeIds →
      (∀ pid, n.parentId = some pid → pid ∉ s.deletedNodeIds) →
      MindMapStore.DirtyDeletedDisjoint (MindMapStore.addNode n skip s)) ∧
    (∀ s nodeId patch skip now, MindMapStore.DirtyDeletedDisjoint s →
      nodeId ∉ s.deletedNodeIds →
      MindMapStore.DirtyDeletedDisjoint
        (MindMapStore.updateNode nodeId patch skip now s)) ∧
    (∀ s nodeId pos skip now, MindMapStore.DirtyDeletedDisjoint s →
      nodeId ∉ s.deletedNodeIds →
      (∀ d ∈ MindMapStore.getDescendantIds nodeId s.state.nodes,
        d ∉ s.deletedNodeIds) →
      MindMapStore.DirtyDeletedDisjoint
        (MindMapStore.setNodeOffset nodeId pos skip now s)) ∧
    (∀ s nodeId now, MindMapStore.DirtyDeletedDisjoint s →
      MindMapStore.DirtyDeletedDisjoint (MindMapStore.clearNodeOffset nodeId now s)) ∧
    (∀ s m ns, MindMapStore.DirtyDeletedDisjoint (MindMapStore.loadMap m ns s)) ∧
    (∀ s, MindMapStore.DirtyDeletedDisjoint (MindMapStore.clearMap s)) := by
  refine ⟨?_, ?_, ?_, ?_, ?_, ?_, ?_, ?_⟩
  · intro s nodeId skip node p hn hp
    obtain ⟨hd, he⟩ := MindMapStore.deleteNode_dirty_deleted nodeId skip s node p hn hp
    constructor
    · intro x hx
      rw [he, MindMapStore.mem_foldl_insert]
      exact Or.inr hx
    · intro x hx hxp
      rw [hd, Finset.mem_insert]
      rintro (h | h)
      · exact hxp h
      · exact (MindMapStore.mem_foldl_erase _ _ _ |>.mp h).2 hx
  · intro s nodeId skip node p hn hp hdisj hpdel hpnotin x hx
    obtain ⟨hd, he⟩ := MindMapStore.deleteNode_dirty_deleted nodeId skip s node p hn hp
    rw [hd, Finset.mem_insert] at hx
    rw [he, MindMapStore.mem_foldl_insert]
    rcases hx with hx | hx
    · subst hx
      simp only [not_or]
      exact ⟨hpdel, fun h => hpnotin h⟩
    · obtain ⟨hxt, hxnot⟩ := MindMapStore.mem_foldl_erase _ _ _ |>.mp hx
      simp only [not_or]
      exact ⟨hdisj x hxt, hxnot⟩
  · intro s n skip hdisj hid hpid x hx
    have hdel : (MindMapStore.addNode n skip s).deletedNodeIds = s.deletedNodeIds := by
      cases hp : n.parentId with
      | none => simp [MindMapStore.addNode, hp, MindMapStore.markNodeDirty,
          MindMapStore.markMapDirty]
      | some pid =>
        cases hq : mget s.state.nodes pid <;>
          simp [MindMapStore.addNode, hp, hq, MindMapStore.markNodeDirty,
            MindMapStore.markMapDirty]
    have hdirty : (MindMapStore.addNode n skip s).dirtyNodeIds =
        (match n.parentId with
         | some pid => insert pid (insert n.id s.dirtyNodeIds)
         | none => insert n.id s.dirtyNodeIds) := by
      cases hp : n.parentId with
      | none => simp [MindMapStore.addNode, hp, MindMapStore.markNodeDirty,
          MindMapStore.markMapDirty]
      | some pid =>
        cases hq : mget s.state.nodes pid <;>
          simp [MindMapStore.addNode, hp, hq, MindMapStore.markNodeDirty,
            MindMapStore.markMapDirty]
    rw [hdel]
    rw [hdirty] at hx
    cases hp : n.parentId with
    | none =>
      rw [hp] at hx
      simp only [Finset.mem_insert] at hx
      rcases hx with hx | hx
      · exact hx ▸ hid
      · exact hdisj x hx
    | some pid =>
      rw [hp] at hx
      simp only [Finset.mem_insert] at hx
      rcases hx with hx | hx | hx
      · exact hx ▸ hpid pid hp
      · exact hx ▸ hid
      · exact hdisj x hx
  · intro s nodeId patch skip now hdisj hid x hx
    cases hn : mget s.state.nodes nodeId with
    | none =>
      simp only [MindMapStore.updateNode, hn] at hx ⊢
      exact hdisj x hx
    | some node =>
      have hdel : (MindMapStore.updateNode nodeId patch skip now s).deletedNodeIds =
          s.deletedNodeIds := by
        simp only [MindMapStore.updateNode, hn]
        split <;> simp [MindMapStore.markNodeDirty, MindMapStore.markMapDirty]
      have hdirty : (MindMapStore.updateNode nodeId patch skip now s).dirtyNodeIds =
          insert nodeId s.dirtyNodeIds := by
        simp only [MindMapStore.updateNode, hn]
        split <;> simp [MindMapStore.markNodeDirty, MindMapStore.markMapDirty]
      rw [hdel]
      rw [hdirty, Finset.mem_insert] at hx
      rcases hx with hx | hx
      · exact hx ▸ hid
      · exact hdisj x hx
  · intro s nodeId pos skip now hdisj hid hdesc x hx
    cases hn : mget s.state.nodes nodeId with
    | none =>
      simp only [MindMapStore.setNodeOffset, hn] at hx ⊢
      exact hdisj x hx
    | some node =>
      have hdel : (MindMapStore.setNodeOffset nodeId pos skip now s).deletedNodeIds =
          s.deletedNodeIds := by
        simp only [MindMapStore.setNodeOffset, hn]
        split <;> simp [MindMapStore.markNodeDirty, MindMapStore.markNodesDirty,
          MindMapStore.markMapDirty]
      have hdirty : (MindMapStore.setNodeOffset nodeId pos skip now s).dirtyNodeIds =
          (if (MindMapStore.getDescendantIds nodeId s.state.nodes).length > 0 then
            (MindMapStore.getDescendantIds nodeId s.state.nodes).foldl
              (fun acc i => insert i acc) (insert nodeId s.dirtyNodeIds)
          else insert nodeId s.dirtyNodeIds) := by
        simp only [MindMapStore.setNodeOffset, hn]
        split <;> simp [MindMapStore.markNodeDirty, MindMapStore.markNodesDirty,
          MindMapStore.markMapDirty]
      rw [hdel]
      rw [hdirty] at hx
      split at hx
      · rw [MindMapStore.mem_foldl_insert] at hx
        rcases hx with hx | hx
        · rw [Finset.mem_insert] at hx
          rcases hx with hx | hx
          · exact hx ▸ hid
          · exact hdisj x hx
        · exact hdesc x hx
      · rw [Finset.mem_insert] at hx
        rcases hx with hx | hx
        · exact hx ▸ hid
        · exact hdisj x hx
  · intro s nodeId now hdisj x hx
    cases hn : mget s.state.nodes nodeId with
    | none =>
      simp only [MindMapStore.clearNodeOffset, hn] at hx ⊢
      exact hdisj x hx
    | some node =>
      simp only [MindMapStore.clearNodeOffset, hn] at hx ⊢
      exact hdisj x hx
  · intro s m ns x hx
    simp [MindMapStore.loadMap, MindMapStore.clearDirtyState] at hx
  · intro s x hx
    simp [MindMapStore.clearMap, MindMapStore.clearDirtyState] at hx

/-- A two-node document, root `R` with single child `B`. -/
def pairRB : MindMapStore :=
  mkStore [("R", mkN "R" none ["B"]), ("B", mkN "B" (some "R") [])]

/-- C6 counterexample: `deleteNode B` puts `B` in the deleted set (evicting it
from dirty), but the subsequent `undo` replays `addNode(B)`, whose
unconditional dirty marking re-introduces `B` into the dirty set while it is
still in the deleted set — so the claimed invariant fails on a reachable
state. -/
theorem dirty_deleted_disjoint_counterexample :
    "B" ∈ (MindMapStore.undo 7 (MindMapStore.deleteNode "B" false pairRB)).dirtyNodeIds ∧
    "B" ∈ (MindMapStore.undo 7 (MindMapStore.deleteNode "B" false pairRB)).deletedNodeIds ∧
    ¬ MindMapStore.DirtyDeletedDisjoint
        (MindMapStore.undo 7 (MindMapStore.deleteNode "B" false pairRB)) := by
  refine ⟨by decide, by decide, fun h => ?_⟩
  exact h "B" (by decide) (by decide)

/-- C6 witness: deleting `A` in the demo tree evicts descendant `C` from the
dirty set and records it deleted. -/
theorem dirty_deleted_disjoint_witness :
    mget treeRABC.state.nodes "A" = some (mkN "A" (some "R") ["C"]) ∧
    "C" ∈ (MindMapStore.deleteNode "A" false treeRABC).deletedNodeIds ∧
    "C" ∉ (MindMapStore.deleteNode "A" false treeRABC).dirtyNodeIds :=
  ⟨by decide,
    (dirty_deleted_disjoint_amended.1 treeRABC "A" false (mkN "A" (some "R") ["C"])
        "R" (by decide) (by decide)).1 "C" (by decide),
    (dirty_deleted_disjoint_amended.1 treeRABC "A" false (mkN "A" (some "R") ["C"])
        "R" (by decide) (by decide)).2 "C" (by decide) (by decide)⟩

/-! ## Well-formedness of the node mapping -/

/-- Every entry's node carries the key as its `id`. -/
def KeyedRight (nodes : List (String × MindMapNode)) : Prop :=
  ∀ e ∈ nodes, e.2.id = e.1

/-- Forward link: a node whose `parentId` names a present entry appears in
that parent's `childrenIds`. -/
def ParentLink (nodes : List (String × MindMapNode)) : Prop :=
  ∀ e ∈ nodes, ∀ pe ∈ nodes, e.2.parentId = some pe.1 → e.1 ∈ pe.2.childrenIds

/-- Converse link: every id listed in a node's `childrenIds` names a present
entry whose `parentId` points back. -/
def ChildLink (nodes : List (String × MindMapNode)) : Prop :=
  ∀ pe ∈ nodes, ∀ c ∈ pe.2.childrenIds,
    ∃ ce ∈ nodes, ce.1 = c ∧ ce.2.parentId = some pe.1

/-- Every non-null `parentId` resolves to a present entry. -/
def NoDangling (nodes : List (String × MindMapNode)) : Prop :=
  ∀ e ∈ nodes, ∀ p, e.2.parentId = some p → p ∈ mkeys nodes

instance (nodes : List (String × MindMapNode)) : Decidable (KeyedRight nodes) := by
  unfold KeyedRight
  infer_instance

instance (nodes : List (String × MindMapNode)) : Decidable (ParentLink nodes) := by
  unfold ParentLink
  infer_instance

instance (nodes : List (String × MindMapNode)) : Decidable (ChildLink nodes) := by
  unfold ChildLink
  infer_instance

instance (nodes : List (String × MindMapNode)) : Decidable (NoDangling nodes) := by
  unfold NoDangling
  infer_instance

/-- Well-formed node mapping. -/
def WF (nodes : List (String × MindMapNode)) : Prop :=
  (mkeys nodes).Nodup ∧ KeyedRight nodes ∧ ParentLink nodes ∧ ChildLink nodes ∧
    NoDangling nodes

instance (nodes : List (String × MindMapNode)) : Decidable (WF nodes) := by
  unfold WF
  infer_instance

/-- The claim's parent/child invariant, phrased over node ids as the spec
states it. -/
def ParentChildInv (nodes : List (String × MindMapNode)) : Prop :=
  (∀ e ∈ nodes, ∀ pe ∈ nodes, e.2.parentId = some pe.2.id →
    e.2.id ∈ pe.2.childrenIds) ∧
  (∀ pe ∈ nodes, ∀ c ∈ pe.2.childrenIds,
    ∃ ce ∈ nodes, ce.2.id = c ∧ ce.2.parentId = some pe.2.id)

instance (nodes : List (String × MindMapNode)) : Decidable (ParentChildInv nodes) := by
  unfold ParentChildInv
  infer_instance

theorem ParentChildInv_of_WF {nodes : List (String × MindMapNode)}
    (h : WF nodes) : ParentChildInv nodes := by
  obtain ⟨_, hkr, hpl, hcl, _⟩ := h
  constructor
  · intro e he pe hpe hp
    rw [hkr e he]
    exact hpl e he pe hpe (by rw [hp, hkr pe hpe])
  · intro pe hpe c hc
    obtain ⟨ce, hce, hc1, hc2⟩ := hcl pe hpe c hc
    exact ⟨ce, hce, by rw [hkr ce hce]; exact hc1, by rw [hc2, hkr pe hpe]⟩

/-- Every collected descendant is listed among the `childrenIds` of the start
node or of another collected descendant that is present in the mapping. -/
theorem getDescendantIdsFuel_origin (nodes : List (String × MindMapNode)) :
    ∀ fuel start c, c ∈ MindMapStore.getDescendantIdsFuel fuel start nodes →
      ∃ d dn,
        (d = start ∨ d ∈ MindMapStore.getDescendantIdsFuel fuel start nodes) ∧
        mget nodes d = some dn ∧ c ∈ dn.childrenIds := by
  intro fuel
  induction fuel with
  | zero =>
    intro start c hc
    simp [MindMapStore.getDescendantIdsFuel] at hc
  | succ f ih =>
    intro start c hc
    cases hstart : mget nodes start with
    | none =>
      rw [MindMapStore.getDescendantIdsFuel, hstart] at hc
      simp at hc
    | some n =>
      rw [MindMapStore.getDescendantIdsFuel, hstart] at hc
      rcases List.mem_bind.mp hc with ⟨ch, hch, hcc⟩
      rcases List.mem_cons.mp hcc with hcc | hcc
      · exact ⟨start, n, Or.inl rfl, hstart, hcc ▸ hch⟩
      · rcases ih ch c hcc with ⟨d, dn, hd, hdn, hcd⟩
        refine ⟨d, dn, Or.inr ?_, hdn, hcd⟩
        rw [MindMapStore.getDescendantIdsFuel, hstart]
        rcases hd with hd | hd
        · exact List.mem_bind.mpr ⟨ch, hch, hd ▸ List.mem_cons_self _ _⟩
        · exact List.mem_bind.mpr ⟨ch, hch, List.mem_cons_of_mem _ hd⟩

/-- Same statement at the fuel the store uses. -/
theorem getDescendantIds_origin (nodes : List (String × MindMapNode))
    (start c : String) (hc : c ∈ MindMapStore.getDescendantIds start nodes) :
    ∃ d dn,
      (d = start ∨ d ∈ MindMapStore.getDescendantIds start nodes) ∧
      mget nodes d = some dn ∧ c ∈ dn.childrenIds :=
  getDescendantIdsFuel_origin nodes (nodes.length + 1) start c hc

/-- A direct child of the start node is always collected. -/
theorem mem_getDescendantIds_child (nodes : List (String × MindMapNode))
    (start : String) (n : MindMapNode) (c : String)
    (hn : mget nodes start = some n) (hc : c ∈ n.childrenIds) :
    c ∈ MindMapStore.getDescendantIds start nodes := by
  rw [MindMapStore.getDescendantIds, MindMapStore.getDescendantIdsFuel, hn]
  exact List.mem_bind.mpr ⟨c, hc, List.mem_cons_self _ _⟩

/-! ## Presence preservation (no operation but delete removes an entry) -/

theorem mget_mset_isSome {α : Type} (m : List (String × α)) (k : String) (v : α)
    (r : String) (h : (mget m r).isSome) : (mget (mset m k v) r).isSome := by
  by_cases hr : r = k
  · subst hr
    simp [mget_mset_self]
  · rw [mget_mset_ne _ _ _ _ hr]
    exact h

namespace MindMapStore

theorem addNode_isSome (node : MindMapNode) (skipHistory : Bool)
    (s : MindMapStore) (r : String) (h : (mget s.state.nodes r).isSome) :
    (mget (addNode node skipHistory s).state.nodes r).isSome := by
  cases hp : node.parentId with
  | none =>
    simp only [addNode, hp, markMapDirty_state, markNodeDirty_state]
    exact mget_mset_isSome _ _ _ _ h
  | some pid =>
    cases hq : mget s.state.nodes pid with
    | none =>
      simp only [addNode, hp, hq, markMapDirty_state, markNodeDirty_state]
      exact mget_mset_isSome _ _ _ _ h
    | some parent =>
      simp only [addNode, hp, hq, markMapDirty_state, markNodeDirty_state]
      exact mget_mset_isSome _ _ _ _ (mget_mset_isSome _ _ _ _ h)

theorem updateNode_isSome (nodeId : String) (updates : NodePatch)
    (skipHistory : Bool) (now : Nat) (s : MindMapStore) (r : String)
    (h : (mget s.state.nodes r).isSome) :
    (mget (updateNode nodeId updates skipHistory now s).state.nodes r).isSome := by
  cases hn : mget s.state.nodes nodeId with
  | none => simpa [updateNode, hn] using h
  | some node =>
    simp only [updateNode, hn]
    split <;>
      (simp only [markMapDirty_state, markNodeDirty_state]
       exact mget_mset_isSome _ _ _ _ h)

theorem snoStep_foldl_isSome (nodes0 : List (String × MindMapNode))
    (delta : Position) (now : Nat) (D : List String) (r : String) :
    ∀ acc, (mget acc.2.2 r).isSome →
      (mget (D.foldl (snoStep nodes0 delta now) acc).2.2 r).isSome := by
  induction D with
  | nil => exact fun acc h => h
  | cons i rest ih =>
    intro acc h
    simp only [List.foldl_cons]
    refine ih _ ?_
    cases hq : mget nodes0 i with
    | none => simpa [snoStep, hq] using h
    | some dn =>
      simp only [snoStep, hq]
      exact mget_mset_isSome _ _ _ _ h

theorem setNodeOffset_isSome (nodeId : String) (newPosition : Position)
    (skipHistory : Bool) (now : Nat) (s : MindMapStore) (r : String)
    (h : (mget s.state.nodes r).isSome) :
    (mget (setNodeOffset nodeId newPosition skipHistory now s).state.nodes
      r).isSome := by
  cases hn : mget s.state.nodes nodeId with
  | none => simpa [setNodeOffset, hn] using h
  | some node =>
    simp only [setNodeOffset, hn, markMapDirty_state, markNodeDirty_state,
      ite_markNodesDirty_state]
    simp only [snoRes, hn]
    exact snoStep_foldl_isSome _ _ _ _ _ _ (mget_mset_isSome _ _ _ _ h)

theorem clearNodeOffset_isSome (nodeId : String) (now : Nat) (s : MindMapStore)
    (r : String) (h : (mget s.state.nodes r).isSome) :
    (mget (clearNodeOffset nodeId now s).state.nodes r).isSome := by
  cases hn : mget s.state.nodes nodeId with
  | none => simpa [clearNodeOffset, hn] using h
  | some node =>
    simp only [clearNodeOffset, hn]
    exact mget_mset_isSome _ _ _ _ h

theorem setOffsetDirect_isSome (nodeId : String) (offset : Option Position)
    (s : MindMapStore) (r : String) (h : (mget s.state.nodes r).isSome) :
    (mget (setOffsetDirect nodeId offset s).state.nodes r).isSome := by
  cases hn : mget s.state.nodes nodeId with
  | none => simpa [setOffsetDirect, hn] using h
  | some node =>
    simp only [setOffsetDirect, hn]
    exact mget_mset_isSome _ _ _ _ h

theorem som_foldl_isSome (offsets : List (String × Option Position)) (r : String) :
    ∀ m : List (String × MindMapNode), (mget m r).isSome →
      (mget (offsets.foldl (fun acc kv =>
        match mget acc kv.1 with
        | some node => mset acc kv.1 { node with manualOffset := kv.2 }
        | none => acc) m) r).isSome := by
  induction offsets with
  | nil => exact fun m h => h
  | cons kv rest ih =>
    intro m h
    simp only [List.foldl_cons]
    refine ih _ ?_
    cases hq : mget m kv.1 with
    | none => simpa [hq] using h
    | some node =>
      simp only [hq]
      exact mget_mset_isSome _ _ _ _ h

theorem setOffsetsMultiple_isSome (offsets : List (String × Option Position))
    (s : MindMapStore) (r : String) (h : (mget s.state.nodes r).isSome) :
    (mget (setOffsetsMultiple offsets s).state.nodes r).isSome := by
  simp only [setOffsetsMultiple]
  exact som_foldl_isSome offsets r s.state.nodes h

/-- A node with null `parentId` survives any `deleteNode` call: the target
itself is non-root, and every collected descendant has a non-null parent by
the converse link invariant. -/
theorem deleteNode_root_preserved (t : String) (skipHistory : Bool)
    (s : MindMapStore) (r : String) (rn : MindMapNode)
    (hnd : (mkeys s.state.nodes).Nodup) (hcl : ChildLink s.state.nodes)
    (hr : mget s.state.nodes r = some rn) (hroot : rn.parentId = none) :
    (mget (deleteNode t skipHistory s).state.nodes r).isSome := by
  cases ht : mget s.state.nodes t with
  | none => simpa [deleteNode, ht, hr]
  | some tn =>
    cases htp : tn.parentId with
    | none => simpa [deleteNode, ht, htp, hr]
    | some p =>
      simp only [deleteNode, ht, htp, markMapDirty_state, markNodeDirty_state,
        foldl_markNodeDeleted_state]
      rw [mget_foldl_mdel]
      have hrt : r ≠ t := by
        intro he
        rw [he, ht] at hr
        have heq : tn = rn := by injection hr
        rw [← heq] at hroot
        rw [hroot] at htp
        exact Option.noConfusion htp
      have hrd : r ∉ getDescendantIds t s.state.nodes := by
        intro hmem
        obtain ⟨d, dn, _, hdn, hcd⟩ := getDescendantIds_origin s.state.nodes t r hmem
        obtain ⟨ce, hce, hc1, hc2⟩ := hcl (d, dn) (mget_mem hdn) r hcd
        have hmm : mget s.state.nodes ce.1 = some ce.2 :=
          (mem_iff_mget hnd).mp (by rw [← Prod.mk.eta (p := ce)] at hce; exact hce)
        rw [hc1, hr] at hmm
        have heq : rn = ce.2 := by injection hmm
        rw [← heq] at hc2
        rw [hroot] at hc2
        exact Option.noConfusion hc2
      have hnotin : r ∉ getDescendantIds t s.state.nodes ++ [t] := by
        simp only [List.mem_append, List.mem_singleton, not_or]
        exact ⟨hrd, hrt⟩
      rw [if_neg hnotin]
      cases hq : mget s.state.nodes p with
      | none => simp [hr]
      | some pn => exact mget_mset_isSome _ _ _ _ (by simp [hr])

/-- `undo` never removes a null-parent node: the replay paths it dispatches to
either preserve every entry or go through `deleteNode`. -/
theorem undo_root_preserved (now : Nat) (s : MindMapStore) (r : String)
    (rn : MindMapNode) (hnd : (mkeys s.state.nodes).Nodup)
    (hcl : ChildLink s.state.nodes) (hr : mget s.state.nodes r = some rn)
    (hroot : rn.parentId = none) :
    (mget (undo now s).state.nodes r).isSome := by
  cases hl : s.state.history.past.getLast? with
  | none => simp [undo, hl, hr]
  | some a =>
    have hsome : (mget (revertAction a now s).state.nodes r).isSome := by
      cases a with
      | ADD_NODE n => exact deleteNode_root_preserved n.id true s r rn hnd hcl hr hroot
      | DELETE_NODE n pid => exact addNode_isSome n true s r (by simp [hr])
      | SET_OFFSET nodeId fr t0 offs =>
        cases offs with
        | none => exact setOffsetDirect_isSome nodeId fr s r (by simp [hr])
        | some o => exact setOffsetsMultiple_isSome o.1 s r (by simp [hr])
      | UPDATE_NODE nodeId before after =>
        exact updateNode_isSome nodeId before true now s r (by simp [hr])
      | REPARENT_NODE nodeId a b => simp [revertAction, hr]
    simpa [undo, hl] using hsome

/-- `redo` never removes a null-parent node. -/
theorem redo_root_preserved (now : Nat) (s : MindMapStore) (r : String)
    (rn : MindMapNode) (hnd : (mkeys s.state.nodes).Nodup)
    (hcl : ChildLink s.state.nodes) (hr : mget s.state.nodes r = some rn)
    (hroot : rn.parentId = none) :
    (mget (redo now s).state.nodes r).isSome := by
  cases hf : s.state.history.future with
  | nil => simp [redo, hf, hr]
  | cons a rest =>
    have hsome : (mget (applyAction a now s).state.nodes r).isSome := by
      cases a with
      | ADD_NODE n => exact addNode_isSome n true s r (by simp [hr])
      | DELETE_NODE n pid => exact deleteNode_root_preserved n.id true s r rn hnd hcl hr hroot
      | SET_OFFSET nodeId fr t0 offs =>
        cases offs with
        | none => exact setOffsetDirect_isSome nodeId t0 s r (by simp [hr])
        | some o =>
          exact setOffsetsMultiple_isSome (o.2.map (fun kv => (kv.1, some kv.2))) s r
            (by simp [hr])
      | UPDATE_NODE nodeId before after =>
        exact updateNode_isSome nodeId after true now s r (by simp [hr])
      | REPARENT_NODE nodeId a b => simp [applyAction, hr]
    simpa [redo, hf] using hsome

end MindMapStore

/-! ## C5: deleting the root or a missing node is a silent no-op -/

/-- C5: `deleteNode` is a silent no-op — the whole store including node
mapping, selection, editing, history, view and dirty state is returned
unchanged — whenever the target id is absent or names the root (null
`parentId`); moreover the root is never removable by any call sequence: a
null-parent node survives every `deleteNode` (given the converse parent/child
link invariant), and `addNode`, `updateNode`, `setNodeOffset`,
`clearNodeOffset`, the replay offset writers, `undo` and `redo` never remove
any entry at all. -/
theorem deleteNode_root_noop (s : MindMapStore) :
    (∀ nodeId skip, mget s.state.nodes nodeId = none →
      MindMapStore.deleteNode nodeId skip s = s) ∧
    (∀ nodeId skip n, mget s.state.nodes nodeId = some n → n.parentId = none →
      MindMapStore.deleteNode nodeId skip s = s) ∧
    (∀ t skip r rn, (mkeys s.state.nodes).Nodup → ChildLink s.state.nodes →
      mget s.state.nodes r = some rn → rn.parentId = none →
      (mget (MindMapStore.deleteNode t skip s).state.nodes r).isSome) ∧
    (∀ n skip r, (mget s.state.nodes r).isSome →
      (mget (MindMapStore.addNode n skip s).state.nodes r).isSome) ∧
    (∀ id p skip now r, (mget s.state.nodes r).isSome →
      (mget (MindMapStore.updateNode id p skip now s).state.nodes r).isSome) ∧
    (∀ id pos skip now r, (mget s.state.nodes r).isSome →
      (mget (MindMapStore.setNodeOffset id pos skip now s).state.nodes r).isSome) ∧
    (∀ id now r, (mget s.state.nodes r).isSome →
      (mget (MindMapStore.clearNodeOffset id now s).state.nodes r).isSome) ∧
    (∀ id off r, (mget s.state.nodes r).isSome →
      (mget (MindMapStore.setOffsetDirect id off s).state.nodes r).isSome) ∧
    (∀ offs r, (mget s.state.nodes r).isSome →
      (mget (MindMapStore.setOffsetsMultiple offs s).state.nodes r).isSome) ∧
    (∀ now r rn, (mkeys s.state.nodes).Nodup → ChildLink s.state.nodes →
      mget s.state.nodes r = some rn → rn.parentId = none →
      (mget (MindMapStore.undo now s).state.nodes r).isSome) ∧
    (∀ now r rn, (mkeys s.state.nodes).Nodup → ChildLink s.state.nodes →
      mget s.state.nodes r = some rn → rn.parentId = none →
      (mget (MindMapStore.redo now s).state.nodes r).isSome) := by
  refine ⟨?_, ?_, ?_, ?_, ?_, ?_, ?_, ?_, ?_, ?_, ?_⟩
  · intro nodeId skip h
    simp [MindMapStore.deleteNode, h]
  · intro nodeId skip n hn hp
    simp [MindMapStore.deleteNode, hn, hp]
  · intro t skip r rn hnd hcl hr hroot
    exact MindMapStore.deleteNode_root_preserved t skip s r rn hnd hcl hr hroot
  · intro n skip r h
    exact MindMapStore.addNode_isSome n skip s r h
  · intro id p skip now r h
    exact MindMapStore.updateNode_isSome id p skip now s r h
  · intro id pos skip now r h
    exact MindMapStore.setNodeOffset_isSome id pos skip now s r h
  · intro id now r h
    exact MindMapStore.clearNodeOffset_isSome id now s r h
  · intro id off r h
    exact MindMapStore.setOffsetDirect_isSome id off s r h
  · intro offs r h
    exact MindMapStore.setOffsetsMultiple_isSome offs s r h
  · intro now r rn hnd hcl hr hroot
    exact MindMapStore.undo_root_preserved now s r rn hnd hcl hr hroot
  · intro now r rn hnd hcl hr hroot
    exact MindMapStore.redo_root_preserved now s r rn hnd hcl hr hroot

/-- C5 witness: deleting the root `R` of the demo tree is a no-op, deleting a
missing id is a no-op, and `R` survives a genuine `deleteNode A`. -/
theorem deleteNode_root_noop_witness :
    mget treeRABC.state.nodes "R" = some (mkN "R" none ["A", "B"]) ∧
    MindMapStore.deleteNode "R" false treeRABC = treeRABC ∧
    MindMapStore.deleteNode "Z" false treeRABC = treeRABC ∧
    (mget (MindMapStore.deleteNode "A" false treeRABC).state.nodes "R").isSome :=
  ⟨by decide,
    (deleteNode_root_noop treeRABC).2.1 "R" false (mkN "R" none ["A", "B"])
      (by decide) (by decide),
    (deleteNode_root_noop treeRABC).1 "Z" false (by decide),
    (deleteNode_root_noop treeRABC).2.2.1 "A" false "R" (mkN "R" none ["A", "B"])
      (by decide) (by decide) (by decide) (by decide)⟩

/-! ## C4: preservation of the parent/child link invariant -/

theorem mem_mset_iff {α : Type} {m : List (String × α)} {k : String} {v : α}
    (hnd : (mkeys m).Nodup) (hk : (mget m k).isSome) {e : String × α} :
    e ∈ mset m k v ↔ (e ∈ m ∧ e.1 ≠ k) ∨ e = (k, v) := by
  constructor
  · intro he
    by_cases hek : e.1 = k
    · right
      have hnd2 : (mkeys (mset m k v)).Nodup := mkeys_nodup_mset k v hnd
      have : mget (mset m k v) e.1 = some e.2 :=
        (mem_iff_mget hnd2).mp (by rw [← Prod.mk.eta (p := e)] at he; exact he)
      rw [hek, mget_mset_self] at this
      have hev : e.2 = v := by
        injection this with h
        exact h.symm
      rw [← Prod.mk.eta (p := e), hek, hev]
    · rcases mem_of_mem_mset he with h | h
      · exact Or.inl ⟨h, hek⟩
      · exact absurd (by rw [h]) hek
  · rintro (⟨hm, hne⟩ | rfl)
    · exact mem_mset_of_mem hm hne
    · exact mget_mem (mget_mset_self _ _ _)

theorem mem_mset_absent_iff {α : Type} {m : List (String × α)} {k : String}
    {v : α} (hk : mget m k = none) {e : String × α} :
    e ∈ mset m k v ↔ e ∈ m ∨ e = (k, v) := by
  constructor
  · exact mem_of_mem_mset
  · rintro (hm | rfl)
    · refine mem_mset_of_mem hm (fun hek => ?_)
      rw [mget_eq_none_iff] at hk
      exact hk (hek ▸ (by simpa [mkeys] using List.mem_map_of_mem Prod.fst hm))
    · exact mget_mem (mget_mset_self _ _ _)

theorem mem_foldl_mdel_iff {α : Type} {ids : List String}
    {m : List (String × α)} {e : String × α} :
    e ∈ ids.foldl mdel m ↔ e ∈ m ∧ e.1 ∉ ids := by
  induction ids generalizing m with
  | nil => simp
  | cons i rest ih =>
    simp only [List.foldl_cons, ih, List.mem_cons, not_or]
    constructor
    · rintro ⟨hm, hr⟩
      have him : e ∈ m := mem_of_mem_mdel hm
      refine ⟨him, fun hei => ?_, hr⟩
      have hkeysmem : e.1 ∈ mkeys (mdel m i) := by
        simpa [mkeys] using List.mem_map_of_mem Prod.fst hm
      rw [hei] at hkeysmem
      have hnone := mget_mdel_self m i
      rw [mget_eq_none_iff] at hnone
      exact hnone hkeysmem
    · rintro ⟨hm, hei, hr⟩
      exact ⟨mem_mdel_of_mem hm hei, hr⟩

theorem mkeys_nodup_foldl_mdel {α : Type} (ids : List String)
    {m : List (String × α)} (hnd : (mkeys m).Nodup) :
    (mkeys (ids.foldl mdel m)).Nodup := by
  induction ids generalizing m with
  | nil => exact hnd
  | cons i rest ih =>
    simp only [List.foldl_cons]
    exact ih (mkeys_nodup_mdel i hnd)

/-- Replacing a present entry by a node that keeps the structural fields
(`id`, `parentId`, `childrenIds`) preserves well-formedness. -/
theorem WF_mset_struct {nodes : List (String × MindMapNode)} {k : String}
    {cur v : MindMapNode} (hw : WF nodes) (hc : mget nodes k = some cur)
    (hid : v.id = cur.id) (hpar : v.parentId = cur.parentId)
    (hch : v.childrenIds = cur.childrenIds) : WF (mset nodes k v) := by
  obtain ⟨hnd, hkr, hpl, hcl, hdg⟩ := hw
  have hks : (mget nodes k).isSome := by simp [hc]
  have hkeys : mkeys (mset nodes k v) = mkeys nodes := mkeys_mset_present v hks
  have hshadow : ∀ e ∈ mset nodes k v, ∃ ee ∈ nodes, ee.1 = e.1 ∧
      ee.2.id = e.2.id ∧ ee.2.parentId = e.2.parentId ∧
      ee.2.childrenIds = e.2.childrenIds := by
    intro e he
    rcases (mem_mset_iff hnd hks).mp he with ⟨hm, _⟩ | rfl
    · exact ⟨e, hm, rfl, rfl, rfl, rfl⟩
    · exact ⟨(k, cur), mget_mem hc, rfl, hid.symm, hpar.symm, hch.symm⟩
  refine ⟨hkeys ▸ hnd, ?_, ?_, ?_, ?_⟩
  · intro e he
    obtain ⟨ee, hee, h1, h2, _, _⟩ := hshadow e he
    rw [← h2, ← h1]
    exact hkr ee hee
  · intro e he pe hpe hp
    obtain ⟨ee, hee, h1, _, h3, _⟩ := hshadow e he
    obtain ⟨pee, hpee, hp1, _, _, hp4⟩ := hshadow pe hpe
    rw [← hp4, ← h1]
    exact hpl ee hee pee hpee (by rw [h3, hp, hp1])
  · intro pe hpe c hcmem
    obtain ⟨pee, hpee, hp1, _, _, hp4⟩ := hshadow pe hpe
    obtain ⟨ce, hce, hc1, hc2⟩ := hcl pee hpee c (by rw [hp4]; exact hcmem)
    by_cases hcek : ce.1 = k
    · refine ⟨(k, v), (mem_mset_iff hnd hks).mpr (Or.inr rfl), ?_, ?_⟩
      · exact hcek ▸ hc1
      · have : mget nodes ce.1 = some ce.2 :=
          (mem_iff_mget hnd).mp (by rw [← Prod.mk.eta (p := ce)] at hce; exact hce)
        rw [hcek, hc] at this
        have hcc : ce.2 = cur := by
          injection this with h
          exact h.symm
        rw [hpar, ← hcc, hc2, hp1]
    · refine ⟨ce, (mem_mset_iff hnd hks).mpr (Or.inl ⟨hce, hcek⟩), hc1, ?_⟩
      rw [hc2, hp1]
  · intro e he p hp
    obtain ⟨ee, hee, _, _, h3, _⟩ := hshadow e he
    rw [hkeys]
    exact hdg ee hee p (by rw [h3, hp])

theorem not_mem_key_of_mget_none {α : Type} {m : List (String × α)} {k : String}
    (h : mget m k = none) : ∀ e ∈ m, e.1 ≠ k := by
  intro e he hek
  rw [mget_eq_none_iff] at h
  exact h (hek ▸ (by simpa [mkeys] using List.mem_map_of_mem Prod.fst he))

/-- Inserting a fresh root (null `parentId`, no children) preserves
well-formedness. -/
theorem WF_mset_fresh_root {nodes : List (String × MindMapNode)}
    {n : MindMapNode} (hw : WF nodes) (hfresh : mget nodes n.id = none)
    (hchn : n.childrenIds = []) (hpar : n.parentId = none) :
    WF (mset nodes n.id n) := by
  obtain ⟨hnd, hkr, hpl, hcl, hdg⟩ := hw
  have hkeys : mkeys (mset nodes n.id n) = mkeys nodes ++ [n.id] :=
    mkeys_mset_absent n hfresh
  have hchar : ∀ e, e ∈ mset nodes n.id n ↔ e ∈ nodes ∨ e = (n.id, n) :=
    fun e => mem_mset_absent_iff hfresh
  refine ⟨?_, ?_, ?_, ?_, ?_⟩
  · rw [hkeys]
    simp only [List.nodup_append, List.nodup_singleton, true_and]
    refine ⟨hnd, ?_⟩
    intro a ha hb
    simp only [List.mem_singleton] at hb
    rw [mget_eq_none_iff] at hfresh
    exact hfresh (hb ▸ ha)
  · intro e he
    rcases (hchar e).mp he with hm | rfl
    · exact hkr e hm
    · rfl
  · intro e he pe hpe hp
    rcases (hchar pe).mp hpe with hpm | rfl
    · rcases (hchar e).mp he with hm | rfl
      · exact hpl e hm pe hpm hp
      · rw [hpar] at hp
        exact Option.noConfusion hp
    · rcases (hchar e).mp he with hm | rfl
      · exact absurd (hdg e hm n.id hp) (mget_eq_none_iff.mp hfresh)
      · rw [hpar] at hp
        exact Option.noConfusion hp
  · intro pe hpe c hcmem
    rcases (hchar pe).mp hpe with hpm | rfl
    · obtain ⟨ce, hce, hc1, hc2⟩ := hcl pe hpm c hcmem
      exact ⟨ce, (hchar ce).mpr (Or.inl hce), hc1, hc2⟩
    · rw [hchn] at hcmem
      simp at hcmem
  · intro e he p hp
    rw [hkeys]
    rcases (hchar e).mp he with hm | rfl
    · exact List.mem_append_left _ (hdg e hm p hp)
    · rw [hpar] at hp
      exact Option.noConfusion hp

/-- Inserting a fresh childless node under a present parent and appending its
id to the parent's `childrenIds` preserves well-formedness. -/
theorem WF_addNode_nodes {nodes : List (String × MindMapNode)}
    {n pn : MindMapNode} {pid : String} (hw : WF nodes)
    (hfresh : mget nodes n.id = none) (hchn : n.childrenIds = [])
    (hpar : n.parentId = some pid) (hpn : mget nodes pid = some pn) :
    WF (mset (mset nodes n.id n) pid
      { pn with childrenIds := pn.childrenIds ++ [n.id] }) := by
  obtain ⟨hnd, hkr, hpl, hcl, hdg⟩ := hw
  have hpidne : pid ≠ n.id := by
    intro he
    rw [he, hfresh] at hpn
    exact Option.noConfusion hpn
  have hnd1 : (mkeys (mset nodes n.id n)).Nodup := mkeys_nodup_mset _ _ hnd
  have hm1p : mget (mset nodes n.id n) pid = some pn := by
    rw [mget_mset_ne _ _ _ _ hpidne]
    exact hpn
  have hm1ps : (mget (mset nodes n.id n) pid).isSome := by simp [hm1p]
  have hchar : ∀ e, e ∈ mset (mset nodes n.id n) pid
      { pn with childrenIds := pn.childrenIds ++ [n.id] } ↔
      (e ∈ nodes ∧ e.1 ≠ pid) ∨ e = (n.id, n) ∨
        e = (pid, { pn with childrenIds := pn.childrenIds ++ [n.id] }) := by
    intro e
    rw [mem_mset_iff hnd1 hm1ps]
    constructor
    · rintro (⟨hm1, hne⟩ | rfl)
      · rcases (mem_mset_absent_iff hfresh).mp hm1 with hm | rfl
        · exact Or.inl ⟨hm, hne⟩
        · exact Or.inr (Or.inl rfl)
      · exact Or.inr (Or.inr rfl)
    · rintro (⟨hm, hne⟩ | rfl | rfl)
      · exact Or.inl ⟨(mem_mset_absent_iff hfresh).mpr (Or.inl hm), hne⟩
      · exact Or.inl ⟨(mem_mset_absent_iff hfresh).mpr (Or.inr rfl), hpidne ∘ Eq.symm⟩
      · exact Or.inr rfl
  have hkeys : mkeys (mset (mset nodes n.id n) pid
      { pn with childrenIds := pn.childrenIds ++ [n.id] }) =
      mkeys nodes ++ [n.id] := by
    rw [mkeys_mset_present _ hm1ps, mkeys_mset_absent n hfresh]
  have hfreshkey := not_mem_key_of_mget_none hfresh
  refine ⟨?_, ?_, ?_, ?_, ?_⟩
  · rw [hkeys]
    simp only [List.nodup_append, List.nodup_singleton, true_and]
    refine ⟨hnd, ?_⟩
    intro a ha hb
    simp only [List.mem_singleton] at hb
    rw [mget_eq_none_iff] at hfresh
    exact hfresh (hb ▸ ha)
  · intro e he
    rcases (hchar e).mp he with ⟨hm, _⟩ | rfl | rfl
    · exact hkr e hm
    · rfl
    · exact hkr (pid, pn) (mget_mem hpn)
  · intro e he pe hpe hp
    rcases (hchar pe).mp hpe with ⟨hpm, hpne⟩ | rfl | rfl
    · rcases (hchar e).mp he with ⟨hm, _⟩ | rfl | rfl
      · exact hpl e hm pe hpm hp
      · rw [hpar] at hp
        have : pe.1 = pid := by injection hp with h; exact h.symm
        exact absurd this hpne
      · exact hpl (pid, pn) (mget_mem hpn) pe hpm hp
    · rcases (hchar e).mp he with ⟨hm, _⟩ | rfl | rfl
      · exact absurd (hdg e hm n.id hp) (mget_eq_none_iff.mp hfresh)
      · rw [hpar] at hp
        have : n.id = pid := by injection hp with h; exact h.symm
        exact absurd this (hpidne ∘ Eq.symm)
      · exact absurd (hdg (pid, pn) (mget_mem hpn) n.id hp)
          (mget_eq_none_iff.mp hfresh)
    · simp only [List.mem_append, List.mem_singleton]
      rcases (hchar e).mp he with ⟨hm, _⟩ | rfl | rfl
      · exact Or.inl (hpl e hm (pid, pn) (mget_mem hpn) hp)
      · exact Or.inr rfl
      · exact Or.inl (hpl (pid, pn) (mget_mem hpn) (pid, pn) (mget_mem hpn) hp)
  · intro pe hpe c hcmem
    rcases (hchar pe).mp hpe with ⟨hpm, hpne⟩ | rfl | rfl
    · obtain ⟨ce, hce, hc1, hc2⟩ := hcl pe hpm c hcmem
      by_cases hcep : ce.1 = pid
      · have hcepn : ce.2 = pn := by
          have : mget nodes ce.1 = some ce.2 :=
            (mem_iff_mget hnd).mp (by rw [← Prod.mk.eta (p := ce)] at hce; exact hce)
          rw [hcep, hpn] at this
          injection this with h
          exact h.symm
        refine ⟨(pid, { pn with childrenIds := pn.childrenIds ++ [n.id] }),
          (hchar _).mpr (Or.inr (Or.inr rfl)), hcep ▸ hc1, ?_⟩
        rw [← hcepn]
        exact hc2
      · exact ⟨ce, (hchar ce).mpr (Or.inl ⟨hce, hcep⟩), hc1, hc2⟩
    · rw [hchn] at hcmem
      simp at hcmem
    · simp only [List.mem_append, List.mem_singleton] at hcmem
      rcases hcmem with hcmem | rfl
      · obtain ⟨ce, hce, hc1, hc2⟩ := hcl (pid, pn) (mget_mem hpn) c hcmem
        by_cases hcep : ce.1 = pid
        · have hcepn : ce.2 = pn := by
            have : mget nodes ce.1 = some ce.2 :=
              (mem_iff_mget hnd).mp (by rw [← Prod.mk.eta (p := ce)] at hce; exact hce)
            rw [hcep, hpn] at this
            injection this with h
            exact h.symm
          refine ⟨(pid, { pn with childrenIds := pn.childrenIds ++ [n.id] }),
            (hchar _).mpr (Or.inr (Or.inr rfl)), hcep ▸ hc1, ?_⟩
          rw [← hcepn]
          exact hc2
        · exact ⟨ce, (hchar ce).mpr (Or.inl ⟨hce, hcep⟩), hc1, hc2⟩
      · exact ⟨(n.id, n), (hchar _).mpr (Or.inr (Or.inl rfl)), rfl, hpar⟩
  · intro e he p hp
    rw [hkeys]
    rcases (hchar e).mp he with ⟨hm, _⟩ | rfl | rfl
    · exact List.mem_append_left _ (hdg e hm p hp)
    · rw [hpar] at hp
      have : p = pid := by injection hp with h; exact h.symm
      rw [this]
      exact List.mem_append_left _ (mget_isSome_iff.mp (by simp [hpn]))
    · exact List.mem_append_left _ (hdg (pid, pn) (mget_mem hpn) p hp)

theorem mem_mkeys_of_mem {α : Type} {m : List (String × α)} {e : String × α}
    (h : e ∈ m) : e.1 ∈ mkeys m := by
  simpa [mkeys] using List.mem_map_of_mem Prod.fst h

/-- Under key uniqueness and the converse link, a present entry whose key was
collected as a descendant has its `parentId` pointing at the start node or at
another collected descendant. -/
theorem parent_of_desc {nodes : List (String × MindMapNode)}
    (hnd : (mkeys nodes).Nodup) (hcl : ChildLink nodes) {t c : String}
    {ce : String × MindMapNode} (hce : ce ∈ nodes) (hcek : ce.1 = c)
    (hcD : c ∈ MindMapStore.getDescendantIds t nodes) :
    ∃ d, ce.2.parentId = some d ∧
      (d = t ∨ d ∈ MindMapStore.getDescendantIds t nodes) := by
  obtain ⟨d, dn, hd, hdn, hcd⟩ := getDescendantIds_origin nodes t c hcD
  obtain ⟨ce2, hce2, hc1, hc2⟩ := hcl (d, dn) (mget_mem hdn) c hcd
  have h1 : mget nodes ce.1 = some ce.2 :=
    (mem_iff_mget hnd).mp (by rw [← Prod.mk.eta (p := ce)] at hce; exact hce)
  have h2 : mget nodes ce2.1 = some ce2.2 :=
    (mem_iff_mget hnd).mp (by rw [← Prod.mk.eta (p := ce2)] at hce2; exact hce2)
  rw [hcek] at h1
  rw [hc1, h1] at h2
  have heq : ce.2 = ce2.2 := by injection h2 with h
  exact ⟨d, by rw [heq]; exact hc2, hd⟩

/-- `deleteNode`'s node-mapping transformation preserves well-formedness when
the collected descendant set is closed under `childrenIds` and does not
contain the parent. -/
theorem WF_deleteNode_nodes {nodes : List (String × MindMapNode)}
    {t parentId : String} {tn pn : MindMapNode} (hw : WF nodes)
    (ht : mget nodes t = some tn) (hpar : tn.parentId = some parentId)
    (hpn : mget nodes parentId = some pn)
    (hclosed : ∀ d ∈ MindMapStore.getDescendantIds t nodes,
      ∀ c ∈ ((mget nodes d).map MindMapNode.childrenIds).getD [],
        c ∈ MindMapStore.getDescendantIds t nodes)
    (hpd : parentId ∉ MindMapStore.getDescendantIds t nodes ++ [t]) :
    WF ((MindMapStore.getDescendantIds t nodes ++ [t]).foldl mdel
      (mset nodes parentId
        { pn with
          childrenIds := pn.childrenIds.filter (fun cid => cid ≠ t) })) := by
  obtain ⟨hnd, hkr, hpl, hcl, hdg⟩ := hw
  set D := MindMapStore.getDescendantIds t nodes with hDdef
  set pn2 : MindMapNode :=
    { pn with childrenIds := pn.childrenIds.filter (fun cid => cid ≠ t) }
    with hpn2def
  have hps : (mget nodes parentId).isSome := by simp [hpn]
  have htmem : t ∈ D ++ [t] :=
    List.mem_append_right _ (List.mem_singleton.mpr rfl)
  have hchar : ∀ e, e ∈ (D ++ [t]).foldl mdel (mset nodes parentId pn2) ↔
      ((e ∈ nodes ∧ e.1 ≠ parentId) ∨ e = (parentId, pn2)) ∧
        e.1 ∉ D ++ [t] := by
    intro e
    rw [mem_foldl_mdel_iff, mem_mset_iff hnd hps]
  have hkeyu : ∀ (e : String × MindMapNode), e ∈ nodes →
      mget nodes e.1 = some e.2 := fun e he =>
    (mem_iff_mget hnd).mp (by rw [← Prod.mk.eta (p := e)] at he; exact he)
  have htEntry : ∀ (ce : String × MindMapNode), ce ∈ nodes → ce.1 = t →
      ce.2.parentId = some parentId := by
    intro ce hce h1
    have h2 := hkeyu ce hce
    rw [h1, ht] at h2
    have h3 : tn = ce.2 := by injection h2 with h
    rw [← h3]
    exact hpar
  have hpnEntry : ∀ (ce : String × MindMapNode), ce ∈ nodes →
      ce.1 = parentId → ce.2 = pn := by
    intro ce hce h1
    have h2 := hkeyu ce hce
    rw [h1, hpn] at h2
    injection h2 with h
    exact h.symm
  have hchild : ∀ e ∈ nodes, ∀ p, e.2.parentId = some p → p ∈ D ++ [t] →
      e.1 ∈ D := by
    intro e he p hp hpDel
    rcases List.mem_append.mp hpDel with hpD | hpt
    · obtain ⟨q, hq⟩ := Option.isSome_iff_exists.mp
        (mget_isSome_iff.mpr (hdg e he p hp))
      have hmem : e.1 ∈ q.childrenIds := hpl e he (p, q) (mget_mem hq) hp
      refine hclosed p hpD e.1 ?_
      rw [hq]
      simpa using hmem
    · have hpt2 : p = t := List.mem_singleton.mp hpt
      subst hpt2
      exact mem_getDescendantIds_child nodes p tn e.1 ht
        (hpl e he (p, tn) (mget_mem ht) hp)
  have hcnotD : ∀ (ce : String × MindMapNode), ce ∈ nodes → ∀ p1,
      ce.2.parentId = some p1 → p1 ∉ D ++ [t] → ce.1 ∉ D := by
    intro ce hce p1 hp hp1 hcD
    obtain ⟨d, hd1, hd2⟩ := parent_of_desc hnd hcl hce rfl hcD
    rw [hp] at hd1
    have he2 : p1 = d := by injection hd1 with h
    rcases hd2 with hdt | hdD
    · exact hp1 (by rw [he2, hdt]; exact htmem)
    · exact hp1 (by rw [he2]; exact List.mem_append_left _ hdD)
  refine ⟨?_, ?_, ?_, ?_, ?_⟩
  · exact mkeys_nodup_foldl_mdel _ (mkeys_nodup_mset _ _ hnd)
  · intro e he
    rcases (hchar e).mp he with ⟨⟨hm, _⟩ | rfl, _⟩
    · exact hkr e hm
    · exact hkr (parentId, pn) (mget_mem hpn)
  · intro e he pe hpe hp
    rcases (hchar pe).mp hpe with ⟨⟨hpm, hpne⟩ | rfl, hpDel⟩
    · rcases (hchar e).mp he with ⟨⟨hm, _⟩ | rfl, _⟩
      · exact hpl e hm pe hpm hp
      · exact hpl (parentId, pn) (mget_mem hpn) pe hpm hp
    · rcases (hchar e).mp he with ⟨⟨hm, _⟩ | rfl, heDel⟩
      · have h1 : e.1 ∈ pn.childrenIds :=
          hpl e hm (parentId, pn) (mget_mem hpn) hp
        have h2 : e.1 ≠ t := fun he2 => heDel (by rw [he2]; exact htmem)
        exact List.mem_filter.mpr ⟨h1, by simpa using h2⟩
      · have h1 : parentId ∈ pn.childrenIds :=
          hpl (parentId, pn) (mget_mem hpn) (parentId, pn) (mget_mem hpn) hp
        have h2 : parentId ≠ t := fun he2 => hpd (by rw [he2]; exact htmem)
        exact List.mem_filter.mpr ⟨h1, by simpa using h2⟩
  · intro pe hpe c hcmem
    rcases (hchar pe).mp hpe with ⟨⟨hpm, hpne⟩ | rfl, hpDel⟩
    · obtain ⟨ce, hce, hc1, hc2⟩ := hcl pe hpm c hcmem
      have hcne_t : ce.1 ≠ t := by
        intro h1
        have h2 := htEntry ce hce h1
        rw [hc2] at h2
        have : pe.1 = parentId := by injection h2 with h
        exact hpne this
      have hcDel : ce.1 ∉ D ++ [t] := by
        intro hmem2
        rcases List.mem_append.mp hmem2 with hcD | hct
        · exact (hcnotD ce hce pe.1 hc2 hpDel) hcD
        · exact hcne_t (List.mem_singleton.mp hct)
      by_cases hcp : ce.1 = parentId
      · have hce2 : ce.2 = pn := hpnEntry ce hce hcp
        refine ⟨(parentId, pn2), (hchar _).mpr ⟨Or.inr rfl, hpd⟩,
          by rw [← hcp]; exact hc1, ?_⟩
        show pn.parentId = some pe.1
        rw [hce2] at hc2
        exact hc2
      · exact ⟨ce, (hchar ce).mpr ⟨Or.inl ⟨hce, hcp⟩, hcDel⟩, hc1, hc2⟩
    · have hcmem2 : c ∈ pn.childrenIds.filter (fun cid => cid ≠ t) := hcmem
      obtain ⟨hcm, hct⟩ := List.mem_filter.mp hcmem2
      have hctne : c ≠ t := by simpa using hct
      obtain ⟨ce, hce, hc1, hc2⟩ := hcl (parentId, pn) (mget_mem hpn) c hcm
      have hcDel : ce.1 ∉ D ++ [t] := by
        intro hmem2
        rcases List.mem_append.mp hmem2 with hcD | hct2
        · exact (hcnotD ce hce parentId hc2 hpd) hcD
        · exact hctne (hc1.symm.trans (List.mem_singleton.mp hct2))
      by_cases hcp : ce.1 = parentId
      · have hce2 : ce.2 = pn := hpnEntry ce hce hcp
        refine ⟨(parentId, pn2), (hchar _).mpr ⟨Or.inr rfl, hpd⟩,
          by rw [← hcp]; exact hc1, ?_⟩
        show pn.parentId = some parentId
        rw [hce2] at hc2
        exact hc2
      · exact ⟨ce, (hchar ce).mpr ⟨Or.inl ⟨hce, hcp⟩, hcDel⟩, hc1, hc2⟩
  · intro e he p hp
    rcases (hchar e).mp he with ⟨⟨hm, _⟩ | rfl, heDel⟩
    · have hpk : p ∈ mkeys nodes := hdg e hm p hp
      obtain ⟨q, hq⟩ := Option.isSome_iff_exists.mp (mget_isSome_iff.mpr hpk)
      have hpDel : p ∉ D ++ [t] := fun hmem2 =>
        heDel (List.mem_append_left _ (hchild e hm p hp hmem2))
      by_cases hpp : p = parentId
      · rw [hpp]
        exact mem_mkeys_of_mem ((hchar (parentId, pn2)).mpr ⟨Or.inr rfl, hpd⟩)
      · exact mem_mkeys_of_mem
          ((hchar (p, q)).mpr ⟨Or.inl ⟨mget_mem hq, hpp⟩, hpDel⟩)
    · have hpk : p ∈ mkeys nodes := hdg (parentId, pn) (mget_mem hpn) p hp
      obtain ⟨q, hq⟩ := Option.isSome_iff_exists.mp (mget_isSome_iff.mpr hpk)
      have hpDel : p ∉ D ++ [t] := fun hmem2 =>
        hpd (List.mem_append_left _
          (hchild (parentId, pn) (mget_mem hpn) p hp hmem2))
      by_cases hpp : p = parentId
      · rw [hpp]
        exact mem_mkeys_of_mem ((hchar (parentId, pn2)).mpr ⟨Or.inr rfl, hpd⟩)
      · exact mem_mkeys_of_mem
          ((hchar (p, q)).mpr ⟨Or.inl ⟨mget_mem hq, hpp⟩, hpDel⟩)

/-- Side condition under which `addNode` preserves well-formedness: fresh id,
empty `childrenIds`, and a present parent when one is named. -/
def AddOK (n : MindMapNode) (nodes : List (String × MindMapNode)) : Prop :=
  mget nodes n.id = none ∧ n.childrenIds = [] ∧
  match n.parentId with
  | none => True
  | some pid => (mget nodes pid).isSome

instance (n : MindMapNode) (nodes : List (String × MindMapNode)) :
    Decidable (AddOK n nodes) := by
  unfold AddOK
  cases n.parentId with
  | none => exact inferInstance
  | some pid => exact inferInstance

/-- Side condition under which `deleteNode` preserves well-formedness: when
the target resolves to a non-root node, the collected descendant set is
closed under `childrenIds` and does not contain the parent — both automatic
on an acyclic mapping, where the fuelled collector finds every descendant. -/
def DelOK (t : String) (nodes : List (String × MindMapNode)) : Prop :=
  match (mget nodes t).bind (fun tn => tn.parentId) with
  | none => True
  | some pid =>
    (∀ d ∈ MindMapStore.getDescendantIds t nodes,
      ∀ c ∈ ((mget nodes d).map MindMapNode.childrenIds).getD [],
        c ∈ MindMapStore.getDescendantIds t nodes) ∧
    pid ∉ MindMapStore.getDescendantIds t nodes ++ [t]

instance (t : String) (nodes : List (String × MindMapNode)) :
    Decidable (DelOK t nodes) := by
  unfold DelOK
  cases (mget nodes t).bind (fun tn => tn.parentId) with
  | none => exact inferInstance
  | some pid => exact inferInstance

/-- Side condition under which `updateNode` preserves well-formedness: the
patch leaves the structural fields (`id`, `parentId`, `childrenIds`) absent
or equal to their current values. -/
def PatchStructOK (nodeId : String) (p : NodePatch)
    (nodes : List (String × MindMapNode)) : Prop :=
  ∀ e ∈ nodes, e.1 = nodeId →
    (p.id = none ∨ p.id = some e.2.id) ∧
    (p.parentId = none ∨ p.parentId = some e.2.parentId) ∧
    (p.childrenIds = none ∨ p.childrenIds = some e.2.childrenIds)

instance (nodeId : String) (p : NodePatch)
    (nodes : List (String × MindMapNode)) :
    Decidable (PatchStructOK nodeId p nodes) := by
  unfold PatchStructOK
  infer_instance

theorem WF_addNode (n : MindMapNode) (skipHistory : Bool) (s : MindMapStore)
    (hw : WF s.state.nodes) (hok : AddOK n s.state.nodes) :
    WF (MindMapStore.addNode n skipHistory s).state.nodes := by
  obtain ⟨hfresh, hchn, hpar⟩ := hok
  cases hp : n.parentId with
  | none =>
    simp only [MindMapStore.addNode, hp, MindMapStore.markMapDirty_state,
      MindMapStore.markNodeDirty_state]
    exact WF_mset_fresh_root hw hfresh hchn hp
  | some pid =>
    have hpar2 : (mget s.state.nodes pid).isSome := by
      rw [hp] at hpar
      exact hpar
    obtain ⟨pn, hpn⟩ := Option.isSome_iff_exists.mp hpar2
    simp only [MindMapStore.addNode, hp, hpn, MindMapStore.markMapDirty_state,
      MindMapStore.markNodeDirty_state]
    exact WF_addNode_nodes hw hfresh hchn hp hpn

theorem WF_deleteNode (t : String) (skipHistory : Bool) (s : MindMapStore)
    (hw : WF s.state.nodes) (hok : DelOK t s.state.nodes) :
    WF (MindMapStore.deleteNode t skipHistory s).state.nodes := by
  cases ht : mget s.state.nodes t with
  | none => simpa [MindMapStore.deleteNode, ht] using hw
  | some tn =>
    cases hpar : tn.parentId with
    | none => simpa [MindMapStore.deleteNode, ht, hpar] using hw
    | some pid =>
      simp only [DelOK, ht, Option.some_bind, hpar] at hok
      obtain ⟨hclosed, hpd⟩ := hok
      have hpk : pid ∈ mkeys s.state.nodes :=
        hw.2.2.2.2 (t, tn) (mget_mem ht) pid hpar
      obtain ⟨pn, hpn⟩ := Option.isSome_iff_exists.mp (mget_isSome_iff.mpr hpk)
      simp only [MindMapStore.deleteNode, ht, hpar, hpn,
        MindMapStore.markMapDirty_state, MindMapStore.markNodeDirty_state,
        MindMapStore.foldl_markNodeDeleted_state]
      exact WF_deleteNode_nodes hw ht hpar hpn hclosed hpd

theorem WF_updateNode (nodeId : String) (p : NodePatch) (skipHistory : Bool)
    (now : Nat) (s : MindMapStore) (hw : WF s.state.nodes)
    (hok : PatchStructOK nodeId p s.state.nodes) :
    WF (MindMapStore.updateNode nodeId p skipHistory now s).state.nodes := by
  cases hn : mget s.state.nodes nodeId with
  | none => simpa [MindMapStore.updateNode, hn] using hw
  | some node =>
    obtain ⟨hid, hpar, hch⟩ := hok (nodeId, node) (mget_mem hn) rfl
    have hid2 : (mergeNode node p).id = node.id := by
      rcases hid with h | h <;> simp [mergeNode, h]
    have hpar2 : (mergeNode node p).parentId = node.parentId := by
      rcases hpar with h | h <;> simp [mergeNode, h]
    have hch2 : (mergeNode node p).childrenIds = node.childrenIds := by
      rcases hch with h | h <;> simp [mergeNode, h]
    simp only [MindMapStore.updateNode, hn]
    split <;>
      (simp only [MindMapStore.markMapDirty_state, MindMapStore.markNodeDirty_state]
       exact WF_mset_struct hw hn hid2 hpar2 hch2)

/-- The structural fields a node mapping must agree on for well-formedness to
transfer. -/
def structOf (n : MindMapNode) : String × Option String × List String :=
  (n.id, n.parentId, n.childrenIds)

theorem snoStep_foldl_WF (nodes0 : List (String × MindMapNode))
    (delta : Position) (now : Nat) (D : List String) :
    ∀ acc, WF acc.2.2 →
      (∀ k, (mget acc.2.2 k).map structOf = (mget nodes0 k).map structOf) →
      WF (D.foldl (MindMapStore.snoStep nodes0 delta now) acc).2.2 ∧
      ∀ k, (mget (D.foldl (MindMapStore.snoStep nodes0 delta now) acc).2.2
        k).map structOf = (mget nodes0 k).map structOf := by
  induction D with
  | nil => exact fun acc hW hA => ⟨hW, hA⟩
  | cons i rest ih =>
    intro acc hW hA
    simp only [List.foldl_cons]
    cases hq : mget nodes0 i with
    | none =>
      have hstep : MindMapStore.snoStep nodes0 delta now acc i = acc := by
        simp [MindMapStore.snoStep, hq]
      rw [hstep]
      exact ih acc hW hA
    | some descNode =>
      have hAi := hA i
      rw [hq, Option.map_some'] at hAi
      obtain ⟨cur, hcur, hsc⟩ := Option.map_eq_some'.mp hAi
      have h22 : (MindMapStore.snoStep nodes0 delta now acc i).2.2 =
          mset acc.2.2 i
            { descNode with
              manualOffset := some
                ⟨(descNode.manualOffset.getD ⟨0, 0⟩).x + delta.x,
                  (descNode.manualOffset.getD ⟨0, 0⟩).y + delta.y⟩,
              updatedAt := now } := by
        simp [MindMapStore.snoStep, hq]
      refine ih _ ?_ ?_
      · rw [h22]
        refine WF_mset_struct hW hcur ?_ ?_ ?_
        · exact (congrArg (fun x => x.1) hsc).symm
        · exact (congrArg (fun x => x.2.1) hsc).symm
        · exact (congrArg (fun x => x.2.2) hsc).symm
      · intro k
        rw [h22]
        by_cases hk : k = i
        · subst hk
          rw [mget_mset_self, hq]
          simp [structOf]
        · rw [mget_mset_ne _ _ _ _ hk]
          exact hA k

theorem WF_setNodeOffset (nodeId : String) (newPosition : Position)
    (skipHistory : Bool) (now : Nat) (s : MindMapStore)
    (hw : WF s.state.nodes) :
    WF (MindMapStore.setNodeOffset nodeId newPosition skipHistory now
      s).state.nodes := by
  cases hn : mget s.state.nodes nodeId with
  | none => simpa [MindMapStore.setNodeOffset, hn] using hw
  | some node =>
    simp only [MindMapStore.setNodeOffset, hn, MindMapStore.markMapDirty_state,
      MindMapStore.markNodeDirty_state, MindMapStore.ite_markNodesDirty_state]
    simp only [MindMapStore.snoRes, hn]
    refine (snoStep_foldl_WF _ _ _ _ _ ?_ ?_).1
    · exact WF_mset_struct hw hn rfl rfl rfl
    · intro k
      by_cases hk : k = nodeId
      · subst hk
        rw [mget_mset_self, hn]
        simp [structOf]
      · rw [mget_mset_ne _ _ _ _ hk]

theorem WF_clearNodeOffset (nodeId : String) (now : Nat) (s : MindMapStore)
    (hw : WF s.state.nodes) :
    WF (MindMapStore.clearNodeOffset nodeId now s).state.nodes := by
  cases hn : mget s.state.nodes nodeId with
  | none => simpa [MindMapStore.clearNodeOffset, hn] using hw
  | some node =>
    simp only [MindMapStore.clearNodeOffset, hn]
    exact WF_mset_struct hw hn rfl rfl rfl

theorem WF_setOffsetDirect (nodeId : String) (offset : Option Position)
    (s : MindMapStore) (hw : WF s.state.nodes) :
    WF (MindMapStore.setOffsetDirect nodeId offset s).state.nodes := by
  cases hn : mget s.state.nodes nodeId with
  | none => simpa [MindMapStore.setOffsetDirect, hn] using hw
  | some node =>
    simp only [MindMapStore.setOffsetDirect, hn]
    exact WF_mset_struct hw hn rfl rfl rfl

theorem som_foldl_WF (offsets : List (String × Option Position)) :
    ∀ m : List (String × MindMapNode), WF m →
      WF (offsets.foldl (fun acc kv =>
        match mget acc kv.1 with
        | some node => mset acc kv.1 { node with manualOffset := kv.2 }
        | none => acc) m) := by
  induction offsets with
  | nil => exact fun m h => h
  | cons kv rest ih =>
    intro m h
    simp only [List.foldl_cons]
    refine ih _ ?_
    cases hq : mget m kv.1 with
    | none => simpa [hq] using h
    | some node =>
      simp only [hq]
      exact WF_mset_struct h hq rfl rfl rfl

theorem WF_setOffsetsMultiple (offsets : List (String × Option Position))
    (s : MindMapStore) (hw : WF s.state.nodes) :
    WF (MindMapStore.setOffsetsMultiple offsets s).state.nodes := by
  simp only [MindMapStore.setOffsetsMultiple]
  exact som_foldl_WF offsets s.state.nodes hw

/-- The side condition under which reverting a recorded command preserves
well-formedness. -/
def ActionRevertOK : MindMapAction → List (String × MindMapNode) → Prop
  | MindMapAction.ADD_NODE n, nodes => DelOK n.id nodes
  | MindMapAction.DELETE_NODE n _, nodes => AddOK n nodes
  | MindMapAction.SET_OFFSET _ _ _ _, _ => True
  | MindMapAction.UPDATE_NODE nodeId before _, nodes =>
    PatchStructOK nodeId before nodes
  | MindMapAction.REPARENT_NODE _ _ _, _ => True

instance (a : MindMapAction) (nodes : List (String × MindMapNode)) :
    Decidable (ActionRevertOK a nodes) := by
  cases a <;> simp only [ActionRevertOK] <;> infer_instance

/-- The side condition under which re-applying a command preserves
well-formedness. -/
def ActionApplyOK : MindMapAction → List (String × MindMapNode) → Prop
  | MindMapAction.ADD_NODE n, nodes => AddOK n nodes
  | MindMapAction.DELETE_NODE n _, nodes => DelOK n.id nodes
  | MindMapAction.SET_OFFSET _ _ _ _, _ => True
  | MindMapAction.UPDATE_NODE nodeId _ after, nodes =>
    PatchStructOK nodeId after nodes
  | MindMapAction.REPARENT_NODE _ _ _, _ => True

instance (a : MindMapAction) (nodes : List (String × MindMapNode)) :
    Decidable (ActionApplyOK a nodes) := by
  cases a <;> simp only [ActionApplyOK] <;> infer_instance

theorem WF_revertAction (a : MindMapAction) (now : Nat) (s : MindMapStore)
    (hw : WF s.state.nodes) (hok : ActionRevertOK a s.state.nodes) :
    WF (MindMapStore.revertAction a now s).state.nodes := by
  cases a with
  | ADD_NODE n => exact WF_deleteNode n.id true s hw hok
  | DELETE_NODE n p => exact WF_addNode n true s hw hok
  | SET_OFFSET nodeId fr t0 offs =>
    cases offs with
    | none => exact WF_setOffsetDirect nodeId fr s hw
    | some o => exact WF_setOffsetsMultiple o.1 s hw
  | UPDATE_NODE nodeId before after =>
    exact WF_updateNode nodeId before true now s hw hok
  | REPARENT_NODE x y z => exact hw

theorem WF_applyAction (a : MindMapAction) (now : Nat) (s : MindMapStore)
    (hw : WF s.state.nodes) (hok : ActionApplyOK a s.state.nodes) :
    WF (MindMapStore.applyAction a now s).state.nodes := by
  cases a with
  | ADD_NODE n => exact WF_addNode n true s hw hok
  | DELETE_NODE n p => exact WF_deleteNode n.id true s hw hok
  | SET_OFFSET nodeId fr t0 offs =>
    cases offs with
    | none => exact WF_setOffsetDirect nodeId t0 s hw
    | some o => exact WF_setOffsetsMultiple (o.2.map (fun kv => (kv.1, some kv.2))) s hw
  | UPDATE_NODE nodeId before after =>
    exact WF_updateNode nodeId after true now s hw hok
  | REPARENT_NODE x y z => exact hw

/-- `UndoOK`: the command `undo` is about to revert (if any) satisfies its
revert side condition. -/
def UndoOK (s : MindMapStore) : Prop :=
  match s.state.history.past.getLast? with
  | none => True
  | some a => ActionRevertOK a s.state.nodes

instance (s : MindMapStore) : Decidable (UndoOK s) := by
  unfold UndoOK
  cases s.state.history.past.getLast? with
  | none => exact inferInstance
  | some a => exact inferInstance

/-- `RedoOK`: the command `redo` is about to re-apply (if any) satisfies its
apply side condition. -/
def RedoOK (s : MindMapStore) : Prop :=
  match s.state.history.future with
  | [] => True
  | a :: _ => ActionApplyOK a s.state.nodes

instance (s : MindMapStore) : Decidable (RedoOK s) := by
  unfold RedoOK
  cases s.state.history.future with
  | nil => exact inferInstance
  | cons a rest => exact inferInstance

theorem WF_undo (now : Nat) (s : MindMapStore) (hw : WF s.state.nodes)
    (hok : UndoOK s) : WF (MindMapStore.undo now s).state.nodes := by
  cases hl : s.state.history.past.getLast? with
  | none => simpa [MindMapStore.undo, hl] using hw
  | some a =>
    have hok2 : ActionRevertOK a s.state.nodes := by
      unfold UndoOK at hok
      rw [hl] at hok
      exact hok
    simp only [MindMapStore.undo, hl]
    exact WF_revertAction a now s hw hok2

theorem WF_redo (now : Nat) (s : MindMapStore) (hw : WF s.state.nodes)
    (hok : RedoOK s) : WF (MindMapStore.redo now s).state.nodes := by
  cases hl : s.state.history.future with
  | nil => simpa [MindMapStore.redo, hl] using hw
  | cons a rest =>
    have hok2 : ActionApplyOK a s.state.nodes := by
      unfold RedoOK at hok
      rw [hl] at hok
      exact hok
    simp only [MindMapStore.redo, hl]
    exact WF_applyAction a now s hw hok2

/-- C4: after each mutating operation of the store the parent/child link
invariant — `N.parentId = P.id` implies `N.id ∈ P.childrenIds` and every id
in `P.childrenIds` names a node whose `parentId = P.id` — holds over the
node mapping, provided the operation's inputs are coherent with the current
well-formed mapping: `addNode` needs a fresh childless node with a present
(or null) parent, `deleteNode` needs the collected descendant set closed
under `childrenIds` and not containing the parent (automatic on acyclic
maps), `updateNode` needs a patch that does not rewrite the structural
fields, and `undo`/`redo` need these same conditions for the command they
replay; `setNodeOffset` and `clearNodeOffset` preserve the invariant
unconditionally. The unconditional claim is false: undoing the deletion of a
node with children re-adds it with its old `childrenIds`, which name nodes
that stay deleted. -/
theorem parent_child_invariant_amended (s : MindMapStore)
    (hw : WF s.state.nodes) :
    (∀ n skipHistory, AddOK n s.state.nodes →
      ParentChildInv (MindMapStore.addNode n skipHistory s).state.nodes) ∧
    (∀ t skipHistory, DelOK t s.state.nodes →
      ParentChildInv (MindMapStore.deleteNode t skipHistory s).state.nodes) ∧
    (∀ nodeId p skipHistory now, PatchStructOK nodeId p s.state.nodes →
      ParentChildInv
        (MindMapStore.updateNode nodeId p skipHistory now s).state.nodes) ∧
    (∀ nodeId newPosition skipHistory now,
      ParentChildInv
        (MindMapStore.setNodeOffset nodeId newPosition skipHistory now
          s).state.nodes) ∧
    (∀ nodeId now,
      ParentChildInv (MindMapStore.clearNodeOffset nodeId now s).state.nodes) ∧
    (∀ now, UndoOK s →
      ParentChildInv (MindMapStore.undo now s).state.nodes) ∧
    (∀ now, RedoOK s →
      ParentChildInv (MindMapStore.redo now s).state.nodes) :=
  ⟨fun n skipHistory hok =>
      ParentChildInv_of_WF (WF_addNode n skipHistory s hw hok),
    fun t skipHistory hok =>
      ParentChildInv_of_WF (WF_deleteNode t skipHistory s hw hok),
    fun nodeId p skipHistory now hok =>
      ParentChildInv_of_WF (WF_updateNode nodeId p skipHistory now s hw hok),
    fun nodeId newPosition skipHistory now =>
      ParentChildInv_of_WF
        (WF_setNodeOffset nodeId newPosition skipHistory now s hw),
    fun nodeId now =>
      ParentChildInv_of_WF (WF_clearNodeOffset nodeId now s hw),
    fun now hok => ParentChildInv_of_WF (WF_undo now s hw hok),
    fun now hok => ParentChildInv_of_WF (WF_redo now s hw hok)⟩

/-- C4 counterexample: the demo tree is well-formed, yet undoing
`deleteNode "A"` re-adds `A` with `childrenIds = ["C"]` while `C` stays
removed, so `A`'s child list names an absent node and the parent/child link
invariant fails after the mutating operation `undo` — the claim does not
hold for every mutating operation unconditionally. -/
theorem parent_child_invariant_counterexample :
    WF treeRABC.state.nodes ∧
    ¬ ParentChildInv
      (MindMapStore.undo 3
        (MindMapStore.deleteNode "A" false treeRABC)).state.nodes := by
  decide

/-- C4 witness: the amended theorem applied to the demo tree — deleting the
non-root node `A` (whose descendant set `["C"]` is closed and avoids the
parent `R`) keeps the parent/child link invariant. -/
theorem parent_child_invariant_witness :
    WF treeRABC.state.nodes ∧ DelOK "A" treeRABC.state.nodes ∧
    ParentChildInv
      (MindMapStore.deleteNode "A" false treeRABC).state.nodes :=
  ⟨by decide, by decide,
    (parent_child_invariant_amended treeRABC (by decide)).2.1 "A" false
      (by decide)⟩

/-! ## C1: undo-then-redo round trip -/

/-- The node-mapping transformation performed by `addNode`. -/
def addNodeNodes (node : MindMapNode) (nodes : List (String × MindMapNode)) :
    List (String × MindMapNode) :=
  match node.parentId with
  | some pid =>
    match mget nodes pid with
    | some parent =>
      mset (mset nodes node.id node) pid
        { parent with childrenIds := parent.childrenIds ++ [node.id] }
    | none => mset nodes node.id node
  | none => mset nodes node.id node

theorem addNode_nodes (node : MindMapNode) (skipHistory : Bool)
    (s : MindMapStore) :
    (MindMapStore.addNode node skipHistory s).state.nodes =
      addNodeNodes node s.state.nodes := by
  cases hp : node.parentId with
  | none =>
    simp only [MindMapStore.addNode, addNodeNodes, hp,
      MindMapStore.markMapDirty_state, MindMapStore.markNodeDirty_state]
  | some pid =>
    cases hq : mget s.state.nodes pid with
    | none =>
      simp only [MindMapStore.addNode, addNodeNodes, hp, hq,
        MindMapStore.markMapDirty_state, MindMapStore.markNodeDirty_state]
    | some parent =>
      simp only [MindMapStore.addNode, addNodeNodes, hp, hq,
        MindMapStore.markMapDirty_state, MindMapStore.markNodeDirty_state]

/-- The node-mapping transformation performed by `deleteNode`. -/
def deleteNodeNodes (nodeId : String) (nodes : List (String × MindMapNode)) :
    List (String × MindMapNode) :=
  match mget nodes nodeId with
  | none => nodes
  | some node =>
    match node.parentId with
    | none => nodes
    | some parentId =>
      (MindMapStore.getDescendantIds nodeId nodes ++ [nodeId]).foldl mdel
        (match mget nodes parentId with
         | some parent =>
           mset nodes parentId
             { parent with
               childrenIds :=
                 parent.childrenIds.filter (fun cid => cid ≠ nodeId) }
         | none => nodes)

theorem deleteNode_nodes (nodeId : String) (skipHistory : Bool)
    (s : MindMapStore) :
    (MindMapStore.deleteNode nodeId skipHistory s).state.nodes =
      deleteNodeNodes nodeId s.state.nodes := by
  cases ht : mget s.state.nodes nodeId with
  | none => simp only [MindMapStore.deleteNode, deleteNodeNodes, ht]
  | some node =>
    cases hpar : node.parentId with
    | none => simp only [MindMapStore.deleteNode, deleteNodeNodes, ht, hpar]
    | some parentId =>
      cases hq : mget s.state.nodes parentId with
      | none =>
        simp only [MindMapStore.deleteNode, deleteNodeNodes, ht, hpar, hq,
          MindMapStore.markMapDirty_state, MindMapStore.markNodeDirty_state,
          MindMapStore.foldl_markNodeDeleted_state]
      | some parent =>
        simp only [MindMapStore.deleteNode, deleteNodeNodes, ht, hpar, hq,
          MindMapStore.markMapDirty_state, MindMapStore.markNodeDirty_state,
          MindMapStore.foldl_markNodeDeleted_state]

/-- The node-mapping transformation performed by `updateNode`. -/
def updateNodeNodes (nodeId : String) (updates : NodePatch) (now : Nat)
    (nodes : List (String × MindMapNode)) : List (String × MindMapNode) :=
  match mget nodes nodeId with
  | none => nodes
  | some node =>
    mset nodes nodeId { mergeNode node updates with updatedAt := now }

theorem updateNode_nodes (nodeId : String) (updates : NodePatch)
    (skipHistory : Bool) (now : Nat) (s : MindMapStore) :
    (MindMapStore.updateNode nodeId updates skipHistory now s).state.nodes =
      updateNodeNodes nodeId updates now s.state.nodes := by
  cases hn : mget s.state.nodes nodeId with
  | none => simp only [MindMapStore.updateNode, updateNodeNodes, hn]
  | some node =>
    simp only [MindMapStore.updateNode, updateNodeNodes, hn]
    split <;>
      simp only [MindMapStore.markMapDirty_state,
        MindMapStore.markNodeDirty_state]

/-- The node-mapping transformation performed by `setOffsetDirect`. -/
def setOffsetDirectNodes (nodeId : String) (offset : Option Position)
    (nodes : List (String × MindMapNode)) : List (String × MindMapNode) :=
  match mget nodes nodeId with
  | none => nodes
  | some node => mset nodes nodeId { node with manualOffset := offset }

theorem setOffsetDirect_nodes (nodeId : String) (offset : Option Position)
    (s : MindMapStore) :
    (MindMapStore.setOffsetDirect nodeId offset s).state.nodes =
      setOffsetDirectNodes nodeId offset s.state.nodes := by
  cases hn : mget s.state.nodes nodeId with
  | none => simp only [MindMapStore.setOffsetDirect, setOffsetDirectNodes, hn]
  | some node =>
    simp only [MindMapStore.setOffsetDirect, setOffsetDirectNodes, hn]

/-- The node-mapping transformation performed by `setOffsetsMultiple`. -/
def setOffsetsMultipleNodes (offsets : List (String × Option Position))
    (nodes : List (String × MindMapNode)) : List (String × MindMapNode) :=
  offsets.foldl (fun acc kv =>
    match mget acc kv.1 with
    | some node => mset acc kv.1 { node with manualOffset := kv.2 }
    | none => acc) nodes

theorem setOffsetsMultiple_nodes (offsets : List (String × Option Position))
    (s : MindMapStore) :
    (MindMapStore.setOffsetsMultiple offsets s).state.nodes =
      setOffsetsMultipleNodes offsets s.state.nodes := rfl

/-- The node-mapping transformation performed by `revertAction`. -/
def revertActionNodes (a : MindMapAction) (now : Nat)
    (nodes : List (String × MindMapNode)) : List (String × MindMapNode) :=
  match a with
  | MindMapAction.ADD_NODE node => deleteNodeNodes node.id nodes
  | MindMapAction.DELETE_NODE node _ => addNodeNodes node nodes
  | MindMapAction.SET_OFFSET nodeId fromOffset _ descendantOffsets =>
    match descendantOffsets with
    | some offs => setOffsetsMultipleNodes offs.1 nodes
    | none => setOffsetDirectNodes nodeId fromOffset nodes
  | MindMapAction.UPDATE_NODE nodeId before _ =>
    updateNodeNodes nodeId before now nodes
  | MindMapAction.REPARENT_NODE _ _ _ => nodes

theorem revertAction_nodes (a : MindMapAction) (now : Nat) (s : MindMapStore) :
    (MindMapStore.revertAction a now s).state.nodes =
      revertActionNodes a now s.state.nodes := by
  cases a with
  | ADD_NODE node => exact deleteNode_nodes node.id true s
  | DELETE_NODE node p => exact addNode_nodes node true s
  | SET_OFFSET nodeId fr t0 offs =>
    cases offs with
    | none => exact setOffsetDirect_nodes nodeId fr s
    | some o => exact setOffsetsMultiple_nodes o.1 s
  | UPDATE_NODE nodeId before after =>
    exact updateNode_nodes nodeId before true now s
  | REPARENT_NODE x y z => rfl

/-- The node-mapping transformation performed by `applyAction`. -/
def applyActionNodes (a : MindMapAction) (now : Nat)
    (nodes : List (String × MindMapNode)) : List (String × MindMapNode) :=
  match a with
  | MindMapAction.ADD_NODE node => addNodeNodes node nodes
  | MindMapAction.DELETE_NODE node _ => deleteNodeNodes node.id nodes
  | MindMapAction.SET_OFFSET nodeId _ toOffset descendantOffsets =>
    match descendantOffsets with
    | some offs =>
      setOffsetsMultipleNodes (offs.2.map (fun kv => (kv.1, some kv.2))) nodes
    | none => setOffsetDirectNodes nodeId toOffset nodes
  | MindMapAction.UPDATE_NODE nodeId _ after =>
    updateNodeNodes nodeId after now nodes
  | MindMapAction.REPARENT_NODE _ _ _ => nodes

theorem applyAction_nodes (a : MindMapAction) (now : Nat) (s : MindMapStore) :
    (MindMapStore.applyAction a now s).state.nodes =
      applyActionNodes a now s.state.nodes := by
  cases a with
  | ADD_NODE node => exact addNode_nodes node true s
  | DELETE_NODE node p => exact deleteNode_nodes node.id true s
  | SET_OFFSET nodeId fr t0 offs =>
    cases offs with
    | none => exact setOffsetDirect_nodes nodeId t0 s
    | some o => exact setOffsetsMultiple_nodes (o.2.map (fun kv => (kv.1, some kv.2))) s
  | UPDATE_NODE nodeId before after =>
    exact updateNode_nodes nodeId after true now s
  | REPARENT_NODE x y z => rfl

theorem getDescendantIdsFuel_absent (nodes : List (String × MindMapNode))
    (c : String) (h : mget nodes c = none) :
    ∀ fuel, MindMapStore.getDescendantIdsFuel fuel c nodes = [] := by
  intro fuel
  cases fuel with
  | zero => rfl
  | succ f => simp [MindMapStore.getDescendantIdsFuel, h]

/-- A present node with no children has no collected descendants. -/
theorem getDescendantIds_nil {nodes : List (String × MindMapNode)}
    {nodeId : String} {n : MindMapNode} (hn : mget nodes nodeId = some n)
    (hch : n.childrenIds = []) :
    MindMapStore.getDescendantIds nodeId nodes = [] := by
  rw [MindMapStore.getDescendantIds]
  simp [MindMapStore.getDescendantIdsFuel, hn, hch]

theorem bind_eq_self_of_singleton (l : List String)
    (f : String → List String) (h : ∀ c ∈ l, f c = [c]) : l.bind f = l := by
  induction l with
  | nil => rfl
  | cons c cs ih =>
    show f c ++ cs.bind f = c :: cs
    rw [h c (List.mem_cons_self _ _),
      ih (fun c2 hc2 => h c2 (List.mem_cons_of_mem _ hc2))]
    rfl

/-- When every child of a present node is absent from the mapping, the
collected descendants are exactly the `childrenIds`. -/
theorem getDescendantIds_flat {nodes : List (String × MindMapNode)}
    {nodeId : String} {n : MindMapNode} (hn : mget nodes nodeId = some n)
    (habs : ∀ c ∈ n.childrenIds, mget nodes c = none) :
    MindMapStore.getDescendantIds nodeId nodes = n.childrenIds := by
  rw [MindMapStore.getDescendantIds]
  rw [show MindMapStore.getDescendantIdsFuel (nodes.length + 1) nodeId nodes =
      n.childrenIds.bind (fun childId =>
        childId :: MindMapStore.getDescendantIdsFuel nodes.length childId nodes)
    from by simp [MindMapStore.getDescendantIdsFuel, hn]]
  exact bind_eq_self_of_singleton _ _ (fun c hc => by
    rw [getDescendantIdsFuel_absent nodes c (habs c hc)])

/-- The last offset written for key `k` by a sequence of offset writes,
starting from default `d`. -/
def lastWriteOf (offsets : List (String × Option Position)) (k : String)
    (d : Option Position) : Option Position :=
  offsets.foldl (fun acc kv => if kv.1 = k then kv.2 else acc) d

theorem lastWriteOf_not_mem {offsets : List (String × Option Position)}
    {k : String} (h : k ∉ offsets.map Prod.fst) (d : Option Position) :
    lastWriteOf offsets k d = d := by
  induction offsets generalizing d with
  | nil => rfl
  | cons kv rest ih =>
    simp only [List.map_cons, List.mem_cons, not_or] at h
    show lastWriteOf rest k (if kv.1 = k then kv.2 else d) = d
    rw [if_neg (fun he => h.1 he.symm)]
    exact ih h.2 d

theorem lastWriteOf_const {offsets : List (String × Option Position)}
    {k : String} {c : Option Position}
    (h : ∀ kv ∈ offsets, kv.1 = k → kv.2 = c) : lastWriteOf offsets k c = c := by
  induction offsets with
  | nil => rfl
  | cons kv rest ih =>
    show lastWriteOf rest k (if kv.1 = k then kv.2 else c) = c
    by_cases hk : kv.1 = k
    · rw [if_pos hk, h kv (List.mem_cons_self _ _) hk]
      exact ih (fun kv2 hm => h kv2 (List.mem_cons_of_mem _ hm))
    · rw [if_neg hk]
      exact ih (fun kv2 hm => h kv2 (List.mem_cons_of_mem _ hm))

theorem lastWriteOf_mem {offsets : List (String × Option Position)}
    {k : String} {c : Option Position}
    (h : ∀ kv ∈ offsets, kv.1 = k → kv.2 = c)
    (hmem : k ∈ offsets.map Prod.fst) (d : Option Position) :
    lastWriteOf offsets k d = c := by
  induction offsets generalizing d with
  | nil => simp at hmem
  | cons kv rest ih =>
    show lastWriteOf rest k (if kv.1 = k then kv.2 else d) = c
    by_cases hk : kv.1 = k
    · rw [if_pos hk, h kv (List.mem_cons_self _ _) hk]
      exact lastWriteOf_const (fun kv2 hm => h kv2 (List.mem_cons_of_mem _ hm))
    · rw [if_neg hk]
      have hmem2 : k = kv.1 ∨ k ∈ rest.map Prod.fst := by
        rw [List.map_cons] at hmem
        exact List.mem_cons.mp hmem
      rcases hmem2 with he | hm
      · exact absurd he.symm hk
      · exact ih (fun kv2 h2 => h kv2 (List.mem_cons_of_mem _ h2)) hm d

/-- Lookup after a bulk offset write: the node keeps all fields but its
`manualOffset` becomes the last written value (its own when never written). -/
theorem som_foldl_mget (offsets : List (String × Option Position)) :
    ∀ (m : List (String × MindMapNode)) (k : String),
      mget (setOffsetsMultipleNodes offsets m) k =
        (mget m k).map (fun node =>
          { node with manualOffset := lastWriteOf offsets k node.manualOffset }) := by
  induction offsets with
  | nil =>
    intro m k
    show mget m k =
      (mget m k).map (fun node =>
        { node with manualOffset := node.manualOffset })
    cases mget m k <;> rfl
  | cons kv rest ih =>
    intro m k
    rw [show setOffsetsMultipleNodes (kv :: rest) m =
        setOffsetsMultipleNodes rest
          (match mget m kv.1 with
           | some node => mset m kv.1 { node with manualOffset := kv.2 }
           | none => m) from by simp [setOffsetsMultipleNodes]]
    rw [ih]
    have hstep : mget (match mget m kv.1 with
        | some node => mset m kv.1 { node with manualOffset := kv.2 }
        | none => m) k =
        (mget m k).map (fun node =>
          { node with
            manualOffset := if kv.1 = k then kv.2 else node.manualOffset }) := by
      cases hq : mget m kv.1 with
      | none =>
        by_cases hk : kv.1 = k
        · subst hk
          rw [hq]
          rfl
        · simp only [if_neg hk]
          cases mget m k <;> rfl
      | some node =>
        by_cases hk : kv.1 = k
        · subst hk
          rw [mget_mset_self, hq]
          simp
        · rw [mget_mset_ne _ _ _ _ (fun h => hk h.symm)]
          simp only [if_neg hk]
          cases mget m k <;> rfl
    rw [hstep]
    cases mget m k <;> rfl

/-- Expected node at key `k` after undo-then-redo at redo clock `n2`: the
mapping is restored exactly, except that replaying an `UpdateNode` restamps
its target's `updatedAt` with the redo clock. -/
def rtExpected (a : MindMapAction) (nodes : List (String × MindMapNode))
    (n2 : Nat) (k : String) : Option MindMapNode :=
  match a with
  | MindMapAction.UPDATE_NODE nodeId _ _ =>
    if k = nodeId then
      (mget nodes k).map (fun c => { c with updatedAt := n2 })
    else mget nodes k
  | _ => mget nodes k

/-- Coherence of a recorded `ADD_NODE` command with the current mapping: the
snapshot is the present node, it is childless, and its parent (when named)
is a distinct present node whose `childrenIds` end with the snapshot's id. -/
def AddRTOK (n : MindMapNode) (nodes : List (String × MindMapNode)) : Prop :=
  mget nodes n.id = some n ∧ n.childrenIds = [] ∧
  match n.parentId with
  | none => True
  | some pid =>
    pid ≠ n.id ∧
    match mget nodes pid with
    | none => False
    | some pn =>
      pn.childrenIds = pn.childrenIds.dropLast ++ [n.id] ∧
      n.id ∉ pn.childrenIds.dropLast

instance (n : MindMapNode) (nodes : List (String × MindMapNode)) :
    Decidable (AddRTOK n nodes) := by
  unfold AddRTOK
  cases n.parentId with
  | none => exact inferInstance
  | some pid =>
    change Decidable (mget nodes n.id = some n ∧ n.childrenIds = [] ∧
      pid ≠ n.id ∧
      match mget nodes pid with
      | none => False
      | some pn =>
        pn.childrenIds = pn.childrenIds.dropLast ++ [n.id] ∧
        n.id ∉ pn.childrenIds.dropLast)
    cases mget nodes pid with
    | none => exact inferInstance
    | some pn => exact inferInstance

/-- Coherence of a recorded `DELETE_NODE` command with the current mapping:
the snapshot and its recorded children are absent, and its parent is a
distinct present node that no longer lists the snapshot's id. -/
def DelRTOK (n : MindMapNode) (nodes : List (String × MindMapNode)) : Prop :=
  mget nodes n.id = none ∧ n.id ∉ n.childrenIds ∧
  (∀ c ∈ n.childrenIds, mget nodes c = none) ∧
  match n.parentId with
  | none => False
  | some p =>
    p ≠ n.id ∧
    match mget nodes p with
    | none => False
    | some pn => n.id ∉ pn.childrenIds

instance (n : MindMapNode) (nodes : List (String × MindMapNode)) :
    Decidable (DelRTOK n nodes) := by
  unfold DelRTOK
  cases n.parentId with
  | none => exact inferInstance
  | some p =>
    change Decidable (mget nodes n.id = none ∧ n.id ∉ n.childrenIds ∧
      (∀ c ∈ n.childrenIds, mget nodes c = none) ∧
      p ≠ n.id ∧
      match mget nodes p with
      | none => False
      | some pn => n.id ∉ pn.childrenIds)
    cases mget nodes p with
    | none => exact inferInstance
    | some pn => exact inferInstance

/-- Coherence of a recorded `SET_OFFSET` command with the current mapping:
without cascade data, the target's current offset is the recorded `to`
offset; with cascade data, every old-offset key is among the new-offset keys
and every present node named by the new record carries its recorded offset. -/
def SetRTOK (nodeId : String) (toOffset : Option Position)
    (descendantOffsets :
      Option (List (String × Option Position) × List (String × Position)))
    (nodes : List (String × MindMapNode)) : Prop :=
  match descendantOffsets with
  | none =>
    match mget nodes nodeId with
    | none => True
    | some cur => cur.manualOffset = toOffset
  | some offs =>
    (∀ kv ∈ offs.1, kv.1 ∈ offs.2.map Prod.fst) ∧
    (∀ kv ∈ offs.2, ∀ e ∈ nodes, e.1 = kv.1 → e.2.manualOffset = some kv.2)

instance (nodeId : String) (toOffset : Option Position)
    (descendantOffsets :
      Option (List (String × Option Position) × List (String × Position)))
    (nodes : List (String × MindMapNode)) :
    Decidable (SetRTOK nodeId toOffset descendantOffsets nodes) := by
  unfold SetRTOK
  cases descendantOffsets with
  | none =>
    cases mget nodes nodeId with
    | none => exact inferInstance
    | some cur => exact inferInstance
  | some offs => exact inferInstance

/-- Coherence of a recorded `UPDATE_NODE` command with the current mapping:
replaying `before` then `after` over the present target reproduces it up to
the `updatedAt` stamp. -/
def UpdRTOK (nodeId : String) (before after : NodePatch)
    (nodes : List (String × MindMapNode)) : Prop :=
  ∀ e ∈ nodes, e.1 = nodeId →
    { mergeNode (mergeNode e.2 before) after with updatedAt := 0 } =
      { e.2 with updatedAt := 0 }

instance (nodeId : String) (before after : NodePatch)
    (nodes : List (String × MindMapNode)) :
    Decidable (UpdRTOK nodeId before after nodes) := by
  unfold UpdRTOK
  infer_instance

/-- The per-variant coherence condition for an undo-then-redo round trip. -/
def ActionRTOK : MindMapAction → List (String × MindMapNode) → Prop
  | MindMapAction.ADD_NODE n, nodes => AddRTOK n nodes
  | MindMapAction.DELETE_NODE n _, nodes => DelRTOK n nodes
  | MindMapAction.SET_OFFSET nodeId _ toOffset descendantOffsets, nodes =>
    SetRTOK nodeId toOffset descendantOffsets nodes
  | MindMapAction.UPDATE_NODE nodeId before after, nodes =>
    UpdRTOK nodeId before after nodes
  | MindMapAction.REPARENT_NODE _ _ _, _ => True

instance (a : MindMapAction) (nodes : List (String × MindMapNode)) :
    Decidable (ActionRTOK a nodes) := by
  cases a <;> simp only [ActionRTOK] <;> infer_instance

theorem upd_stamp_congr {x y : MindMapNode}
    (h : { x with updatedAt := 0 } = { y with updatedAt := 0 }) (n : Nat) :
    { x with updatedAt := n } = { y with updatedAt := n } := by
  cases x
  cases y
  simp only [MindMapNode.mk.injEq, eq_self_iff_true, and_true] at h
  obtain ⟨h1, h2, h3, h4, h5, h6, h7, h8, h9, h10, h11, h12, h13, h14⟩ := h
  subst h1 h2 h3 h4 h5 h6 h7 h8 h9 h10 h11 h12 h13 h14
  rfl

theorem merge_stamp_congr {x y : MindMapNode} (p : NodePatch)
    (h : { x with updatedAt := 0 } = { y with updatedAt := 0 }) :
    { mergeNode x p with updatedAt := 0 } =
      { mergeNode y p with updatedAt := 0 } := by
  cases x
  cases y
  simp only [MindMapNode.mk.injEq, eq_self_iff_true, and_true] at h
  obtain ⟨h1, h2, h3, h4, h5, h6, h7, h8, h9, h10, h11, h12, h13, h14⟩ := h
  subst h1 h2 h3 h4 h5 h6 h7 h8 h9 h10 h11 h12 h13 h14
  rfl

/-- Nodes-level undo-then-redo round trip, per command variant, under the
coherence condition. -/
theorem roundtripNodes (a : MindMapAction) (n1 n2 : Nat)
    (nodes : List (String × MindMapNode)) (hok : ActionRTOK a nodes)
    (k : String) :
    mget (applyActionNodes a n2 (revertActionNodes a n1 nodes)) k =
      rtExpected a nodes n2 k := by
  cases a with
  | ADD_NODE n =>
    obtain ⟨hcur, hch, hpc⟩ := hok
    simp only [revertActionNodes, applyActionNodes, rtExpected]
    cases hp : n.parentId with
    | none =>
      have hdel : deleteNodeNodes n.id nodes = nodes := by
        simp [deleteNodeNodes, hcur, hp]
      rw [hdel]
      simp only [addNodeNodes, hp]
      by_cases hk : k = n.id
      · subst hk
        rw [mget_mset_self]
        exact hcur.symm
      · exact mget_mset_ne _ _ _ _ hk
    | some pid =>
      have hpc2 : pid ≠ n.id ∧
          (match mget nodes pid with
           | none => False
           | some pn =>
             pn.childrenIds = pn.childrenIds.dropLast ++ [n.id] ∧
             n.id ∉ pn.childrenIds.dropLast) := by
        rw [hp] at hpc
        exact hpc
      obtain ⟨hpidne, hpc3⟩ := hpc2
      cases hq : mget nodes pid with
      | none =>
        rw [hq] at hpc3
        exact hpc3.elim
      | some pn =>
        rw [hq] at hpc3
        obtain ⟨hdecomp, hnotin⟩ := hpc3
        have hfilter : pn.childrenIds.filter (fun cid => cid ≠ n.id) =
            pn.childrenIds.dropLast := by
          conv_lhs => rw [hdecomp]
          rw [List.filter_append]
          rw [show (pn.childrenIds.dropLast).filter (fun cid => cid ≠ n.id) =
              pn.childrenIds.dropLast from List.filter_eq_self.mpr
                (fun x hx => by
                  simpa using fun he : x = n.id => hnotin (he ▸ hx))]
          simp
        have hdel : deleteNodeNodes n.id nodes =
            mdel (mset nodes pid
              { pn with childrenIds := pn.childrenIds.dropLast }) n.id := by
          simp only [deleteNodeNodes, hcur, hp, hq,
            getDescendantIds_nil hcur hch, hfilter, List.nil_append,
            List.foldl_cons, List.foldl_nil]
        have hdelp : mget (deleteNodeNodes n.id nodes) pid =
            some { pn with childrenIds := pn.childrenIds.dropLast } := by
          rw [hdel, mget_mdel_ne _ _ _ hpidne]
          exact mget_mset_self _ _ _
        have happly : addNodeNodes n (deleteNodeNodes n.id nodes) =
            mset (mset (deleteNodeNodes n.id nodes) n.id n) pid
              { pn with childrenIds := pn.childrenIds.dropLast ++ [n.id] } := by
          simp only [addNodeNodes, hp, hdelp]
        rw [happly]
        by_cases hkp : k = pid
        · subst hkp
          rw [mget_mset_self, hq]
          show some { pn with childrenIds := pn.childrenIds.dropLast ++ [n.id] } =
            some pn
          rw [← hdecomp]
        · by_cases hkn : k = n.id
          · subst hkn
            rw [mget_mset_ne _ _ _ _ hkp, mget_mset_self, hcur]
          · rw [mget_mset_ne _ _ _ _ hkp, mget_mset_ne _ _ _ _ hkn, hdel,
              mget_mdel_ne _ _ _ hkn, mget_mset_ne _ _ _ _ hkp]
  | DELETE_NODE n p =>
    obtain ⟨habs, hself, hchabs, hpc⟩ := hok
    simp only [revertActionNodes, applyActionNodes, rtExpected]
    cases hp : n.parentId with
    | none =>
      rw [hp] at hpc
      exact hpc.elim
    | some p0 =>
      have hpc2 : p0 ≠ n.id ∧
          (match mget nodes p0 with
           | none => False
           | some pn => n.id ∉ pn.childrenIds) := by
        rw [hp] at hpc
        exact hpc
      obtain ⟨hpne, hpc3⟩ := hpc2
      cases hq : mget nodes p0 with
      | none =>
        rw [hq] at hpc3
        exact hpc3.elim
      | some pn =>
        rw [hq] at hpc3
        have hadd : addNodeNodes n nodes =
            mset (mset nodes n.id n) p0
              { pn with childrenIds := pn.childrenIds ++ [n.id] } := by
          simp only [addNodeNodes, hp, hq]
        rw [hadd]
        have hm2n : mget (mset (mset nodes n.id n) p0
            { pn with childrenIds := pn.childrenIds ++ [n.id] }) n.id =
            some n := by
          rw [mget_mset_ne _ _ _ _ (show n.id ≠ p0 from fun h => hpne h.symm)]
          exact mget_mset_self _ _ _
        have hcp : ∀ c ∈ n.childrenIds, c ≠ p0 := by
          intro c hc he
          have h2 := hchabs c hc
          rw [he, hq] at h2
          exact Option.noConfusion h2
        have hcn : ∀ c ∈ n.childrenIds, c ≠ n.id :=
          fun c hc he => hself (he ▸ hc)
        have hm2c : ∀ c ∈ n.childrenIds,
            mget (mset (mset nodes n.id n) p0
              { pn with childrenIds := pn.childrenIds ++ [n.id] }) c = none := by
          intro c hc
          rw [mget_mset_ne _ _ _ _ (hcp c hc), mget_mset_ne _ _ _ _ (hcn c hc)]
          exact hchabs c hc
        have hdesc := getDescendantIds_flat hm2n hm2c
        have hm2p : mget (mset (mset nodes n.id n) p0
            { pn with childrenIds := pn.childrenIds ++ [n.id] }) p0 =
            some { pn with childrenIds := pn.childrenIds ++ [n.id] } :=
          mget_mset_self _ _ _
        have hfilter : (pn.childrenIds ++ [n.id]).filter
            (fun cid => cid ≠ n.id) = pn.childrenIds := by
          rw [List.filter_append]
          rw [show pn.childrenIds.filter (fun cid => cid ≠ n.id) =
              pn.childrenIds from List.filter_eq_self.mpr
                (fun x hx => by
                  simpa using fun he : x = n.id => hpc3 (he ▸ hx))]
          simp
        have hdel : deleteNodeNodes n.id
            (mset (mset nodes n.id n) p0
              { pn with childrenIds := pn.childrenIds ++ [n.id] }) =
            (n.childrenIds ++ [n.id]).foldl mdel
              (mset (mset (mset nodes n.id n) p0
                { pn with childrenIds := pn.childrenIds ++ [n.id] }) p0 pn) := by
          simp only [deleteNodeNodes, hm2n, hp, hm2p, hdesc, hfilter]
        rw [hdel, mget_foldl_mdel]
        by_cases hkmem : k ∈ n.childrenIds ++ [n.id]
        · rw [if_pos hkmem]
          rcases List.mem_append.mp hkmem with hkc | hkn
          · exact (hchabs k hkc).symm
          · rw [List.mem_singleton.mp hkn]
            exact habs.symm
        · rw [if_neg hkmem]
          have hknotn : k ≠ n.id := fun he => hkmem (by
            rw [he]
            exact List.mem_append_right _ (List.mem_singleton.mpr rfl))
          by_cases hkp0 : k = p0
          · subst hkp0
            rw [mget_mset_self, hq]
          · rw [mget_mset_ne _ _ _ _ hkp0, mget_mset_ne _ _ _ _ hkp0,
              mget_mset_ne _ _ _ _ hknotn]
  | SET_OFFSET nodeId fr t0 offs =>
    simp only [revertActionNodes, applyActionNodes, rtExpected]
    cases offs with
    | none =>
      have hok2 : (match mget nodes nodeId with
          | none => True
          | some cur => cur.manualOffset = t0) := hok
      cases hm : mget nodes nodeId with
      | none =>
        have h1 : setOffsetDirectNodes nodeId fr nodes = nodes := by
          simp [setOffsetDirectNodes, hm]
        have h2 : setOffsetDirectNodes nodeId t0 nodes = nodes := by
          simp [setOffsetDirectNodes, hm]
        rw [h1, h2]
      | some cur =>
        rw [hm] at hok2
        have hmo : cur.manualOffset = t0 := hok2
        have h1 : setOffsetDirectNodes nodeId fr nodes =
            mset nodes nodeId { cur with manualOffset := fr } := by
          simp only [setOffsetDirectNodes, hm]
        have h2 : mget (mset nodes nodeId { cur with manualOffset := fr })
            nodeId = some { cur with manualOffset := fr } :=
          mget_mset_self _ _ _
        have h3 : setOffsetDirectNodes nodeId t0
            (mset nodes nodeId { cur with manualOffset := fr }) =
            mset (mset nodes nodeId { cur with manualOffset := fr }) nodeId
              { cur with manualOffset := t0 } := by
          simp only [setOffsetDirectNodes, h2]
        rw [h1, h3]
        by_cases hk : k = nodeId
        · subst hk
          rw [mget_mset_self, hm, ← hmo]
        · rw [mget_mset_ne _ _ _ _ hk, mget_mset_ne _ _ _ _ hk]
    | some o =>
      have hsub : ∀ kv ∈ o.1, kv.1 ∈ o.2.map Prod.fst := hok.1
      have hcoh : ∀ kv ∈ o.2, ∀ e ∈ nodes, e.1 = kv.1 →
          e.2.manualOffset = some kv.2 := hok.2
      rw [som_foldl_mget, som_foldl_mget]
      cases hm : mget nodes k with
      | none => rfl
      | some node =>
        have hcohk : ∀ kv ∈ o.2.map (fun kv => (kv.1, some kv.2)),
            kv.1 = k → kv.2 = node.manualOffset := by
          intro kv hkv hk1
          rcases List.mem_map.mp hkv with ⟨kv0, hkv0, rfl⟩
          exact (hcoh kv0 hkv0 (k, node) (mget_mem hm) hk1.symm).symm
        have hgoal : lastWriteOf (o.2.map (fun kv => (kv.1, some kv.2))) k
            (lastWriteOf o.1 k node.manualOffset) = node.manualOffset := by
          by_cases hmem2 :
              k ∈ (o.2.map (fun kv => (kv.1, some kv.2))).map Prod.fst
          · exact lastWriteOf_mem hcohk hmem2 _
          · have hkeys : (o.2.map (fun kv => (kv.1, some kv.2))).map Prod.fst =
                o.2.map Prod.fst := by
              simp [List.map_map]
            have hmem1 : k ∉ o.1.map Prod.fst := by
              intro hmem1
              rcases List.mem_map.mp hmem1 with ⟨kv0, hkv0, hfst⟩
              apply hmem2
              rw [hkeys, ← hfst]
              exact hsub kv0 hkv0
            rw [lastWriteOf_not_mem hmem2, lastWriteOf_not_mem hmem1]
        show some { node with
            manualOffset := lastWriteOf (o.2.map (fun kv => (kv.1, some kv.2))) k
              (lastWriteOf o.1 k node.manualOffset) } = some node
        rw [hgoal]
  | UPDATE_NODE nodeId before after =>
    simp only [revertActionNodes, applyActionNodes, rtExpected]
    cases hm : mget nodes nodeId with
    | none =>
      have h1 : updateNodeNodes nodeId before n1 nodes = nodes := by
        simp [updateNodeNodes, hm]
      have h2 : updateNodeNodes nodeId after n2 nodes = nodes := by
        simp [updateNodeNodes, hm]
      rw [h1, h2]
      by_cases hk : k = nodeId
      · subst hk
        rw [if_pos rfl, hm]
        rfl
      · rw [if_neg hk]
    | some cur =>
      have hcond2 : { mergeNode (mergeNode cur before) after with
          updatedAt := 0 } = { cur with updatedAt := 0 } :=
        hok (nodeId, cur) (mget_mem hm) rfl
      have h1 : updateNodeNodes nodeId before n1 nodes =
          mset nodes nodeId { mergeNode cur before with updatedAt := n1 } := by
        simp only [updateNodeNodes, hm]
      have h2 : mget (mset nodes nodeId
          { mergeNode cur before with updatedAt := n1 }) nodeId =
          some { mergeNode cur before with updatedAt := n1 } :=
        mget_mset_self _ _ _
      have h3 : updateNodeNodes nodeId after n2
          (mset nodes nodeId { mergeNode cur before with updatedAt := n1 }) =
          mset (mset nodes nodeId
              { mergeNode cur before with updatedAt := n1 }) nodeId
            { mergeNode { mergeNode cur before with updatedAt := n1 } after with
              updatedAt := n2 } := by
        simp only [updateNodeNodes, h2]
      rw [h1, h3]
      by_cases hk : k = nodeId
      · subst hk
        rw [mget_mset_self, if_pos rfl, hm]
        have hx : { ({ mergeNode cur before with updatedAt := n1 } :
            MindMapNode) with updatedAt := 0 } =
            { mergeNode cur before with updatedAt := 0 } := rfl
        have hmerge := merge_stamp_congr after hx
        have hfinal := upd_stamp_congr (hmerge.trans hcond2) n2
        show some { mergeNode { mergeNode cur before with updatedAt := n1 }
            after with updatedAt := n2 } = some { cur with updatedAt := n2 }
        rw [hfinal]
      · rw [mget_mset_ne _ _ _ _ hk, mget_mset_ne _ _ _ _ hk, if_neg hk]
  | REPARENT_NODE x y z =>
    simp only [revertActionNodes, applyActionNodes, rtExpected]

/-- C1 (amended): when the past stack ends in a command `a` coherent with
the current state, `undo` at clock `n1` followed by `redo` at clock `n2`
restores both history stacks exactly and restores the node mapping exactly
as a key → node mapping — except when `a` is an `UpdateNode`, whose target
comes back with `updatedAt` restamped to the redo clock instead of its
pre-undo value (`rtExpected` records exactly this). The spec's unconditional
"restores the exact pre-undo state" is false for `UpdateNode`: both replay
directions run through `updateNode`, which stamps `updatedAt` with the
current clock. -/
theorem undo_redo_roundtrip_amended (s : MindMapStore)
    (ps : List MindMapAction) (a : MindMapAction) (n1 n2 : Nat)
    (hpast : s.state.history.past = ps ++ [a])
    (hok : ActionRTOK a s.state.nodes) :
    (∀ k, mget (MindMapStore.redo n2 (MindMapStore.undo n1 s)).state.nodes k =
      rtExpected a s.state.nodes n2 k) ∧
    (MindMapStore.redo n2 (MindMapStore.undo n1 s)).state.history.past =
      s.state.history.past ∧
    (MindMapStore.redo n2 (MindMapStore.undo n1 s)).state.history.future =
      s.state.history.future := by
  have hlast : s.state.history.past.getLast? = some a := by
    rw [hpast]
    exact List.getLast?_concat _
  have hu1 : (MindMapStore.undo n1 s).state.nodes =
      revertActionNodes a n1 s.state.nodes := by
    simp only [MindMapStore.undo, hlast]
    exact revertAction_nodes a n1 s
  have hu2 : (MindMapStore.undo n1 s).state.history.past =
      s.state.history.past.dropLast := by
    simp only [MindMapStore.undo, hlast]
  have hu3 : (MindMapStore.undo n1 s).state.history.future =
      a :: s.state.history.future := by
    simp only [MindMapStore.undo, hlast]
  have hr1 : (MindMapStore.redo n2 (MindMapStore.undo n1 s)).state.nodes =
      applyActionNodes a n2 (MindMapStore.undo n1 s).state.nodes := by
    simp only [MindMapStore.redo, hu3]
    exact applyAction_nodes a n2 _
  have hr2 : (MindMapStore.redo n2 (MindMapStore.undo n1 s)).state.history.past =
      (MindMapStore.undo n1 s).state.history.past ++ [a] := by
    simp only [MindMapStore.redo, hu3]
  have hr3 : (MindMapStore.redo n2
      (MindMapStore.undo n1 s)).state.history.future =
      s.state.history.future := by
    simp only [MindMapStore.redo, hu3]
  refine ⟨fun k => ?_, ?_, hr3⟩
  · rw [hr1, hu1]
    exact roundtripNodes a n1 n2 s.state.nodes hok k
  · rw [hr2, hu2, hpast, List.dropLast_concat]

/-- A store over `demoMap` with the given mapping and past stack. -/
def mkStoreH (nodes : List (String × MindMapNode))
    (past : List MindMapAction) : MindMapStore :=
  ⟨⟨some demoMap, nodes, none, none, ⟨past, []⟩, DEFAULT_VIEW⟩, ∅, ∅, false⟩

/-- Round-trip counterexample store: `B` was renamed to "new" at clock 5 and
the recorded `UPDATE_NODE` command (full before-snapshot plus the text
patch) sits on the past stack. -/
def updStore : MindMapStore :=
  mkStoreH
    [("R", mkN "R" none ["B"]),
      ("B", { mkN "B" (some "R") [] with text := "new", updatedAt := 5 })]
    [MindMapAction.UPDATE_NODE "B" (toPatch (mkN "B" (some "R") []))
      { NodePatch.empty with text := some "new" }]

/-- C1 counterexample: undoing (clock 7) and redoing (clock 9) the recorded
`UpdateNode` restores the history stack but not the document — `B` comes
back with `updatedAt` 9 instead of its pre-undo value 5, so the round trip
does not restore the exact pre-undo state. -/
theorem undo_redo_roundtrip_counterexample :
    (MindMapStore.redo 9 (MindMapStore.undo 7 updStore)).state.history.past =
      updStore.state.history.past ∧
    mget (MindMapStore.redo 9 (MindMapStore.undo 7 updStore)).state.nodes "B" ≠
      mget updStore.state.nodes "B" ∧
    mget (MindMapStore.redo 9 (MindMapStore.undo 7 updStore)).state.nodes "B" =
      some { mkN "B" (some "R") [] with text := "new", updatedAt := 9 } := by
  decide

/-- A cascading `SET_OFFSET` command over `A` and its descendant `C`,
coherent with `snoFix`. -/
def snoAct : MindMapAction :=
  MindMapAction.SET_OFFSET "A" none (some ⟨3, 4⟩)
    (some ([("A", none), ("C", none)], [("A", ⟨3, 4⟩), ("C", ⟨5, 6⟩)]))

/-- A store whose past ends in the cascading `SET_OFFSET` `snoAct`, with the
current offsets of `A` and `C` matching the command's new-offset record. -/
def snoFix : MindMapStore :=
  mkStoreH
    [("R", mkN "R" none ["A"]),
      ("A", { mkN "A" (some "R") ["C"] with manualOffset := some ⟨3, 4⟩ }),
      ("C", { mkN "C" (some "A") [] with manualOffset := some ⟨5, 6⟩ })]
    [snoAct]

/-- C1 witness: the amended theorem applied to the cascading `SET_OFFSET`
fixture — the descendant `C` (and its `manualOffset`) and the past stack are
restored exactly by undo (clock 7) then redo (clock 9). -/
theorem undo_redo_roundtrip_witness :
    snoFix.state.history.past = [] ++ [snoAct] ∧
    ActionRTOK snoAct snoFix.state.nodes ∧
    mget (MindMapStore.redo 9 (MindMapStore.undo 7 snoFix)).state.nodes "C" =
      rtExpected snoAct snoFix.state.nodes 9 "C" ∧
    (MindMapStore.redo 9 (MindMapStore.undo 7 snoFix)).state.history.past =
      snoFix.state.history.past :=
  ⟨by decide, by decide,
    (undo_redo_roundtrip_amended snoFix [] snoAct 7 9 (by decide)
      (by decide)).1 "C",
    (undo_redo_roundtrip_amended snoFix [] snoAct 7 9 (by decide)
      (by decide)).2.1⟩

end GellerMap
